import Mathlib

/-!
Scope filling for inline assembly: a verification development for
`libsolidity/inlineasm/AsmScopeFiller.cpp`.

The `ScopeFiller` visitor is embedded shallowly.  Heap-allocated `Scope` objects live in an
arena (`State.heap`); a `Scope*` or `shared_ptr<Scope>` is an index into it.  Blocks are
identified by their address.  Fatal events (a failed `solAssert`, `std::map::at` on a missing
key, a dereference of an invalid pointer) end the run with `Result.fatal`, keeping the state
reached so far.  Definitions come first, then the theorems.
-/

namespace AsmScopeFiller

/-! ## Data model -/

/-- Modelled from the spec: `SourceLocation` is declared outside the source file; a location tag
carried by every AST node and copied into diagnostics. -/
structure SourceLocation where
  start : Int
  stop : Int
  sourceName : String
deriving DecidableEq, Repr

/-- Modelled from the spec: `Error::Type` is declared outside the source file; the scope filler
only ever uses `DeclarationError`. -/
inductive ErrorType where
  | DeclarationError
  | DocstringParsingError
  | ParserError
  | TypeError
  | SyntaxError
  | Warning
deriving DecidableEq, Repr

/-- One diagnostic record: `make_shared<Error>(type, message, location)`. -/
structure Error where
  type : ErrorType
  message : String
  location : SourceLocation
deriving DecidableEq, Repr

/-- The error sink `ErrorList`. -/
abbrev ErrorList := List Error

/-- A `Scope*` or `shared_ptr<Scope>` that is not null: the address of a scope object. -/
abbrev ScopeRef := Nat

/-- A `Block const*`: `none` is `nullptr`, `some a` the address of a block of the AST. -/
abbrev BlockPtr := Option Nat

/-- Modelled from the spec: `Scope::Label` is declared outside the source file; a numeric id, an
optional integer stack adjustment and the flag "resets stack height". -/
structure Label where
  id : Nat
  stackAdjustment : Option Int
  resetStackHeight : Bool
deriving DecidableEq, Repr

/-- Modelled from the spec: the constructor `Scope::Label(id)`; stack metadata starts unset. -/
def Label.new (id : Nat) : Label := { id := id, stackAdjustment := none, resetStackHeight := false }

/-- Modelled from the spec: `Scope::Label::errorLabelId`, the reserved sentinel id of the error
label (the value of the constant is not in the source file). -/
def errorLabelId : Nat := 2 ^ 64 - 1

/-- Modelled from the spec: `Scope::Label::unassignedLabelId`, the sentinel id a label carries
until a later pass assigns one (the value of the constant is not in the source file). -/
def unassignedLabelId : Nat := 0

/-- Modelled from the spec: `Scope::Identifier`, declared outside the source file; a variable
(no payload), a label, or a function with its argument and return counts. -/
inductive Identifier where
  | Variable
  | Label (l : Label)
  | Function (arguments : Nat) (returns : Nat)
deriving DecidableEq, Repr

/-- Lookup in a `std::map`, kept as an association list with one entry per key. -/
def mapFind {κ ν : Type} [DecidableEq κ] (k : κ) : List (κ × ν) → Option ν
  | [] => none
  | e :: rest => if e.1 = k then some e.2 else mapFind k rest

/-- The assignment `m[k] = v` on a `std::map`: overwrite the entry of `k`, or add one. -/
def mapAssign {κ ν : Type} [DecidableEq κ] (k : κ) (v : ν) : List (κ × ν) → List (κ × ν)
  | [] => [(k, v)]
  | e :: rest => if e.1 = k then (k, v) :: rest else e :: mapAssign k v rest

/-- Modelled from the spec: `Scope` is declared outside the source file; the identifier table,
the link to the enclosing scope, the directly nested scopes and the function-scope flag. -/
structure Scope where
  identifiers : List (String × Identifier)
  superScope : Option ScopeRef
  subScopes : List ScopeRef
  functionScope : Bool
deriving DecidableEq, Repr

/-- The scope built by `make_shared<Scope>()`. -/
def Scope.empty : Scope :=
  { identifiers := [], superScope := none, subScopes := [], functionScope := false }

/-- Whether a name is present in the scope's own table. -/
def Scope.has (sc : Scope) (name : String) : Bool := (mapFind name sc.identifiers).isSome

/-- Modelled from the spec: `Scope::registerVariable`, defined outside the source file; succeeds
and inserts a `Variable` entry iff the name is not already present in the scope's own table,
otherwise fails without mutating the scope. -/
def Scope.registerVariable (sc : Scope) (name : String) : Bool × Scope :=
  if sc.has name then (false, sc)
  else (true, { sc with identifiers := mapAssign name Identifier.Variable sc.identifiers })

/-- Modelled from the spec: `Scope::registerLabel`, defined outside the source file; same
collision policy, inserting a `Label` entry with the given id. -/
def Scope.registerLabel (sc : Scope) (name : String) (id : Nat) : Bool × Scope :=
  if sc.has name then (false, sc)
  else (true, { sc with identifiers := mapAssign name (Identifier.Label (Label.new id)) sc.identifiers })

/-- Modelled from the spec: `Scope::registerFunction`, defined outside the source file; same
collision policy, inserting a `Function` entry. -/
def Scope.registerFunction (sc : Scope) (name : String) (arguments returns : Nat) : Bool × Scope :=
  if sc.has name then (false, sc)
  else (true, { sc with identifiers := mapAssign name (Identifier.Function arguments returns) sc.identifiers })

/-- Modelled from the spec: the AST of `AsmData.h`, declared outside the source file.  Every node
carries its source location; a block also carries its address, which is its identity in the
scope tree.  The body of a function definition is a block, given by its three fields. -/
inductive Statement where
  | instruction (location : SourceLocation) (instruction : Nat)
  | literal (location : SourceLocation) (isNumber : Bool) (value : String)
  | identifier (location : SourceLocation) (name : String)
  | label (location : SourceLocation) (name : String) (stackInfo : List String)
  | functionalAssignment (location : SourceLocation) (variableName : String) (value : Statement)
  | functionCall (location : SourceLocation) (functionName : String) (arguments : List Statement)
  | functionalInstruction (location : SourceLocation) (instruction : Nat)
      (arguments : List Statement)
  | variableDeclaration (location : SourceLocation) (name : String) (value : Statement)
  | functionDefinition (location : SourceLocation) (name : String) (arguments : List String)
      (returns : List String) (bodyAddr : Nat) (bodyLocation : SourceLocation)
      (bodyStatements : List Statement)
  | block (addr : Nat) (location : SourceLocation) (statements : List Statement)

/-- The state the filler works on: the scope objects, the caller's `m_scopes` map from block
address to (possibly null) scope pointer, the caller's error list, and `m_currentScope`. -/
structure State where
  heap : List Scope
  m_scopes : List (BlockPtr × Option ScopeRef)
  m_errors : ErrorList
  m_currentScope : Option ScopeRef
deriving DecidableEq, Repr

/-- The ways a run ends without returning. -/
inductive Fatal where
  | solAssert (msg : String)
  | outOfRange
  | badGet
  | badPointer
deriving DecidableEq, Repr

/-- Outcome of a member function: a returned value, or a fatal stop; both with the state. -/
inductive Result (α : Type) where
  | ok (value : α) (st : State)
  | fatal (e : Fatal) (st : State)
deriving DecidableEq, Repr

/-- Modelled from the spec: `boost::lexical_cast<int>` is a library routine outside the source
file; the digits of a token, read as a decimal number. -/
def parseDigits : List Char → Nat → Option Nat
  | [], acc => some acc
  | c :: cs, acc =>
    if 48 ≤ c.toNat ∧ c.toNat ≤ 57 then parseDigits cs (10 * acc + (c.toNat - 48)) else none

/-- Modelled from the spec: `boost::lexical_cast<int>` is a library routine outside the source
file; parses a whole token as a signed decimal integer that fits an `int`, `none` standing for
`bad_lexical_cast`. -/
def lexical_cast_int (s : String) : Option Int :=
  match s.data with
  | [] => none
  | c :: cs =>
    if c = '-' then
      if cs = [] then none
      else match parseDigits cs 0 with
        | some n => if n ≤ 2 ^ 31 then some (-(n : Int)) else none
        | none => none
    else if c = '+' then
      if cs = [] then none
      else match parseDigits cs 0 with
        | some n => if n < 2 ^ 31 then some (n : Int) else none
        | none => none
    else match parseDigits (c :: cs) 0 with
      | some n => if n < 2 ^ 31 then some (n : Int) else none
      | none => none

/-! ## The scope filler -/

/-- The `DeclarationError` pushed when a name is already taken. -/
def declarationError (kind : String) (name : String) (location : SourceLocation) : Error :=
  { type := ErrorType.DeclarationError,
    message := kind ++ " name " ++ name ++ " already taken in this scope.",
    location := location }

/-- The first two lines of `createScope`: `auto& s = m_scopes[_forBlock];` and
`if (!s) s = make_shared<Scope>();`.  Returns the scope pointer now held under the block. -/
def scopeSlot (forBlock : BlockPtr) (st : State) : ScopeRef × State :=
  match mapFind forBlock st.m_scopes with
  | some (some s) => (s, st)
  | _ => (st.heap.length,
      { st with heap := st.heap ++ [Scope.empty],
                m_scopes := mapAssign forBlock (some st.heap.length) st.m_scopes })

/-- The rest of `createScope`: link the scope `s` under `_superScope` if it has no super scope
yet, otherwise assert that its super scope is `_superScope`. -/
def linkScope (s : ScopeRef) (superScope : Option ScopeRef) (st1 : State) : Result ScopeRef :=
  match st1.heap[s]? with
  | none => Result.fatal Fatal.badPointer st1
  | some sc =>
    match sc.superScope with
    | none =>
      -- s->superScope = _superScope;
      let st2 := { st1 with heap := st1.heap.set s { sc with superScope := superScope } }
      match superScope with
      | none => Result.ok s st2
      | some q =>
        -- _superScope->subScopes.push_back(s.get());
        match st2.heap[q]? with
        | none => Result.fatal Fatal.badPointer st2
        | some qsc =>
          Result.ok s { st2 with heap := st2.heap.set q { qsc with subScopes := qsc.subScopes ++ [s] } }
    | some q =>
      if some q = superScope then Result.ok s st1
      else Result.fatal (Fatal.solAssert "Scope created twice in different superscopes.") st1

/-- `ScopeFiller::createScope`. -/
def createScope (forBlock : BlockPtr) (superScope : Option ScopeRef) (st : State) :
    Result ScopeRef :=
  linkScope (scopeSlot forBlock st).1 superScope (scopeSlot forBlock st).2

/-- `ScopeFiller::scope`. -/
def scope (block : BlockPtr) (st : State) : Result ScopeRef :=
  match mapFind block st.m_scopes with
  | none => Result.fatal Fatal.outOfRange st
  | some none => Result.fatal (Fatal.solAssert "Scope not found.") st
  | some (some s) => Result.ok s st

/-- The constructor `ScopeFiller::ScopeFiller(_scopes, _errors)`; the scope objects the caller's
map points to are passed along with the map. -/
def ScopeFiller (heap : List Scope) (scopes : List (BlockPtr × Option ScopeRef))
    (errors : ErrorList) : Result Unit :=
  let st0 : State := { heap := heap, m_scopes := scopes, m_errors := errors, m_currentScope := none }
  match createScope none none st0 with
  | Result.fatal e st => Result.fatal e st
  | Result.ok r st1 =>
    match st1.heap[r]? with
    | none => Result.fatal Fatal.badPointer st1
    | some sc =>
      let entry : Identifier := Identifier.Label (Label.new errorLabelId)
      let sc1 : Scope := { sc with identifiers := mapAssign "invalidJumpLabel" entry sc.identifiers }
      let st2 := { st1 with heap := st1.heap.set r sc1 }
      match scope none st2 with
      | Result.fatal e st => Result.fatal e st
      | Result.ok r2 st3 => Result.ok () { st3 with m_currentScope := some r2 }

/-- `ScopeFiller::registerVariable`. -/
def registerVariable (name : String) (location : SourceLocation) (scopeRef : ScopeRef)
    (st : State) : Result Bool :=
  match st.heap[scopeRef]? with
  | none => Result.fatal Fatal.badPointer st
  | some sc =>
    match sc.registerVariable name with
    | (false, _) =>
      Result.ok false { st with m_errors := st.m_errors ++ [declarationError "Variable" name location] }
    | (true, sc1) => Result.ok true { st with heap := st.heap.set scopeRef sc1 }

/-- The loop `for (var: names) if (!registerVariable(var, location, scope)) success = false;`
of the function-definition visitor. -/
def registerVariables (names : List String) (location : SourceLocation) (scopeRef : ScopeRef)
    (st : State) : Result Bool :=
  match names with
  | [] => Result.ok true st
  | n :: ns =>
    match registerVariable n location scopeRef st with
    | Result.fatal e st1 => Result.fatal e st1
    | Result.ok b st1 =>
      match registerVariables ns location scopeRef st1 with
      | Result.fatal e st2 => Result.fatal e st2
      | Result.ok bs st2 => Result.ok (b && bs) st2

/-- The loop over `_item.stackInfo` of the label visitor: every non-empty token is registered as
a variable. -/
def registerStackItems (stackInfo : List String) (location : SourceLocation) (scopeRef : ScopeRef)
    (st : State) : Result Bool :=
  match stackInfo with
  | [] => Result.ok true st
  | t :: ts =>
    if t = "" then registerStackItems ts location scopeRef st
    else
      match registerVariable t location scopeRef st with
      | Result.fatal e st1 => Result.fatal e st1
      | Result.ok b st1 =>
        match registerStackItems ts location scopeRef st1 with
        | Result.fatal e st2 => Result.fatal e st2
        | Result.ok bs st2 => Result.ok (b && bs) st2

/-- Writes through `Scope::Label& label = boost::get<Scope::Label>(scope.identifiers[name])`. -/
def updateLabel (scopeRef : ScopeRef) (name : String) (f : Label → Label) (st : State) :
    Result Unit :=
  match st.heap[scopeRef]? with
  | none => Result.fatal Fatal.badPointer st
  | some sc =>
    match mapFind name sc.identifiers with
    | some (Identifier.Label l) =>
      let sc1 : Scope := { sc with identifiers := mapAssign name (Identifier.Label (f l)) sc.identifiers }
      Result.ok () { st with heap := st.heap.set scopeRef sc1 }
    | _ => Result.fatal Fatal.badGet st

/-- The end of the label visitor, reached with two or more tokens or with one token that is not
a number: `label.resetStackHeight = true;` and the loop over the stack info. -/
def labelVariables (location : SourceLocation) (name : String) (stackInfo : List String)
    (c : ScopeRef) (st : State) : Result Bool :=
  match updateLabel c name (fun l => { l with resetStackHeight := true }) st with
  | Result.fatal e st2 => Result.fatal e st2
  | Result.ok _ st2 => registerStackItems stackInfo location c st2

/-- `ScopeFiller::operator()(Label const&)`. -/
def visitLabel (location : SourceLocation) (name : String) (stackInfo : List String)
    (st : State) : Result Bool :=
  match st.m_currentScope with
  | none => Result.fatal Fatal.badPointer st
  | some c =>
    match st.heap[c]? with
    | none => Result.fatal Fatal.badPointer st
    | some sc =>
      match sc.registerLabel name unassignedLabelId with
      | (false, _) =>
        Result.ok false { st with m_errors := st.m_errors ++ [declarationError "Label" name location] }
      | (true, sc1) =>
        let st1 := { st with heap := st.heap.set c sc1 }
        match stackInfo with
        | [] => Result.ok true st1
        | [t] =>
          match lexical_cast_int t with
          | some n =>
            match updateLabel c name
                (fun l => { l with stackAdjustment := some n, resetStackHeight := false }) st1 with
            | Result.fatal e st2 => Result.fatal e st2
            | Result.ok _ st2 => Result.ok true st2
          | none => labelVariables location name stackInfo c st1
        | _ :: _ :: _ => labelVariables location name stackInfo c st1

/-- The first part of `ScopeFiller::operator()(FunctionDefinition const&)`, up to the visit of
the body: registers the function name in the current scope, creates the body's scope, marks it
as a function scope and registers parameters and return variables in it. -/
def enterFunction (location : SourceLocation) (name : String) (arguments returns : List String)
    (bodyAddr : Nat) (st : State) : Result Bool :=
  match st.m_currentScope with
  | none => Result.fatal Fatal.badPointer st
  | some c =>
    match st.heap[c]? with
    | none => Result.fatal Fatal.badPointer st
    | some sc =>
      let p : Bool × State :=
        match sc.registerFunction name arguments.length returns.length with
        | (false, _) =>
          (false, { st with m_errors := st.m_errors ++ [declarationError "Function" name location] })
        | (true, sc1) => (true, { st with heap := st.heap.set c sc1 })
      match createScope (some bodyAddr) p.2.m_currentScope p.2 with
      | Result.fatal e st2 => Result.fatal e st2
      | Result.ok body st2 =>
        match st2.heap[body]? with
        | none => Result.fatal Fatal.badPointer st2
        | some bsc =>
          let st3 := { st2 with heap := st2.heap.set body { bsc with functionScope := true } }
          match registerVariables (arguments ++ returns) location body st3 with
          | Result.fatal e st4 => Result.fatal e st4
          | Result.ok b st4 => Result.ok (p.1 && b) st4

/-- `ScopeFiller::operator()(Block const&)`, with the loop over the statements passed in. -/
def visitBlock (addr : Nat) (visitStatements : State → Result Bool) (st : State) : Result Bool :=
  -- Scope* previous = m_currentScope; m_currentScope = &createScope(&_block, m_currentScope);
  match createScope (some addr) st.m_currentScope st with
  | Result.fatal e st1 => Result.fatal e st1
  | Result.ok s st1 =>
    match visitStatements { st1 with m_currentScope := some s } with
    | Result.fatal e st2 => Result.fatal e st2
    | Result.ok success st2 => Result.ok success { st2 with m_currentScope := st.m_currentScope }

mutual
/-- The visitor `boost::apply_visitor(*this, statement)`, one case per `operator()`. -/
def visit : Statement → State → Result Bool
  | Statement.instruction _ _, st => Result.ok true st
  | Statement.literal _ _ _, st => Result.ok true st
  | Statement.identifier _ _, st => Result.ok true st
  | Statement.label location name stackInfo, st => visitLabel location name stackInfo st
  | Statement.functionalAssignment _ _ value, st => visit value st
  | Statement.functionCall _ _ arguments, st => visitReversed arguments st
  | Statement.functionalInstruction _ _ arguments, st =>
    match visitReversed arguments st with
    | Result.fatal e st1 => Result.fatal e st1
    | Result.ok success st1 => Result.ok (success && true) st1
  | Statement.variableDeclaration location name value, st =>
    match visit value st with
    | Result.fatal e st1 => Result.fatal e st1
    | Result.ok success st1 =>
      match st1.m_currentScope with
      | none => Result.fatal Fatal.badPointer st1
      | some c =>
        match registerVariable name location c st1 with
        | Result.fatal e st2 => Result.fatal e st2
        | Result.ok b st2 => Result.ok (success && b) st2
  | Statement.functionDefinition location name arguments returns bodyAddr _ bodyStatements, st =>
    match enterFunction location name arguments returns bodyAddr st with
    | Result.fatal e st1 => Result.fatal e st1
    | Result.ok success st1 =>
      match visitBlock bodyAddr (visitStatements bodyStatements) st1 with
      | Result.fatal e st2 => Result.fatal e st2
      | Result.ok b st2 => Result.ok (success && b) st2
  | Statement.block addr _ statements, st => visitBlock addr (visitStatements statements) st
/-- The loop `for (s: statements) if (!apply_visitor(*this, s)) success = false;`. -/
def visitStatements : List Statement → State → Result Bool
  | [], st => Result.ok true st
  | s :: rest, st =>
    match visit s st with
    | Result.fatal e st1 => Result.fatal e st1
    | Result.ok b st1 =>
      match visitStatements rest st1 with
      | Result.fatal e st2 => Result.fatal e st2
      | Result.ok bs st2 => Result.ok (b && bs) st2
/-- The loop `for (arg: arguments | reversed) if (!apply_visitor(*this, arg)) success = false;`:
the last argument is visited first. -/
def visitReversed : List Statement → State → Result Bool
  | [], st => Result.ok true st
  | a :: rest, st =>
    match visitReversed rest st with
    | Result.fatal e st1 => Result.fatal e st1
    | Result.ok bs st1 =>
      match visit a st1 with
      | Result.fatal e st2 => Result.fatal e st2
      | Result.ok b st2 => Result.ok (bs && b) st2
end

/-! ## Auxiliary definitions used to state the properties -/

/-- The error sink after a step is the one before plus new records, and the returned flag is
true exactly when there is no new record. -/
def ErrRel (b : Bool) (st st' : State) : Prop :=
  ∃ new, st'.m_errors = st.m_errors ++ new ∧ (b = true ↔ new = [])

/-- The names in a scope's own table. -/
def Scope.names (sc : Scope) : List String := sc.identifiers.map Prod.fst

/-- The names, out of a sequence of registration requests, that get registered: those not yet
in the table when their turn comes. -/
def accepted (seen : List String) : List (String × SourceLocation) → List String
  | [] => []
  | d :: ds => if d.1 ∈ seen then accepted seen ds else d.1 :: accepted (seen ++ [d.1]) ds

/-- The requests, out of a sequence of registration requests, that are refused: those whose
name is already in the table when their turn comes. -/
def rejected (seen : List String) : List (String × SourceLocation) → List (String × SourceLocation)
  | [] => []
  | d :: ds => if d.1 ∈ seen then d :: rejected seen ds else rejected (seen ++ [d.1]) ds

/-- The scope with the given names added as variables at the end of its table. -/
def Scope.addVariables (sc : Scope) (names : List String) : Scope :=
  { sc with identifiers := sc.identifiers ++ names.map (fun n => (n, Identifier.Variable)) }

/-- The state after a sequence of variable registrations in the scope `r` whose value was `sc`:
the accepted names are added as variables, one error is appended per refused request. -/
def afterRegistrations (st : State) (r : ScopeRef) (sc : Scope)
    (ds : List (String × SourceLocation)) : State :=
  { st with
    heap := st.heap.set r (sc.addVariables (accepted sc.names ds)),
    m_errors := st.m_errors ++
      (rejected sc.names ds).map (fun d => declarationError "Variable" d.1 d.2) }

/-- The scope with one more entry at the end of its table. -/
def Scope.add (sc : Scope) (name : String) (i : Identifier) : Scope :=
  { sc with identifiers := sc.identifiers ++ [(name, i)] }

/-- The state with the scope object at `r` replaced. -/
def State.setScope (st : State) (r : ScopeRef) (sc : Scope) : State :=
  { st with heap := st.heap.set r sc }

/-- The state with one more record in the error sink. -/
def State.pushError (st : State) (e : Error) : State :=
  { st with m_errors := st.m_errors ++ [e] }

/-- The table entry of a label declared by a label statement, with its stack metadata. -/
def labelEntry (stackAdjustment : Option Int) (resetStackHeight : Bool) : Identifier :=
  Identifier.Label
    { id := unassignedLabelId, stackAdjustment := stackAdjustment,
      resetStackHeight := resetStackHeight }

/-- The registration requests made for the stack info of a label: its non-empty tokens, each
with the location of the label. -/
def stackRequests (stackInfo : List String) (location : SourceLocation) :
    List (String × SourceLocation) :=
  (stackInfo.filter (fun t => t ≠ "")).map (fun t => (t, location))

/-- The root scope right after construction: only the reserved error label. -/
def rootScope : Scope :=
  { identifiers := [("invalidJumpLabel", Identifier.Label (Label.new errorLabelId))],
    superScope := none, subScopes := [], functionScope := false }

/-- The state of a filler constructed over an empty scope tree and the given error list. -/
def freshFiller (errors : ErrorList) : State :=
  { heap := [rootScope], m_scopes := [(none, some 0)], m_errors := errors,
    m_currentScope := some 0 }

/-- A source location used in examples. -/
def sampleLocation : SourceLocation := { start := 0, stop := 0, sourceName := "" }

/-- A scope tree in which block 7 has a scope (object 1) that is not linked under any parent. -/
def unlinkedTree : State :=
  { heap := [Scope.empty, Scope.empty], m_scopes := [(none, some 0), (some 7, some 1)],
    m_errors := [], m_currentScope := some 0 }

/-- A scope tree in which block 7 has a scope (object 1) linked under the root (object 0). -/
def linkedTree : State :=
  { heap := [{ Scope.empty with subScopes := [1] }, { Scope.empty with superScope := some 0 }],
    m_scopes := [(none, some 0), (some 7, some 1)], m_errors := [], m_currentScope := some 0 }

/-- A leaf of the AST: a plain instruction, a literal or an identifier. -/
def isLeaf : Statement → Bool
  | Statement.instruction _ _ => true
  | Statement.literal _ _ _ => true
  | Statement.identifier _ _ => true
  | _ => false

/-- The registration request of a variable declaration whose initializer is a leaf. -/
def leafDeclaration : Statement → Option (String × SourceLocation)
  | Statement.variableDeclaration location name value =>
    if isLeaf value then some (name, location) else none
  | _ => none

/-- A scope with an empty table, linked under `p`, without nested scopes. -/
def childOf (p : ScopeRef) : Scope :=
  { identifiers := [], superScope := some p, subScopes := [], functionScope := false }

/-- The root scope of a fresh filler once the top-level block has its scope (object 1). -/
def rootWithBlock : Scope :=
  { identifiers := [("invalidJumpLabel", Identifier.Label (Label.new errorLabelId))],
    superScope := none, subScopes := [1], functionScope := false }

/-- The state of a fresh filler right after entering the top-level block at address `a`. -/
def insideBlock (errors : ErrorList) (a : Nat) : State :=
  { heap := [rootWithBlock, childOf 0], m_scopes := [(none, some 0), (some a, some 1)],
    m_errors := errors, m_currentScope := some 1 }

/-- The state reached from a fresh filler by `{ let x := 1 { let x := 2 } }`, the outer block at
address `a` and the inner one at address `b`. -/
def afterShadowing (errors : ErrorList) (x : String) (a b : Nat) : State :=
  { heap := [rootWithBlock,
      { identifiers := [(x, Identifier.Variable)], superScope := some 0, subScopes := [2],
        functionScope := false },
      { identifiers := [(x, Identifier.Variable)], superScope := some 1, subScopes := [],
        functionScope := false }],
    m_scopes := [(none, some 0), (some a, some 1), (some b, some 2)],
    m_errors := errors, m_currentScope := some 0 }

/-! ### The blocks of a statement -/

mutual
/-- Addresses of all blocks in a statement (blocks, nested blocks, function bodies), in the
order in which the visitor reaches them. -/
def blocksOf : Statement → List Nat
  | Statement.instruction _ _ => []
  | Statement.literal _ _ _ => []
  | Statement.identifier _ _ => []
  | Statement.label _ _ _ => []
  | Statement.functionalAssignment _ _ value => blocksOf value
  | Statement.functionCall _ _ arguments => blocksOfReversed arguments
  | Statement.functionalInstruction _ _ arguments => blocksOfReversed arguments
  | Statement.variableDeclaration _ _ value => blocksOf value
  | Statement.functionDefinition _ _ _ _ bodyAddr _ body => bodyAddr :: blocksOfStatements body
  | Statement.block addr _ statements => addr :: blocksOfStatements statements
/-- The blocks of a statement list visited first to last. -/
def blocksOfStatements : List Statement → List Nat
  | [] => []
  | s :: rest => blocksOf s ++ blocksOfStatements rest
/-- The blocks of an argument list visited last to first. -/
def blocksOfReversed : List Statement → List Nat
  | [] => []
  | s :: rest => blocksOfReversed rest ++ blocksOf s
end

mutual
/-- Addresses of the outermost blocks of a statement (those not inside another block of it), in
the order in which the visitor reaches them. -/
def topBlocks : Statement → List Nat
  | Statement.instruction _ _ => []
  | Statement.literal _ _ _ => []
  | Statement.identifier _ _ => []
  | Statement.label _ _ _ => []
  | Statement.functionalAssignment _ _ value => topBlocks value
  | Statement.functionCall _ _ arguments => topBlocksReversed arguments
  | Statement.functionalInstruction _ _ arguments => topBlocksReversed arguments
  | Statement.variableDeclaration _ _ value => topBlocks value
  | Statement.functionDefinition _ _ _ _ bodyAddr _ _ => [bodyAddr]
  | Statement.block addr _ _ => [addr]
/-- The outermost blocks of a statement list visited first to last: for the statements of a
block, these are the blocks directly nested in it. -/
def topBlocksStatements : List Statement → List Nat
  | [] => []
  | s :: rest => topBlocks s ++ topBlocksStatements rest
/-- The outermost blocks of an argument list visited last to first. -/
def topBlocksReversed : List Statement → List Nat
  | [] => []
  | s :: rest => topBlocksReversed rest ++ topBlocks s
end

/-- What the AST says about one block: its address, the nearest enclosing block (`none` when no
block of the statement encloses it), the blocks directly nested in it in traversal order, and
whether it is the body of a function definition. -/
structure BlockInfo where
  addr : Nat
  parent : Option Nat
  children : List Nat
  isFunctionBody : Bool
deriving DecidableEq, Repr

mutual
/-- The blocks of a statement with their place in the nesting; `parent` is the block enclosing
the statement. -/
def blockInfos (parent : Option Nat) : Statement → List BlockInfo
  | Statement.instruction _ _ => []
  | Statement.literal _ _ _ => []
  | Statement.identifier _ _ => []
  | Statement.label _ _ _ => []
  | Statement.functionalAssignment _ _ value => blockInfos parent value
  | Statement.functionCall _ _ arguments => blockInfosReversed parent arguments
  | Statement.functionalInstruction _ _ arguments => blockInfosReversed parent arguments
  | Statement.variableDeclaration _ _ value => blockInfos parent value
  | Statement.functionDefinition _ _ _ _ bodyAddr _ body =>
    { addr := bodyAddr, parent := parent, children := topBlocksStatements body,
      isFunctionBody := true } :: blockInfosStatements (some bodyAddr) body
  | Statement.block addr _ statements =>
    { addr := addr, parent := parent, children := topBlocksStatements statements,
      isFunctionBody := false } :: blockInfosStatements (some addr) statements
/-- The blocks of a statement list, first to last. -/
def blockInfosStatements (parent : Option Nat) : List Statement → List BlockInfo
  | [] => []
  | s :: rest => blockInfos parent s ++ blockInfosStatements parent rest
/-- The blocks of an argument list, last to first. -/
def blockInfosReversed (parent : Option Nat) : List Statement → List BlockInfo
  | [] => []
  | s :: rest => blockInfosReversed parent rest ++ blockInfos parent s
end

/-- The map entries of newly created scopes: the blocks in creation order, with consecutive
scope objects starting at `n`. -/
def newEntries (n : Nat) : List Nat → List (BlockPtr × Option ScopeRef)
  | [] => []
  | a :: rest => (some a, some n) :: newEntries (n + 1) rest

/-- The scope of the block at address `a` is the object `r`. -/
def ScopeOf (st : State) (a : Nat) (r : ScopeRef) : Prop :=
  mapFind (some a) st.m_scopes = some (some r)

/-- What a visit with current scope `c` leaves behind, in terms of the blocks `B` of the visited
statement, its outermost blocks `T` and the nesting `I` of its blocks: one new entry and one new
scope object per block; no other old scope than `c` is touched; `c` keeps its super scope and
flag and gets the scopes of the outermost blocks appended; every block's scope is linked under
the scope of its enclosing block (`c` when the enclosing block is `P`), lists the scopes of its
directly nested blocks, and is flagged iff it is a function body. -/
def VisitPost (P : Option Nat) (c : ScopeRef) (B T : List Nat) (I : List BlockInfo)
    (st st' : State) : Prop :=
  st'.m_scopes = st.m_scopes ++ newEntries st.heap.length B ∧
  st'.heap.length = st.heap.length + B.length ∧
  (∀ r, r < st.heap.length → r ≠ c → st'.heap[r]? = st.heap[r]?) ∧
  (∃ csc csc' subs, st.heap[c]? = some csc ∧ st'.heap[c]? = some csc' ∧
    csc'.superScope = csc.superScope ∧ csc'.functionScope = csc.functionScope ∧
    csc'.subScopes = csc.subScopes ++ subs ∧ List.Forall₂ (ScopeOf st') T subs) ∧
  (∀ info ∈ I, ∃ r sc pr, ScopeOf st' info.addr r ∧ st.heap.length ≤ r ∧
    st'.heap[r]? = some sc ∧ sc.superScope = some pr ∧
    ((info.parent = P ∧ pr = c) ∨ ∃ p, info.parent = some p ∧ ScopeOf st' p pr) ∧
    List.Forall₂ (ScopeOf st') info.children sc.subScopes ∧
    sc.functionScope = info.isFunctionBody)

/-- A step that touches only the table of the scope `c`: map, number of scope objects and all
other scope objects stay, and `c` keeps its links and flag. -/
def TableOnly (c : ScopeRef) (st st' : State) : Prop :=
  st'.m_currentScope = st.m_currentScope ∧
  st'.m_scopes = st.m_scopes ∧ st'.heap.length = st.heap.length ∧
  (∀ r, r ≠ c → st'.heap[r]? = st.heap[r]?) ∧
  (∀ csc, st.heap[c]? = some csc → ∃ csc', st'.heap[c]? = some csc' ∧
    csc'.superScope = csc.superScope ∧ csc'.subScopes = csc.subScopes ∧
    csc'.functionScope = csc.functionScope)

/-- The state right after `createScope` made a new scope for the block `k` under the scope `q`,
whose value was `qsc`: the new object sits at the end of the heap, `q` lists it, and the map
holds it under `k`. -/
def withNewScope (st : State) (k : BlockPtr) (q : ScopeRef) (qsc : Scope) : State :=
  { st with
    heap := st.heap.set q { qsc with subScopes := qsc.subScopes ++ [st.heap.length] } ++ [childOf q],
    m_scopes := mapAssign k (some st.heap.length) st.m_scopes }

/-- The first step of the function-definition visitor on a current scope `c` whose value is
`csc`: the flag returned by `registerFunction`, the state after it and the new value of `c`. -/
def functionNameStep (st : State) (c : ScopeRef) (csc : Scope) (location : SourceLocation)
    (name : String) (arguments returns : Nat) : Bool × State × Scope :=
  if name ∈ csc.names then
    (false, st.pushError (declarationError "Function" name location), csc)
  else
    (true, st.setScope c (csc.add name (Identifier.Function arguments returns)),
      csc.add name (Identifier.Function arguments returns))

/-- A new function scope under `c`: empty table, no nested scopes, flag set. -/
def functionScopeUnder (c : ScopeRef) : Scope :=
  { identifiers := [], superScope := some c, subScopes := [], functionScope := true }

/-- The state after the first part of the function-definition visitor, from the state `st`
reached by registering the function name: a new scope for the body `a` under `c`, flagged as
function scope, with the requests `ds` (parameters, then return variables) registered in it. -/
def afterEnterFunction (st : State) (c : ScopeRef) (csc : Scope) (a : Nat)
    (ds : List (String × SourceLocation)) : State :=
  afterRegistrations ((withNewScope st (some a) c csc).setScope st.heap.length (functionScopeUnder c))
    st.heap.length (functionScopeUnder c) ds

/-- The state with another current scope. -/
def State.withCurrent (st : State) (c : Option ScopeRef) : State :=
  { st with m_currentScope := c }

/-- The starting condition for visiting a statement whose blocks are `B`: the current scope `c`
is a scope object, no block of `B` has an entry in the map yet, and the blocks of `B` are
pairwise different. -/
def Ready (st : State) (c : ScopeRef) (B : List Nat) : Prop :=
  st.m_currentScope = some c ∧ (∃ csc, st.heap[c]? = some csc) ∧
  (∀ a ∈ B, mapFind (some a) st.m_scopes = none) ∧ B.Nodup

/-- The visit of a statement from any ready state returns, restores the current scope and leaves
the tree shape given by the statement's blocks. -/
def PostOK (s : Statement) : Prop :=
  ∀ (P : Option Nat) (st : State) (c : ScopeRef), Ready st c (blocksOf s) →
    ∃ b st', visit s st = Result.ok b st' ∧ st'.m_currentScope = st.m_currentScope ∧
      VisitPost P c (blocksOf s) (topBlocks s) (blockInfos P s) st st'

/-- A scope object only gains: its names stay, a super scope once set stays, a function-scope
flag once set stays. -/
def ScopeGrows (sc sc' : Scope) : Prop :=
  (∀ n ∈ sc.names, n ∈ sc'.names) ∧ (∀ p, sc.superScope = some p → sc'.superScope = some p) ∧
  (sc.functionScope = true → sc'.functionScope = true)

/-- The scope tree only gains: every block keeps its scope, every scope object stays in place
and only gains. -/
def Grows (st st' : State) : Prop :=
  (∀ k r, mapFind k st.m_scopes = some (some r) → mapFind k st'.m_scopes = some (some r)) ∧
  (∀ (r : ScopeRef) (sc : Scope), st.heap[r]? = some sc →
    ∃ sc', st'.heap[r]? = some sc' ∧ ScopeGrows sc sc')

/-- A step of the visitor restores the current scope and lets the scope tree only gain. -/
def Step (_b : Bool) (st st' : State) : Prop :=
  st'.m_currentScope = st.m_currentScope ∧ Grows st st'

/-- What a statement declares in the current scope: the kind, the name and the location used
in the diagnostic for a duplicate. -/
structure Declaration where
  kind : String
  name : String
  location : SourceLocation
deriving DecidableEq, Repr

/-- The declaration made by a statement itself, if it is a variable declaration, a label or a
function definition. -/
def declarationOf : Statement → Option Declaration
  | Statement.variableDeclaration location name _ =>
    some { kind := "Variable", name := name, location := location }
  | Statement.label location name _ =>
    some { kind := "Label", name := name, location := location }
  | Statement.functionDefinition location name _ _ _ _ _ =>
    some { kind := "Function", name := name, location := location }
  | _ => none

/-- The addresses of the blocks of a statement that are bodies of function definitions. -/
def functionBodies (s : Statement) : List Nat :=
  ((blockInfos none s).filter (fun info => info.isFunctionBody)).map BlockInfo.addr

/-! ### Runs in sequence and the records they append -/

/-- The state a run ends in, whether it returned or stopped. -/
def Result.state {α : Type} : Result α → State
  | Result.ok _ st => st
  | Result.fatal _ st => st

/-- The returned value transformed, the final state kept. -/
def Result.map {α β : Type} (f : α → β) : Result α → Result β
  | Result.ok v st => Result.ok (f v) st
  | Result.fatal e st => Result.fatal e st

/-- Visiting the statements of a list one after the other, each from the state left by the
previous one, and collecting the flags they return; a fatal stop ends the sequence. -/
def visitInSequence : List Statement → State → Result (List Bool)
  | [], st => Result.ok [] st
  | s :: rest, st =>
    match visit s st with
    | Result.fatal e st1 => Result.fatal e st1
    | Result.ok b st1 =>
      match visitInSequence rest st1 with
      | Result.fatal e st2 => Result.fatal e st2
      | Result.ok bs st2 => Result.ok (b :: bs) st2

/-- The records a visit of `s` from `st` leaves in the error sink beyond those of `st`. -/
def appended (s : Statement) (st : State) : ErrorList :=
  (visit s st).state.m_errors.drop st.m_errors.length

/-- The records appended by each statement of a list when they are visited one after the
other, each from the state left by the previous one; a fatal stop ends the sequence. -/
def appendedInSequence : List Statement → State → List ErrorList
  | [], _ => []
  | s :: rest, st =>
    appended s st ::
      (match visit s st with
       | Result.fatal _ _ => []
       | Result.ok _ st1 => appendedInSequence rest st1)

/-- The error sink of `st'` is the one of `st` followed by further records. -/
def ErrorsGrow (st st' : State) : Prop := ∃ new, st'.m_errors = st.m_errors ++ new

/-! ### The registration requests of a statement -/

/-- The request to register a variable, with the location used in the diagnostic. -/
def variableRequest (location : SourceLocation) (name : String) : Declaration :=
  { kind := "Variable", name := name, location := location }

mutual
/-- The registration requests made while a statement is visited, each with the kind of the
registration, the name and the location passed to the diagnostic: a variable declaration asks
for its name at its own location; a label for its name and, as variables, for its non-empty
stack-info tokens, all at the label's location; a function definition for its name and, as
variables, for its parameters and return variables, all at the definition's location. -/
def requestsOf : Statement → List Declaration
  | Statement.instruction _ _ => []
  | Statement.literal _ _ _ => []
  | Statement.identifier _ _ => []
  | Statement.label location name stackInfo =>
    { kind := "Label", name := name, location := location } ::
      (stackInfo.filter (fun t => t ≠ "")).map (variableRequest location)
  | Statement.functionalAssignment _ _ value => requestsOf value
  | Statement.functionCall _ _ arguments => requestsOfList arguments
  | Statement.functionalInstruction _ _ arguments => requestsOfList arguments
  | Statement.variableDeclaration location name value =>
    requestsOf value ++ [variableRequest location name]
  | Statement.functionDefinition location name arguments returns _ _ body =>
    { kind := "Function", name := name, location := location } ::
      ((arguments ++ returns).map (variableRequest location) ++ requestsOfList body)
  | Statement.block _ _ statements => requestsOfList statements
/-- The registration requests of the statements of a list. -/
def requestsOfList : List Statement → List Declaration
  | [] => []
  | s :: rest => requestsOf s ++ requestsOfList rest
end

/-- The error sink of `st'` is the one of `st` followed by further records, each of them the
diagnostic of one of the requests `D`. -/
def Reports (D : List Declaration) (st st' : State) : Prop :=
  ∃ new, st'.m_errors = st.m_errors ++ new ∧
    ∀ e ∈ new, ∃ d ∈ D, e = declarationError d.kind d.name d.location

/-- The table of `sc'` is the table of `sc` followed by further entries. -/
def ScopeExtends (sc sc' : Scope) : Prop := ∃ ext, sc'.identifiers = sc.identifiers ++ ext

/-- A step of the visitor keeps every scope object in place and only adds entries at the end of
its table. -/
def Extends (_b : Bool) (st st' : State) : Prop :=
  ∀ (r : ScopeRef) (sc : Scope), st.heap[r]? = some sc →
    ∃ sc', st'.heap[r]? = some sc' ∧ ScopeExtends sc sc'

/-- The names in the table of the scope object `r`, none if there is no such object. -/
def tableNames (st : State) (r : ScopeRef) : List String :=
  match st.heap[r]? with
  | some sc => sc.names
  | none => []

/-- Every table has at most one entry per name. -/
def TablesNodup (st : State) : Prop :=
  ∀ (r : ScopeRef) (sc : Scope), st.heap[r]? = some sc → sc.names.Nodup

/-- A step of the visitor keeps the tables free of repeated names. -/
def KeepsNodup (_b : Bool) (st st' : State) : Prop := TablesNodup st → TablesNodup st'

/-! ### Refused registration requests -/

/-- The request `d` is the one for `name` as a `kind` at `location`, made to the scope object
`r` in the state `st`, and it is refused there: the table of `r` already has the name. -/
def RefusedAt (st : State) (r : ScopeRef) (kind name : String) (location : SourceLocation)
    (d : Declaration) : Prop :=
  d = { kind := kind, name := name, location := location } ∧
    ∃ sc, st.heap[r]? = some sc ∧ name ∈ sc.names

/-- The request `d` is one of the variable requests for `names`, made in this order at
`location` to the scope object `r` in the state `st`, and it is refused: when its turn comes,
its name is in the table of `r`, from the start or put there by an earlier request of the
list. -/
def RefusedAmong (st : State) (r : ScopeRef) (names : List String) (location : SourceLocation)
    (d : Declaration) : Prop :=
  ∃ sc, st.heap[r]? = some sc ∧
    (d.name, location) ∈ rejected sc.names (names.map (fun n => (n, location))) ∧
    d = variableRequest location d.name

mutual
/-- The request `d` is made during the visit of a statement from the state `st` and is
refused: at the moment it is made, its name is already in the table of the scope it is made
to.  A label asks the current scope for its name and then, unless its stack info is a single
number, for its non-empty tokens; a variable declaration asks the current scope for its name
after its value was visited; a function definition asks the current scope for its name and the
scope of its body for parameters and return variables; the statements of a block or body make
their requests one after the other with the scope of the block as current scope. -/
def Refused : Statement → State → Declaration → Prop
  | Statement.instruction _ _, _, _ => False
  | Statement.literal _ _ _, _, _ => False
  | Statement.identifier _ _, _, _ => False
  | Statement.label location name stackInfo, st, d =>
    (∃ c, st.m_currentScope = some c ∧ RefusedAt st c "Label" name location d) ∨
    (∃ c sc, st.m_currentScope = some c ∧ st.heap[c]? = some sc ∧ name ∉ sc.names ∧
      (∀ t n, stackInfo = [t] → lexical_cast_int t ≠ some n) ∧
      RefusedAmong (st.setScope c (sc.add name (labelEntry none true))) c
        (stackInfo.filter (fun t => t ≠ "")) location d)
  | Statement.functionalAssignment _ _ value, st, d => Refused value st d
  | Statement.functionCall _ _ arguments, st, d => RefusedReversed arguments st d
  | Statement.functionalInstruction _ _ arguments, st, d => RefusedReversed arguments st d
  | Statement.variableDeclaration location name value, st, d =>
    Refused value st d ∨
    (∃ b st1 c, visit value st = Result.ok b st1 ∧ st1.m_currentScope = some c ∧
      RefusedAt st1 c "Variable" name location d)
  | Statement.functionDefinition location name arguments returns bodyAddr _ body, st, d =>
    (∃ c, st.m_currentScope = some c ∧ RefusedAt st c "Function" name location d) ∨
    (∃ c sc r st2, st.m_currentScope = some c ∧ st.heap[c]? = some sc ∧
      createScope (some bodyAddr) (some c)
        (functionNameStep st c sc location name arguments.length returns.length).2.1 =
        Result.ok r st2 ∧
      RefusedAmong st2 r (arguments ++ returns) location d) ∨
    (∃ b st1 r st2, enterFunction location name arguments returns bodyAddr st = Result.ok b st1 ∧
      createScope (some bodyAddr) st1.m_currentScope st1 = Result.ok r st2 ∧
      RefusedStatements body (st2.withCurrent (some r)) d)
  | Statement.block addr _ statements, st, d =>
    ∃ r st1, createScope (some addr) st.m_currentScope st = Result.ok r st1 ∧
      RefusedStatements statements (st1.withCurrent (some r)) d
/-- The request `d` is made and refused during the visits of the statements of a list, first to
last, each from the state left by the previous one. -/
def RefusedStatements : List Statement → State → Declaration → Prop
  | [], _, _ => False
  | s :: rest, st, d =>
    Refused s st d ∨ ∃ b st1, visit s st = Result.ok b st1 ∧ RefusedStatements rest st1 d
/-- The request `d` is made and refused during the visits of the arguments of a list, last to
first, each from the state left by the previous one. -/
def RefusedReversed : List Statement → State → Declaration → Prop
  | [], _, _ => False
  | a :: rest, st, d =>
    RefusedReversed rest st d ∨ ∃ b st1, visitReversed rest st = Result.ok b st1 ∧ Refused a st1 d
end

/-- The error sink of `st'` is the one of `st` followed by further records, each of them the
diagnostic of a request that satisfies `Q`. -/
def Explains (Q : Declaration → Prop) (st st' : State) : Prop :=
  ∃ new, st'.m_errors = st.m_errors ++ new ∧
    ∀ e ∈ new, ∃ d, Q d ∧ e = declarationError d.kind d.name d.location

/-! ## Induction over the visitor -/

/-- Induction over statements, with the hypothesis for every element of a nested list. -/
theorem Statement.induction {P : Statement → Prop}
    (instruction : ∀ l i, P (.instruction l i))
    (literal : ∀ l n v, P (.literal l n v))
    (identifier : ∀ l n, P (.identifier l n))
    (label : ∀ l n si, P (.label l n si))
    (functionalAssignment : ∀ l n v, P v → P (.functionalAssignment l n v))
    (functionCall : ∀ l f args, (∀ a ∈ args, P a) → P (.functionCall l f args))
    (functionalInstruction : ∀ l i args, (∀ a ∈ args, P a) → P (.functionalInstruction l i args))
    (variableDeclaration : ∀ l n v, P v → P (.variableDeclaration l n v))
    (functionDefinition : ∀ l n as rs a bl body, (∀ s ∈ body, P s) →
      P (.functionDefinition l n as rs a bl body))
    (block : ∀ a l stmts, (∀ s ∈ stmts, P s) → P (.block a l stmts)) :
    ∀ s, P s := by
  intro s
  refine @Statement.rec P (fun l => ∀ a ∈ l, P a)
    instruction literal identifier label functionalAssignment functionCall functionalInstruction
    variableDeclaration functionDefinition block ?_ ?_ s
  · intro a ha; cases ha
  · intro hd tl h1 h2 a ha
    rcases List.mem_cons.mp ha with rfl | h
    · exact h1
    · exact h2 a h

/-- Generic induction over the visitor for a relation between the returned flag, the state
before and the state after: it holds for statements, statement lists and argument lists as soon
as it holds for the steps the visitor is made of. -/
theorem visit_rel_all (R : Bool → State → State → Prop)
    (h_true : ∀ st, R true st st)
    (h_and : ∀ b1 b2 st st1 st2, R b1 st st1 → R b2 st1 st2 → R (b1 && b2) st st2)
    (h_label : ∀ loc name si st b st', visitLabel loc name si st = Result.ok b st' → R b st st')
    (h_reg : ∀ name loc c st b st', st.m_currentScope = some c →
      registerVariable name loc c st = Result.ok b st' → R b st st')
    (h_enter : ∀ loc name as rs a st b st',
      enterFunction loc name as rs a st = Result.ok b st' → R b st st')
    (h_block : ∀ addr f st b st', (∀ st1 b1 st1', f st1 = Result.ok b1 st1' → R b1 st1 st1') →
      visitBlock addr f st = Result.ok b st' → R b st st') :
    (∀ s st b st', visit s st = Result.ok b st' → R b st st') ∧
    (∀ l st b st', visitStatements l st = Result.ok b st' → R b st st') ∧
    (∀ l st b st', visitReversed l st = Result.ok b st' → R b st st') := by
  have hseq : ∀ l : List Statement, (∀ s ∈ l, ∀ st b st', visit s st = Result.ok b st' → R b st st') →
      ∀ st b st', visitStatements l st = Result.ok b st' → R b st st' := by
    intro l
    induction l with
    | nil => intro _ st b st' h; simp [visitStatements] at h; obtain ⟨rfl, rfl⟩ := h; exact h_true _
    | cons s rest ih =>
      intro hl st b st' h
      simp only [visitStatements] at h
      split at h
      · exact absurd h (by simp)
      · rename_i b1 st1 h1
        split at h
        · exact absurd h (by simp)
        · rename_i b2 st2 h2
          simp at h; obtain ⟨rfl, rfl⟩ := h
          exact h_and _ _ _ _ _ (hl s (List.mem_cons_self _ _) _ _ _ h1)
            (ih (fun s hs => hl s (List.mem_cons_of_mem _ hs)) _ _ _ h2)
  have hrev : ∀ l : List Statement, (∀ s ∈ l, ∀ st b st', visit s st = Result.ok b st' → R b st st') →
      ∀ st b st', visitReversed l st = Result.ok b st' → R b st st' := by
    intro l
    induction l with
    | nil => intro _ st b st' h; simp [visitReversed] at h; obtain ⟨rfl, rfl⟩ := h; exact h_true _
    | cons s rest ih =>
      intro hl st b st' h
      simp only [visitReversed] at h
      split at h
      · exact absurd h (by simp)
      · rename_i b1 st1 h1
        split at h
        · exact absurd h (by simp)
        · rename_i b2 st2 h2
          simp at h; obtain ⟨rfl, rfl⟩ := h
          exact h_and _ _ _ _ _ (ih (fun s hs => hl s (List.mem_cons_of_mem _ hs)) _ _ _ h1)
            (hl s (List.mem_cons_self _ _) _ _ _ h2)
  have hmain : ∀ s st b st', visit s st = Result.ok b st' → R b st st' := by
    intro s
    induction s using Statement.induction with
    | instruction l i => intro st b st' h; simp [visit] at h; obtain ⟨rfl, rfl⟩ := h; exact h_true _
    | literal l n v => intro st b st' h; simp [visit] at h; obtain ⟨rfl, rfl⟩ := h; exact h_true _
    | identifier l n => intro st b st' h; simp [visit] at h; obtain ⟨rfl, rfl⟩ := h; exact h_true _
    | label l n si => intro st b st' h; simp only [visit] at h; exact h_label _ _ _ _ _ _ h
    | functionalAssignment l n v ih => intro st b st' h; simp only [visit] at h; exact ih _ _ _ h
    | functionCall l f args ih => intro st b st' h; simp only [visit] at h; exact hrev args ih _ _ _ h
    | functionalInstruction l i args ih =>
      intro st b st' h
      simp only [visit] at h
      split at h
      · exact absurd h (by simp)
      · rename_i b1 st1 h1
        simp at h; obtain ⟨rfl, rfl⟩ := h
        exact hrev args ih _ _ _ h1
    | variableDeclaration l n v ih =>
      intro st b st' h
      simp only [visit] at h
      split at h
      · exact absurd h (by simp)
      · rename_i b1 st1 h1
        split at h
        · exact absurd h (by simp)
        · rename_i c hc
          split at h
          · exact absurd h (by simp)
          · rename_i b2 st2 h2
            simp at h; obtain ⟨rfl, rfl⟩ := h
            exact h_and _ _ _ _ _ (ih _ _ _ h1) (h_reg _ _ _ _ _ _ hc h2)
    | functionDefinition l n as rs a bl body ih =>
      intro st b st' h
      simp only [visit] at h
      split at h
      · exact absurd h (by simp)
      · rename_i b1 st1 h1
        split at h
        · exact absurd h (by simp)
        · rename_i b2 st2 h2
          simp at h; obtain ⟨rfl, rfl⟩ := h
          exact h_and _ _ _ _ _ (h_enter _ _ _ _ _ _ _ _ h1) (h_block _ _ _ _ _ (hseq body ih) h2)
    | block a l stmts ih =>
      intro st b st' h
      simp only [visit] at h
      exact h_block _ _ _ _ _ (hseq stmts ih) h
  exact ⟨hmain, fun l => hseq l (fun s _ => hmain s), fun l => hrev l (fun s _ => hmain s)⟩

/-- Generic induction over the visitor, for single statements. -/
theorem visit_rel (R : Bool → State → State → Prop)
    (h_true : ∀ st, R true st st)
    (h_and : ∀ b1 b2 st st1 st2, R b1 st st1 → R b2 st1 st2 → R (b1 && b2) st st2)
    (h_label : ∀ loc name si st b st', visitLabel loc name si st = Result.ok b st' → R b st st')
    (h_reg : ∀ name loc c st b st', st.m_currentScope = some c →
      registerVariable name loc c st = Result.ok b st' → R b st st')
    (h_enter : ∀ loc name as rs a st b st',
      enterFunction loc name as rs a st = Result.ok b st' → R b st st')
    (h_block : ∀ addr f st b st', (∀ st1 b1 st1', f st1 = Result.ok b1 st1' → R b1 st1 st1') →
      visitBlock addr f st = Result.ok b st' → R b st st') :
    ∀ s st b st', visit s st = Result.ok b st' → R b st st' :=
  (visit_rel_all R h_true h_and h_label h_reg h_enter h_block).1

/-! ## The error sink and the returned flag -/

theorem errRel_refl_true (st : State) : ErrRel true st st := ⟨[], by simp⟩

theorem errRel_and {b1 b2 : Bool} {st st1 st2 : State} (h1 : ErrRel b1 st st1)
    (h2 : ErrRel b2 st1 st2) : ErrRel (b1 && b2) st st2 := by
  obtain ⟨n1, e1, i1⟩ := h1
  obtain ⟨n2, e2, i2⟩ := h2
  refine ⟨n1 ++ n2, by rw [e2, e1, List.append_assoc], ?_⟩
  simp [i1, i2]

theorem scopeSlot_errors (k : BlockPtr) (st : State) :
    (scopeSlot k st).2.m_errors = st.m_errors := by
  unfold scopeSlot
  split <;> rfl

theorem linkScope_errors {s : ScopeRef} {p : Option ScopeRef} {st st' : State} {r : ScopeRef}
    (h : linkScope s p st = Result.ok r st') : st'.m_errors = st.m_errors := by
  unfold linkScope at h
  split at h
  · exact absurd h (by simp)
  · split at h
    · split at h
      · simp at h; obtain ⟨-, rfl⟩ := h; rfl
      · simp only at h
        split at h
        · exact absurd h (by simp)
        · simp at h; obtain ⟨-, rfl⟩ := h; rfl
    · split at h
      · simp at h; obtain ⟨-, rfl⟩ := h; rfl
      · exact absurd h (by simp)

theorem createScope_errors {k : BlockPtr} {p : Option ScopeRef} {st st' : State} {r : ScopeRef}
    (h : createScope k p st = Result.ok r st') : st'.m_errors = st.m_errors := by
  unfold createScope at h
  rw [linkScope_errors h, scopeSlot_errors]

theorem registerVariable_errRel {n : String} {l : SourceLocation} {r : ScopeRef} {st st' : State}
    {b : Bool} (h : registerVariable n l r st = Result.ok b st') : ErrRel b st st' := by
  unfold registerVariable at h
  split at h
  · exact absurd h (by simp)
  · split at h
    · simp at h; obtain ⟨rfl, rfl⟩ := h
      exact ⟨[_], rfl, by simp⟩
    · simp at h; obtain ⟨rfl, rfl⟩ := h
      exact ⟨[], by simp, by simp⟩

theorem registerVariables_errRel {ns : List String} {l : SourceLocation} {r : ScopeRef} :
    ∀ {st st' : State} {b : Bool}, registerVariables ns l r st = Result.ok b st' → ErrRel b st st' := by
  induction ns with
  | nil => intro st st' b h; simp [registerVariables] at h; obtain ⟨rfl, rfl⟩ := h; exact errRel_refl_true _
  | cons n ns ih =>
    intro st st' b h
    simp only [registerVariables] at h
    split at h
    · exact absurd h (by simp)
    · rename_i b1 st1 h1
      split at h
      · exact absurd h (by simp)
      · rename_i b2 st2 h2
        simp at h; obtain ⟨rfl, rfl⟩ := h
        exact errRel_and (registerVariable_errRel h1) (ih h2)

theorem registerStackItems_errRel {ts : List String} {l : SourceLocation} {r : ScopeRef} :
    ∀ {st st' : State} {b : Bool}, registerStackItems ts l r st = Result.ok b st' → ErrRel b st st' := by
  induction ts with
  | nil => intro st st' b h; simp [registerStackItems] at h; obtain ⟨rfl, rfl⟩ := h; exact errRel_refl_true _
  | cons n ns ih =>
    intro st st' b h
    simp only [registerStackItems] at h
    split at h
    · exact ih h
    · split at h
      · exact absurd h (by simp)
      · rename_i b1 st1 h1
        split at h
        · exact absurd h (by simp)
        · rename_i b2 st2 h2
          simp at h; obtain ⟨rfl, rfl⟩ := h
          exact errRel_and (registerVariable_errRel h1) (ih h2)

theorem updateLabel_errors {r : ScopeRef} {n : String} {f : Label → Label} {st st' : State}
    (h : updateLabel r n f st = Result.ok () st') : st'.m_errors = st.m_errors := by
  unfold updateLabel at h
  split at h
  · exact absurd h (by simp)
  · split at h
    · simp at h; subst h; rfl
    · exact absurd h (by simp)

theorem labelVariables_errRel {l : SourceLocation} {n : String} {si : List String} {c : ScopeRef}
    {st st' : State} {b : Bool} (h : labelVariables l n si c st = Result.ok b st') :
    ErrRel b st st' := by
  unfold labelVariables at h
  split at h
  · exact absurd h (by simp)
  · rename_i u st2 h2
    obtain ⟨new, e, i⟩ := registerStackItems_errRel h
    exact ⟨new, by rw [e, updateLabel_errors h2], i⟩

theorem visitLabel_errRel {l : SourceLocation} {n : String} {si : List String} {st st' : State}
    {b : Bool} (h : visitLabel l n si st = Result.ok b st') : ErrRel b st st' := by
  unfold visitLabel at h
  split at h
  · exact absurd h (by simp)
  · split at h
    · exact absurd h (by simp)
    · split at h
      · simp at h; obtain ⟨rfl, rfl⟩ := h
        exact ⟨[_], rfl, by simp⟩
      · simp only at h
        split at h
        · simp at h; obtain ⟨rfl, rfl⟩ := h
          exact ⟨[], by simp, by simp⟩
        · split at h
          · split at h
            · exact absurd h (by simp)
            · rename_i u st2 h2
              simp at h; obtain ⟨rfl, rfl⟩ := h
              exact ⟨[], by simp [updateLabel_errors h2], by simp⟩
          · obtain ⟨new, e, i⟩ := labelVariables_errRel h
            exact ⟨new, e, i⟩
        · obtain ⟨new, e, i⟩ := labelVariables_errRel h
          exact ⟨new, e, i⟩

theorem enterFunction_errRel {l : SourceLocation} {n : String} {as rs : List String} {a : Nat}
    {st st' : State} {b : Bool} (h : enterFunction l n as rs a st = Result.ok b st') :
    ErrRel b st st' := by
  unfold enterFunction at h
  split at h
  · exact absurd h (by simp)
  · split at h
    · exact absurd h (by simp)
    · rename_i c hc x sc hsc
      simp only at h
      split at h
      · exact absurd h (by simp)
      · rename_i body st2 h2
        split at h
        · exact absurd h (by simp)
        · split at h
          · exact absurd h (by simp)
          · rename_i bsc hb b4 st4 h4
            simp at h; obtain ⟨rfl, rfl⟩ := h
            have e2 := createScope_errors h2
            have h4' := registerVariables_errRel h4
            have hp : ErrRel (match sc.registerFunction n as.length rs.length with
                | (false, _) => (false, { st with m_errors := st.m_errors ++ [declarationError "Function" n l] })
                | (true, sc1) => (true, { st with heap := st.heap.set c sc1 })).1 st st2 := by
              split at e2 <;> simp at e2 ⊢
              · exact ⟨[_], e2, by simp⟩
              · exact ⟨[], by simp [e2], by simp⟩
            refine errRel_and hp ?_
            obtain ⟨new, e, i⟩ := h4'
            exact ⟨new, e, i⟩

theorem visitBlock_errRel {addr : Nat} {f : State → Result Bool} {st st' : State} {b : Bool}
    (hf : ∀ st1 b1 st1', f st1 = Result.ok b1 st1' → ErrRel b1 st1 st1')
    (h : visitBlock addr f st = Result.ok b st') : ErrRel b st st' := by
  unfold visitBlock at h
  split at h
  · exact absurd h (by simp)
  · rename_i s st1 h1
    split at h
    · exact absurd h (by simp)
    · rename_i b2 st2 h2
      simp at h; obtain ⟨rfl, rfl⟩ := h
      obtain ⟨new, e, i⟩ := hf _ _ _ h2
      exact ⟨new, by simpa [createScope_errors h1] using e, i⟩

theorem visit_errRel_all :
    (∀ s st b st', visit s st = Result.ok b st' → ErrRel b st st') ∧
    (∀ l st b st', visitStatements l st = Result.ok b st' → ErrRel b st st') ∧
    (∀ l st b st', visitReversed l st = Result.ok b st' → ErrRel b st st') :=
  visit_rel_all ErrRel errRel_refl_true (fun _ _ _ _ _ h1 h2 => errRel_and h1 h2)
    (fun _ _ _ _ _ _ h => visitLabel_errRel h) (fun _ _ _ _ _ _ _ h => registerVariable_errRel h)
    (fun _ _ _ _ _ _ _ _ h => enterFunction_errRel h)
    (fun _ _ _ _ _ hf h => visitBlock_errRel hf h)

theorem visit_errRel {s : Statement} {st st' : State} {b : Bool}
    (h : visit s st = Result.ok b st') : ErrRel b st st' :=
  visit_errRel_all.1 s st b st' h

theorem visitStatements_errRel {l : List Statement} {st st' : State} {b : Bool}
    (h : visitStatements l st = Result.ok b st') : ErrRel b st st' :=
  visit_errRel_all.2.1 l st b st' h

/-- C1: whenever a visit returns, the returned flag is true if and only if the visit appended
no record to the error sink. -/
theorem visit_true_iff_no_new_error (s : Statement) (st st' : State) (b : Bool)
    (h : visit s st = Result.ok b st') :
    b = true ↔ st'.m_errors.length = st.m_errors.length := by
  obtain ⟨new, e, i⟩ := visit_errRel h
  rw [i, e, List.length_append]
  constructor
  · rintro rfl; simp
  · intro hl
    have : new.length = 0 := by omega
    exact List.length_eq_zero.mp this

/-- Witness for C1: a label named like the reserved error label, visited in a fresh filler,
returns false and appends one record. -/
theorem visit_true_iff_no_new_error_witness :
    visit (Statement.label sampleLocation "invalidJumpLabel" []) (freshFiller []) =
      Result.ok false
        ((freshFiller []).pushError (declarationError "Label" "invalidJumpLabel" sampleLocation)) ∧
    (false = true ↔
      ((freshFiller []).pushError
        (declarationError "Label" "invalidJumpLabel" sampleLocation)).m_errors.length =
      (freshFiller []).m_errors.length) :=
  ⟨by decide, visit_true_iff_no_new_error
    (Statement.label sampleLocation "invalidJumpLabel" []) (freshFiller [])
    ((freshFiller []).pushError (declarationError "Label" "invalidJumpLabel" sampleLocation))
    false (by decide)⟩

/-! ## Association maps -/

theorem mapFind_mapAssign_self {κ ν : Type} [DecidableEq κ] (k : κ) (v : ν) (m : List (κ × ν)) :
    mapFind k (mapAssign k v m) = some v := by
  induction m with
  | nil => simp [mapAssign, mapFind]
  | cons e rest ih =>
    by_cases h : e.1 = k
    · simp [mapAssign, mapFind, h]
    · simp [mapAssign, mapFind, h, ih]

theorem mapFind_mapAssign_ne {κ ν : Type} [DecidableEq κ] {k k' : κ} (v : ν) (m : List (κ × ν))
    (hne : k ≠ k') : mapFind k' (mapAssign k v m) = mapFind k' m := by
  induction m with
  | nil => simp [mapAssign, mapFind, hne]
  | cons e rest ih =>
    by_cases h : e.1 = k
    · have h' : ¬ e.1 = k' := by rw [h]; exact hne
      simp [mapAssign, mapFind, h, h', hne]
    · by_cases h2 : e.1 = k'
      · have h3 : ¬ k' = k := fun e => hne e.symm
        subst h2
        simp [mapAssign, mapFind, h3]
      · simp [mapAssign, mapFind, h, h2, ih]

theorem mapFind_eq_none_iff {κ ν : Type} [DecidableEq κ] (k : κ) (m : List (κ × ν)) :
    mapFind k m = none ↔ k ∉ m.map Prod.fst := by
  induction m with
  | nil => simp [mapFind]
  | cons e rest ih =>
    by_cases h : e.1 = k
    · simp [mapFind, h]
    · simp only [mapFind, h, if_false, ih, List.map_cons, List.mem_cons, not_or]
      constructor
      · intro h1; exact ⟨fun h2 => h h2.symm, h1⟩
      · intro h1; exact h1.2

theorem mapAssign_of_not_mem {κ ν : Type} [DecidableEq κ] (k : κ) (v : ν) (m : List (κ × ν))
    (h : mapFind k m = none) : mapAssign k v m = m ++ [(k, v)] := by
  induction m with
  | nil => simp [mapAssign]
  | cons e rest ih =>
    by_cases h1 : e.1 = k
    · simp [mapFind, h1] at h
    · simp only [mapFind, h1, if_false] at h
      simp [mapAssign, h1, ih h]

/-! ## `createScope` -/

theorem set_of_getElem? {α : Type} {l : List α} {i : Nat} {a : α} (h : l[i]? = some a) :
    l.set i a = l := by
  apply List.ext_getElem?
  intro j
  rw [List.getElem?_set]
  split
  · rename_i hij; subst hij
    have hlt : i < l.length := (List.getElem?_eq_some.mp h).1
    simp [hlt, h]
  · rfl

theorem scopeSlot_existing {st : State} {k : BlockPtr} {s : ScopeRef}
    (hk : mapFind k st.m_scopes = some (some s)) : scopeSlot k st = (s, st) := by
  unfold scopeSlot; simp [hk]

theorem scopeSlot_new {st : State} {k : BlockPtr}
    (hk : ∀ s, mapFind k st.m_scopes ≠ some (some s)) :
    scopeSlot k st = (st.heap.length,
      { st with heap := st.heap ++ [Scope.empty],
                m_scopes := mapAssign k (some st.heap.length) st.m_scopes }) := by
  unfold scopeSlot
  split
  · rename_i s h; exact absurd h (hk s)
  · rfl

/-- After `scopeSlot` the block's entry holds the returned pointer, which points to a scope. -/
theorem scopeSlot_facts (k : BlockPtr) (st : State) (hwf : ∀ s, mapFind k st.m_scopes = some (some s) → s < st.heap.length) :
    mapFind k (scopeSlot k st).2.m_scopes = some (some (scopeSlot k st).1) ∧
    (scopeSlot k st).1 < (scopeSlot k st).2.heap.length := by
  unfold scopeSlot
  split
  · rename_i s h; exact ⟨h, hwf s h⟩
  · simp [mapFind_mapAssign_self]

/-- A block whose scope exists and is linked under `p`: a request with the same parent returns
the scope and changes nothing. -/
theorem createScope_existing_same {st : State} {k : BlockPtr} {s : ScopeRef} {sc : Scope}
    {p : ScopeRef} (hk : mapFind k st.m_scopes = some (some s)) (hs : st.heap[s]? = some sc)
    (hp : sc.superScope = some p) : createScope k (some p) st = Result.ok s st := by
  unfold createScope linkScope
  simp [scopeSlot_existing hk, hs, hp]

/-- A block whose scope exists and is linked under `p`: a request with another parent fails the
assertion, in the unchanged state. -/
theorem createScope_existing_other {st : State} {k : BlockPtr} {s : ScopeRef} {sc : Scope}
    {p : ScopeRef} {q : Option ScopeRef} (hk : mapFind k st.m_scopes = some (some s))
    (hs : st.heap[s]? = some sc) (hp : sc.superScope = some p) (hq : q ≠ some p) :
    createScope k q st =
      Result.fatal (Fatal.solAssert "Scope created twice in different superscopes.") st := by
  unfold createScope linkScope
  have : ¬ some p = q := fun h => hq h.symm
  simp [scopeSlot_existing hk, hs, hp, this]

/-- A block without a scope (no entry, or a null pointer) gets a new scope object, linked under
the requested parent scope. -/
theorem createScope_new {st : State} {k : BlockPtr} {q : ScopeRef} {qsc : Scope}
    (hk : ∀ s, mapFind k st.m_scopes ≠ some (some s)) (hq : st.heap[q]? = some qsc) :
    createScope k (some q) st = Result.ok st.heap.length
      { st with
        heap := st.heap.set q { qsc with subScopes := qsc.subScopes ++ [st.heap.length] } ++
          [{ Scope.empty with superScope := some q }],
        m_scopes := mapAssign k (some st.heap.length) st.m_scopes } := by
  have hlt : q < st.heap.length := (List.getElem?_eq_some.mp hq).1
  unfold createScope linkScope
  rw [scopeSlot_new hk]
  simp [Scope.empty, List.getElem?_append_left, hlt, hq, List.getElem?_set, Nat.ne_of_gt hlt,
    List.set_append, Nat.ne_of_lt hlt]

/-- What a successful `linkScope` leaves: the scope is linked under the requested parent. -/
theorem linkScope_ok_facts {s : ScopeRef} {p : Option ScopeRef} {st st' : State} {r : ScopeRef}
    (h : linkScope s p st = Result.ok r st') :
    r = s ∧ st'.m_scopes = st.m_scopes ∧ ∃ sc', st'.heap[s]? = some sc' ∧ sc'.superScope = p := by
  unfold linkScope at h
  split at h
  · exact absurd h (by simp)
  · rename_i sc hsc
    have hlt : s < st.heap.length := (List.getElem?_eq_some.mp hsc).1
    split at h
    · split at h
      · simp at h; obtain ⟨rfl, rfl⟩ := h
        simp [List.getElem?_set, hlt]
      · rename_i q
        simp only at h
        split at h
        · exact absurd h (by simp)
        · rename_i qsc hq
          simp at h; obtain ⟨rfl, rfl⟩ := h
          refine ⟨rfl, rfl, ?_⟩
          by_cases hqs : q = s
          · subst hqs
            simp [List.getElem?_set, hlt] at hq ⊢
            subst hq; rfl
          · simp [List.getElem?_set, hlt, hqs]
    · rename_i q hq
      split at h
      · rename_i heq
        simp at h; obtain ⟨rfl, rfl⟩ := h
        exact ⟨rfl, rfl, sc, hsc, hq.trans heq⟩
      · exact absurd h (by simp)


/-! ## Registration of variables -/

theorem Scope.has_iff (sc : Scope) (n : String) : sc.has n = true ↔ n ∈ sc.names := by
  unfold Scope.has Scope.names
  rw [Option.isSome_iff_ne_none, Ne, mapFind_eq_none_iff, not_not]

theorem Scope.has_eq_false_iff (sc : Scope) (n : String) : sc.has n = false ↔ n ∉ sc.names := by
  rw [← Scope.has_iff]; simp

theorem registerVariable_taken {st : State} {r : ScopeRef} {sc : Scope} {n : String}
    {l : SourceLocation} (hsc : st.heap[r]? = some sc) (hn : n ∈ sc.names) :
    registerVariable n l r st =
      Result.ok false (st.pushError (declarationError "Variable" n l)) := by
  unfold registerVariable Scope.registerVariable State.pushError
  simp [hsc, (Scope.has_iff sc n).mpr hn]

theorem registerVariable_fresh {st : State} {r : ScopeRef} {sc : Scope} {n : String}
    {l : SourceLocation} (hsc : st.heap[r]? = some sc) (hn : n ∉ sc.names) :
    registerVariable n l r st =
      Result.ok true (st.setScope r (sc.add n Identifier.Variable)) := by
  unfold registerVariable Scope.registerVariable State.setScope Scope.add
  have h1 := (Scope.has_eq_false_iff sc n).mpr hn
  have h2 : mapFind n sc.identifiers = none := by
    rw [mapFind_eq_none_iff]; exact hn
  simp [hsc, h1, mapAssign_of_not_mem _ _ _ h2]

theorem afterRegistrations_nil (st : State) (r : ScopeRef) (sc : Scope)
    (hsc : st.heap[r]? = some sc) : afterRegistrations st r sc [] = st := by
  have e : sc.addVariables [] = sc := by simp [Scope.addVariables]
  unfold afterRegistrations
  simp [accepted, rejected, e, set_of_getElem? hsc]

/-- The loop over parameter and return names, as one step. -/
theorem registerVariables_eq (ns : List String) (l : SourceLocation) (r : ScopeRef) :
    ∀ (st : State) (sc : Scope), st.heap[r]? = some sc →
    registerVariables ns l r st =
      Result.ok (rejected sc.names (ns.map (fun n => (n, l)))).isEmpty
        (afterRegistrations st r sc (ns.map (fun n => (n, l)))) := by
  induction ns with
  | nil =>
    intro st sc hsc
    simp [registerVariables, afterRegistrations_nil st r sc hsc, rejected]
  | cons n ns ih =>
    intro st sc hsc
    have hlt : r < st.heap.length := (List.getElem?_eq_some.mp hsc).1
    by_cases hn : n ∈ sc.names
    · simp only [registerVariables, registerVariable_taken hsc hn]
      have h1 := ih (st.pushError (declarationError "Variable" n l)) sc hsc
      rw [h1]
      simp [afterRegistrations, Scope.addVariables, accepted, rejected, hn, State.pushError]
    · simp only [registerVariables, registerVariable_fresh hsc hn]
      have h1 := ih (st.setScope r (sc.add n Identifier.Variable)) (sc.add n Identifier.Variable)
        (by simp [State.setScope, List.getElem?_set, hlt])
      rw [h1]
      have hn' : n ∉ List.map Prod.fst sc.identifiers := hn
      simp [afterRegistrations, Scope.addVariables, accepted, rejected, hn', Scope.names, State.setScope, Scope.add]

/-- The loop over the stack info of a label, as one step over the non-empty tokens. -/
theorem registerStackItems_eq (ts : List String) (l : SourceLocation) (r : ScopeRef) :
    ∀ (st : State), registerStackItems ts l r st =
      registerVariables (ts.filter (fun t => t ≠ "")) l r st := by
  induction ts with
  | nil => intro st; simp [registerStackItems, registerVariables]
  | cons t ts ih =>
    intro st
    by_cases ht : t = ""
    · simp [registerStackItems, ht, ih]
    · simp only [registerStackItems, ht, if_false]
      have : (t :: ts).filter (fun t => t ≠ "") = t :: ts.filter (fun t => t ≠ "") := by
        simp [List.filter, ht]
      rw [this]
      simp only [registerVariables]
      split
      · rfl
      · rw [ih]

/-! ## Accepted and refused registration requests -/

theorem mem_accepted {seen : List String} {ds : List (String × SourceLocation)} {n : String} :
    n ∈ accepted seen ds ↔ n ∉ seen ∧ ∃ d ∈ ds, d.1 = n := by
  induction ds generalizing seen with
  | nil => simp [accepted]
  | cons d ds ih =>
    by_cases hd : d.1 ∈ seen
    · simp only [accepted, hd, if_true, ih, List.mem_cons, exists_eq_or_imp]
      constructor
      · rintro ⟨h1, h2⟩; exact ⟨h1, Or.inr h2⟩
      · rintro ⟨h1, h2 | h2⟩
        · exact absurd (h2 ▸ hd) h1
        · exact ⟨h1, h2⟩
    · simp only [accepted, hd, if_false, List.mem_cons, ih, List.mem_append, List.mem_singleton,
        not_or, exists_eq_or_imp]
      constructor
      · rintro (h | ⟨⟨h1, h2⟩, h3⟩)
        · subst h; exact ⟨hd, Or.inl rfl⟩
        · exact ⟨h1, Or.inr h3⟩
      · rintro ⟨h1, h2 | h2⟩
        · exact Or.inl h2.symm
        · by_cases e : n = d.1
          · exact Or.inl e
          · exact Or.inr ⟨⟨h1, e, List.not_mem_nil _⟩, h2⟩

theorem accepted_nodup (seen : List String) (ds : List (String × SourceLocation)) :
    (accepted seen ds).Nodup := by
  induction ds generalizing seen with
  | nil => simp [accepted]
  | cons d ds ih =>
    by_cases hd : d.1 ∈ seen
    · simp [accepted, hd, ih]
    · simp only [accepted, hd, if_false, List.nodup_cons, ih, and_true]
      intro h
      have := (mem_accepted.mp h).1
      simp at this

theorem mem_rejected {seen : List String} {ds : List (String × SourceLocation)}
    {d : String × SourceLocation} (h : d ∈ rejected seen ds) : d ∈ ds := by
  induction ds generalizing seen with
  | nil => simp [rejected] at h
  | cons e ds ih =>
    by_cases he : e.1 ∈ seen
    · simp only [rejected, he, if_true, List.mem_cons] at h
      rcases h with h | h
      · exact h ▸ List.mem_cons_self _ _
      · exact List.mem_cons_of_mem _ (ih h)
    · simp only [rejected, he, if_false] at h
      exact List.mem_cons_of_mem _ (ih h)

theorem mem_rejected_of_seen {seen : List String} {ds : List (String × SourceLocation)}
    {d : String × SourceLocation} (h : d ∈ ds) (hs : d.1 ∈ seen) : d ∈ rejected seen ds := by
  induction ds generalizing seen with
  | nil => simp at h
  | cons e ds ih =>
    rcases List.mem_cons.mp h with h | h
    · subst h; simp [rejected, hs]
    · by_cases he : e.1 ∈ seen
      · simp only [rejected, he, if_true]; exact List.mem_cons_of_mem _ (ih h hs)
      · simp only [rejected, he, if_false]; exact ih h (List.mem_append_left _ hs)

theorem accepted_length_add_rejected_length (seen : List String)
    (ds : List (String × SourceLocation)) :
    (accepted seen ds).length + (rejected seen ds).length = ds.length := by
  induction ds generalizing seen with
  | nil => simp [accepted, rejected]
  | cons d ds ih =>
    by_cases hd : d.1 ∈ seen
    · simp [accepted, rejected, hd, ← ih seen]; omega
    · simp [accepted, rejected, hd, ← ih (seen ++ [d.1])]; omega

/-- A refused request names something already in the table or requested earlier in the list. -/
theorem rejected_repeated {seen : List String} {ds : List (String × SourceLocation)}
    {d : String × SourceLocation} (h : d ∈ rejected seen ds) :
    d.1 ∈ seen ∨ 2 ≤ (ds.map Prod.fst).count d.1 := by
  induction ds generalizing seen with
  | nil => simp [rejected] at h
  | cons e ds ih =>
    by_cases he : e.1 ∈ seen
    · simp only [rejected, he, if_true, List.mem_cons] at h
      rcases h with h | h
      · exact Or.inl (h ▸ he)
      · rcases ih h with h1 | h1
        · exact Or.inl h1
        · right
          rw [List.map_cons, List.count_cons]
          omega
    · simp only [rejected, he, if_false] at h
      rcases ih h with h1 | h1
      · rcases List.mem_append.mp h1 with h2 | h2
        · exact Or.inl h2
        · right
          have e1 : d.1 = e.1 := by simpa using h2
          have h3 : d.1 ∈ ds.map Prod.fst := List.mem_map_of_mem _ (mem_rejected h)
          have h4 := List.count_pos_iff.mpr h3
          rw [List.map_cons, List.count_cons]
          rw [e1] at h4 ⊢
          simp only [beq_self_eq_true, if_true]
          omega
      · right
        rw [List.map_cons, List.count_cons]
        omega

/-! ## The label visitor -/

theorem mapFind_append_of_none {κ ν : Type} [DecidableEq κ] {k : κ} {m : List (κ × ν)}
    (m' : List (κ × ν)) (h : mapFind k m = none) : mapFind k (m ++ m') = mapFind k m' := by
  induction m with
  | nil => rfl
  | cons e rest ih =>
    by_cases h1 : e.1 = k
    · simp [mapFind, h1] at h
    · simp only [mapFind, h1, if_false] at h
      simp [mapFind, h1, ih h]

theorem mapAssign_append_of_none {κ ν : Type} [DecidableEq κ] {k : κ} {m : List (κ × ν)}
    (v : ν) (m' : List (κ × ν)) (h : mapFind k m = none) :
    mapAssign k v (m ++ m') = m ++ mapAssign k v m' := by
  induction m with
  | nil => rfl
  | cons e rest ih =>
    by_cases h1 : e.1 = k
    · simp [mapFind, h1] at h
    · simp only [mapFind, h1, if_false] at h
      simp [mapAssign, h1, ih h]

theorem mapFind_of_not_mem_names {sc : Scope} {n : String} (h : n ∉ sc.names) :
    mapFind n sc.identifiers = none := by
  rw [mapFind_eq_none_iff]; exact h

theorem getElem?_setScope_self {st : State} {r : ScopeRef} {sc : Scope} (sc' : Scope)
    (hsc : st.heap[r]? = some sc) : (st.setScope r sc').heap[r]? = some sc' := by
  have hlt : r < st.heap.length := (List.getElem?_eq_some.mp hsc).1
  simp [State.setScope, List.getElem?_set, hlt]

theorem setScope_setScope (st : State) (r : ScopeRef) (sc sc' : Scope) :
    (st.setScope r sc).setScope r sc' = st.setScope r sc' := by
  simp [State.setScope]

/-- Writing the stack metadata of a label that was just registered. -/
theorem updateLabel_fresh {st : State} {c : ScopeRef} {sc : Scope} {n : String}
    (f : Label → Label) (hsc : st.heap[c]? = some sc) (hn : n ∉ sc.names) :
    updateLabel c n f (st.setScope c (sc.add n (Identifier.Label (Label.new unassignedLabelId)))) =
      Result.ok () (st.setScope c (sc.add n (Identifier.Label (f (Label.new unassignedLabelId))))) := by
  have h0 := mapFind_of_not_mem_names hn
  unfold updateLabel
  rw [getElem?_setScope_self _ hsc]
  simp only [Scope.add, mapFind_append_of_none _ h0, mapFind, if_true,
    mapAssign_append_of_none _ _ h0, mapAssign]
  simp [State.setScope]

theorem registerLabel_fresh {sc : Scope} {n : String} (id : Nat) (hn : n ∉ sc.names) :
    sc.registerLabel n id = (true, sc.add n (Identifier.Label (Label.new id))) := by
  unfold Scope.registerLabel Scope.add
  simp [(Scope.has_eq_false_iff sc n).mpr hn, mapAssign_of_not_mem _ _ _ (mapFind_of_not_mem_names hn)]

theorem registerLabel_taken {sc : Scope} {n : String} (id : Nat) (hn : n ∈ sc.names) :
    sc.registerLabel n id = (false, sc) := by
  unfold Scope.registerLabel
  simp [(Scope.has_iff sc n).mpr hn]

/-- The fall-through part of the label visitor, after a fresh label name was registered. -/
theorem labelVariables_fresh {st : State} {c : ScopeRef} {sc : Scope} {n : String}
    (l : SourceLocation) (si : List String) (hsc : st.heap[c]? = some sc) (hn : n ∉ sc.names) :
    labelVariables l n si c
        (st.setScope c (sc.add n (Identifier.Label (Label.new unassignedLabelId)))) =
      Result.ok (rejected (sc.add n (labelEntry none true)).names (stackRequests si l)).isEmpty
        (afterRegistrations (st.setScope c (sc.add n (labelEntry none true))) c
          (sc.add n (labelEntry none true)) (stackRequests si l)) := by
  unfold labelVariables
  rw [updateLabel_fresh _ hsc hn]
  simp only [registerStackItems_eq]
  rw [registerVariables_eq _ _ _ _ _ (getElem?_setScope_self _ hsc)]
  rfl

/-- The label visitor on a name already in the current scope. -/
theorem visitLabel_taken {st : State} {c : ScopeRef} {sc : Scope} {n : String}
    (l : SourceLocation) (si : List String) (hc : st.m_currentScope = some c)
    (hsc : st.heap[c]? = some sc) (hn : n ∈ sc.names) :
    visitLabel l n si st = Result.ok false (st.pushError (declarationError "Label" n l)) := by
  unfold visitLabel
  simp [hc, hsc, registerLabel_taken _ hn, State.pushError]

/-- The label visitor on a fresh name without stack info. -/
theorem visitLabel_fresh_nil {st : State} {c : ScopeRef} {sc : Scope} {n : String}
    (l : SourceLocation) (hc : st.m_currentScope = some c)
    (hsc : st.heap[c]? = some sc) (hn : n ∉ sc.names) :
    visitLabel l n [] st =
      Result.ok true (st.setScope c (sc.add n (Identifier.Label (Label.new unassignedLabelId)))) := by
  unfold visitLabel
  simp [hc, hsc, registerLabel_fresh _ hn, State.setScope]

/-- The label visitor on a fresh name with one token that is a number. -/
theorem visitLabel_fresh_number {st : State} {c : ScopeRef} {sc : Scope} {n t : String} {k : Int}
    (l : SourceLocation) (hc : st.m_currentScope = some c)
    (hsc : st.heap[c]? = some sc) (hn : n ∉ sc.names) (ht : lexical_cast_int t = some k) :
    visitLabel l n [t] st = Result.ok true (st.setScope c (sc.add n (labelEntry (some k) false))) := by
  have h1 := updateLabel_fresh
    (fun l => { l with stackAdjustment := some k, resetStackHeight := false }) hsc hn
  obtain ⟨heap, ms, errs, cur⟩ := st
  simp only at hc hsc
  subst hc
  unfold visitLabel
  simp only [hsc, registerLabel_fresh _ hn, ht]
  simp only [State.setScope] at h1
  simp only [h1]
  rfl

/-- The label visitor on a fresh name with one token that is not a number. -/
theorem visitLabel_fresh_token {st : State} {c : ScopeRef} {sc : Scope} {n t : String}
    (l : SourceLocation) (hc : st.m_currentScope = some c)
    (hsc : st.heap[c]? = some sc) (hn : n ∉ sc.names) (ht : lexical_cast_int t = none) :
    visitLabel l n [t] st =
      Result.ok (rejected (sc.add n (labelEntry none true)).names (stackRequests [t] l)).isEmpty
        (afterRegistrations (st.setScope c (sc.add n (labelEntry none true))) c
          (sc.add n (labelEntry none true)) (stackRequests [t] l)) := by
  have h1 := labelVariables_fresh l [t] hsc hn
  obtain ⟨heap, ms, errs, cur⟩ := st
  simp only at hc hsc
  subst hc
  unfold visitLabel
  simp only [hsc, registerLabel_fresh _ hn, ht]
  exact h1

/-- The label visitor on a fresh name with two or more tokens. -/
theorem visitLabel_fresh_many {st : State} {c : ScopeRef} {sc : Scope} {n : String}
    (l : SourceLocation) (t1 t2 : String) (ts : List String) (hc : st.m_currentScope = some c)
    (hsc : st.heap[c]? = some sc) (hn : n ∉ sc.names) :
    visitLabel l n (t1 :: t2 :: ts) st =
      Result.ok
        (rejected (sc.add n (labelEntry none true)).names (stackRequests (t1 :: t2 :: ts) l)).isEmpty
        (afterRegistrations (st.setScope c (sc.add n (labelEntry none true))) c
          (sc.add n (labelEntry none true)) (stackRequests (t1 :: t2 :: ts) l)) := by
  have h1 := labelVariables_fresh l (t1 :: t2 :: ts) hsc hn
  obtain ⟨heap, ms, errs, cur⟩ := st
  simp only at hc hsc
  subst hc
  unfold visitLabel
  simp only [hsc, registerLabel_fresh _ hn]
  exact h1

/-! ## Blocks of variable declarations -/

theorem afterRegistrations_cons_taken {st : State} {r : ScopeRef} {sc : Scope}
    {d : String × SourceLocation} (ds : List (String × SourceLocation)) (hd : d.1 ∈ sc.names) :
    afterRegistrations st r sc (d :: ds) =
      afterRegistrations (st.pushError (declarationError "Variable" d.1 d.2)) r sc ds := by
  simp [afterRegistrations, accepted, rejected, hd, State.pushError]

theorem afterRegistrations_cons_fresh {st : State} {r : ScopeRef} {sc : Scope}
    {d : String × SourceLocation} (ds : List (String × SourceLocation)) (hd : d.1 ∉ sc.names) :
    afterRegistrations st r sc (d :: ds) =
      afterRegistrations (st.setScope r (sc.add d.1 Identifier.Variable)) r
        (sc.add d.1 Identifier.Variable) ds := by
  have hd' : d.1 ∉ List.map Prod.fst sc.identifiers := hd
  simp [afterRegistrations, Scope.addVariables, accepted, rejected, hd', Scope.names,
    State.setScope, Scope.add]

theorem visit_leaf {v : Statement} (h : isLeaf v = true) (st : State) :
    visit v st = Result.ok true st := by
  cases v <;> simp [isLeaf] at h <;> simp [visit]

theorem afterRegistrations_currentScope (st : State) (r : ScopeRef) (sc : Scope)
    (ds : List (String × SourceLocation)) :
    (afterRegistrations st r sc ds).m_currentScope = st.m_currentScope := rfl

/-- A run of variable declarations with leaf initializers, as one step. -/
theorem visitStatements_declarations (stmts : List Statement) (c : ScopeRef) :
    ∀ (st : State) (sc : Scope), st.m_currentScope = some c → st.heap[c]? = some sc →
    (∀ s ∈ stmts, (leafDeclaration s).isSome) →
    visitStatements stmts st =
      Result.ok (rejected sc.names (stmts.filterMap leafDeclaration)).isEmpty
        (afterRegistrations st c sc (stmts.filterMap leafDeclaration)) := by
  induction stmts with
  | nil =>
    intro st sc _ hsc _
    simp [visitStatements, afterRegistrations_nil st c sc hsc, rejected]
  | cons s rest ih =>
    intro st sc hc hsc hall
    have hs := hall s (List.mem_cons_self _ _)
    have hrest : ∀ s ∈ rest, (leafDeclaration s).isSome := fun x hx =>
      hall x (List.mem_cons_of_mem _ hx)
    cases s with
    | variableDeclaration l n v =>
      by_cases hv : isLeaf v = true
      · have hd : leafDeclaration (Statement.variableDeclaration l n v) = some (n, l) := by
          simp [leafDeclaration, hv]
        have hf : (Statement.variableDeclaration l n v :: rest).filterMap leafDeclaration =
            (n, l) :: rest.filterMap leafDeclaration := by
          simp [List.filterMap_cons, hd]
        rw [hf]
        simp only [visitStatements, visit, visit_leaf hv, hc]
        by_cases hn : n ∈ sc.names
        · rw [registerVariable_taken hsc hn]
          have h1 := ih (st.pushError (declarationError "Variable" n l)) sc hc hsc hrest
          simp only [h1]
          rw [afterRegistrations_cons_taken _ hn]
          simp [rejected, hn]
        · rw [registerVariable_fresh hsc hn]
          have h1 := ih (st.setScope c (sc.add n Identifier.Variable))
            (sc.add n Identifier.Variable) hc (getElem?_setScope_self _ hsc) hrest
          simp only [h1]
          rw [afterRegistrations_cons_fresh _ hn]
          have : (sc.add n Identifier.Variable).names = sc.names ++ [n] := by
            simp [Scope.names, Scope.add]
          simp [rejected, hn, this]
      · simp [leafDeclaration, hv] at hs
    | _ => simp [leafDeclaration] at hs

theorem accepted_nil_length (ds : List (String × SourceLocation)) :
    (accepted [] ds).length = (ds.map Prod.fst).dedup.length := by
  rw [← List.card_toFinset, ← List.toFinset_card_of_nodup (accepted_nodup [] ds)]
  congr 1
  ext n
  simp only [List.mem_toFinset, mem_accepted, List.mem_map]
  constructor
  · rintro ⟨-, d, hd, rfl⟩; exact ⟨d, hd, rfl⟩
  · rintro ⟨d, hd, rfl⟩; exact ⟨List.not_mem_nil _, d, hd, rfl⟩

/-! ## Claims about `createScope` -/

theorem constructor_fresh (errors : ErrorList) :
    ScopeFiller [] [] errors = Result.ok () (freshFiller errors) := rfl

/-- C4 (as amended): for a block whose scope is recorded under a parent scope `p`, `createScope`
with any other parent `q` (a scope or none) fails the assertion "Scope created twice in
different superscopes." and leaves the state as it was: no diagnostic, no relinking. -/
theorem createScope_other_parent_is_fatal (st : State) (k : BlockPtr) (s : ScopeRef) (sc : Scope)
    (p : ScopeRef) (q : Option ScopeRef) (hk : mapFind k st.m_scopes = some (some s))
    (hs : st.heap[s]? = some sc) (hp : sc.superScope = some p) (hq : q ≠ some p) :
    createScope k q st =
      Result.fatal (Fatal.solAssert "Scope created twice in different superscopes.") st :=
  createScope_existing_other hk hs hp hq

/-- Witness for C4 (as amended): block 7, linked under the root, requested under no parent. -/
theorem createScope_other_parent_is_fatal_witness :
    createScope (some 7) none linkedTree =
      Result.fatal (Fatal.solAssert "Scope created twice in different superscopes.") linkedTree :=
  createScope_other_parent_is_fatal linkedTree (some 7) 1 { Scope.empty with superScope := some 0 }
    0 none (by decide) (by decide) rfl (by decide)

/-- Counterexample to C4 as stated: block 7 has a scope recorded under no parent; `createScope`
with the parent scope 0 does not abort but returns the scope, relinked under 0. -/
theorem createScope_relinks_scope_without_parent :
    mapFind (some 7) unlinkedTree.m_scopes = some (some 1) ∧
    unlinkedTree.heap[1]? = some Scope.empty ∧ Scope.empty.superScope = none ∧
    createScope (some 7) (some 0) unlinkedTree = Result.ok 1 linkedTree := by
  decide

/-- C5: `createScope` is idempotent for a fixed block and parent: a second call returns the same
scope and leaves the whole state (scope objects, map, errors) unchanged; when the first call
created the scope under a parent that did not list it, the parent lists it exactly once after
both calls. -/
theorem createScope_idempotent (st : State) (k : BlockPtr) (p : Option ScopeRef) (r : ScopeRef)
    (st1 : State) (h : createScope k p st = Result.ok r st1) :
    createScope k p st1 = Result.ok r st1 ∧
    (∀ q qsc, p = some q → st.heap[q]? = some qsc → (∀ s, mapFind k st.m_scopes ≠ some (some s)) →
      st.heap.length ∉ qsc.subScopes →
      ∃ qsc1, st1.heap[q]? = some qsc1 ∧ qsc1.subScopes.count r = 1 ∧
        qsc1.identifiers = qsc.identifiers ∧ qsc1.superScope = qsc.superScope) := by
  constructor
  · have h' := h
    unfold createScope at h'
    obtain ⟨hr, hm, sc', hs', hp'⟩ := linkScope_ok_facts h'
    have hk1 : mapFind k st1.m_scopes = some (some r) := by
      rw [hm, hr]
      unfold scopeSlot
      split
      · rename_i s hk; exact hk
      · simp [mapFind_mapAssign_self]
    rw [← hr] at hs'
    cases p with
    | some q => exact createScope_existing_same hk1 hs' hp'
    | none =>
      unfold createScope linkScope
      simp only [scopeSlot_existing hk1, hs', hp']
      have : st1.heap.set r { sc' with superScope := none } = st1.heap := by
        have e : ({ sc' with superScope := none } : Scope) = sc' := by
          cases sc'; simp at hp'; simp [hp']
        rw [e]
        exact set_of_getElem? hs'
      rw [this]
  · intro q qsc hp hq hk hnot
    subst hp
    rw [createScope_new hk hq] at h
    simp at h; obtain ⟨rfl, rfl⟩ := h
    have hlt : q < st.heap.length := (List.getElem?_eq_some.mp hq).1
    refine ⟨{ qsc with subScopes := qsc.subScopes ++ [st.heap.length] }, ?_, ?_, rfl, rfl⟩
    · simp [List.getElem?_append_left, hlt, List.getElem?_set]
    · simp [List.count_append, List.count_eq_zero_of_not_mem hnot]

/-- Witness for C5: creating the scope of block 7 under the root of a fresh filler, twice. -/
theorem createScope_idempotent_witness :
    createScope (some 7) (some 0) (freshFiller []) = Result.ok 1
      { heap := [{ rootScope with subScopes := [1] }, { Scope.empty with superScope := some 0 }],
        m_scopes := [(none, some 0), (some 7, some 1)], m_errors := [], m_currentScope := some 0 } ∧
    createScope (some 7) (some 0)
      { heap := [{ rootScope with subScopes := [1] }, { Scope.empty with superScope := some 0 }],
        m_scopes := [(none, some 0), (some 7, some 1)], m_errors := [], m_currentScope := some 0 } =
      Result.ok 1
      { heap := [{ rootScope with subScopes := [1] }, { Scope.empty with superScope := some 0 }],
        m_scopes := [(none, some 0), (some 7, some 1)], m_errors := [], m_currentScope := some 0 } :=
  ⟨by decide, (createScope_idempotent (freshFiller []) (some 7) (some 0) 1 _ (by decide)).1⟩

/-! ## Claims about labels -/

theorem mapFind_append {κ ν : Type} [DecidableEq κ] (k : κ) (m m' : List (κ × ν)) :
    mapFind k (m ++ m') = match mapFind k m with
      | some v => some v
      | none => mapFind k m' := by
  induction m with
  | nil => rfl
  | cons e rest ih =>
    by_cases h1 : e.1 = k
    · simp [mapFind, h1]
    · simp [mapFind, h1, ih]

theorem mapFind_map_const {ν : Type} (k : String) (v : ν) (l : List String) (h : k ∈ l) :
    mapFind k (l.map (fun n => (n, v))) = some v := by
  induction l with
  | nil => simp at h
  | cons a l ih =>
    by_cases h1 : a = k
    · simp [mapFind, h1]
    · have : k ∈ l := by
        rcases List.mem_cons.mp h with h2 | h2
        · exact absurd h2.symm h1
        · exact h2
      simp [mapFind, h1, ih this]

/-- C8: a label with a fresh name and one stack-info token that parses as the integer `n`: the
visit returns true in the state where the current scope has one more entry, the label with stack
adjustment `n` and "resets stack height" false; the error sink is unchanged and no other
identifier is added. -/
theorem label_with_number_token (st : State) (c : ScopeRef) (sc : Scope)
    (location : SourceLocation) (name t : String) (n : Int)
    (hc : st.m_currentScope = some c) (hsc : st.heap[c]? = some sc) (hname : name ∉ sc.names)
    (ht : lexical_cast_int t = some n) :
    ∃ st' sc', visit (Statement.label location name [t]) st = Result.ok true st' ∧
      st'.m_errors = st.m_errors ∧ st'.heap[c]? = some sc' ∧
      sc'.identifiers = sc.identifiers ++ [(name, Identifier.Label
        { id := unassignedLabelId, stackAdjustment := some n, resetStackHeight := false })] ∧
      (∀ other, other ≠ name → mapFind other sc'.identifiers = mapFind other sc.identifiers) ∧
      st' = st.setScope c (sc.add name (labelEntry (some n) false)) := by
  refine ⟨_, _, ?_, ?_, getElem?_setScope_self _ hsc, rfl, ?_, rfl⟩
  · simp only [visit]
    exact visitLabel_fresh_number location hc hsc hname ht
  · rfl
  · intro other hne
    simp only [Scope.add, mapFind_append]
    split
    · rename_i v hv; exact hv.symm
    · rename_i hv
      have : ¬ name = other := fun e => hne e.symm
      simp [mapFind, this, hv]

/-- C9 (as amended): a label with a fresh name and one non-empty stack-info token `t` that does
not parse as an integer, `t` being absent from the current scope and different from the label's
own name: the visit returns true, records no error, registers `t` as a variable after the label,
and the label has "resets stack height" true and no stack adjustment. -/
theorem label_with_name_token (st : State) (c : ScopeRef) (sc : Scope)
    (location : SourceLocation) (name t : String)
    (hc : st.m_currentScope = some c) (hsc : st.heap[c]? = some sc) (hname : name ∉ sc.names)
    (hempty : t ≠ "") (ht : lexical_cast_int t = none) (hfresh : t ∉ sc.names)
    (hne : t ≠ name) :
    ∃ st' sc', visit (Statement.label location name [t]) st = Result.ok true st' ∧
      st'.m_errors = st.m_errors ∧ st'.heap[c]? = some sc' ∧
      sc'.identifiers = sc.identifiers ++ [(name, Identifier.Label
        { id := unassignedLabelId, stackAdjustment := none, resetStackHeight := true }),
        (t, Identifier.Variable)] ∧
      mapFind t sc'.identifiers = some Identifier.Variable ∧
      mapFind name sc'.identifiers = some (Identifier.Label
        { id := unassignedLabelId, stackAdjustment := none, resetStackHeight := true }) := by
  have hv := visitLabel_fresh_token location hc hsc hname ht
  have hreq : stackRequests [t] location = [(t, location)] := by
    simp [stackRequests, List.filter, hempty]
  have hnot : t ∉ (sc.add name (labelEntry none true)).names := by
    simp only [Scope.names, Scope.add, List.map_append, List.mem_append, not_or]
    exact ⟨hfresh, by simpa using hne⟩
  rw [hreq] at hv
  have hrej : rejected (sc.add name (labelEntry none true)).names [(t, location)] = [] := by
    simp [rejected, hnot]
  have hacc : accepted (sc.add name (labelEntry none true)).names [(t, location)] = [t] := by
    simp [accepted, hnot]
  rw [hrej] at hv
  have hlt : c < st.heap.length := (List.getElem?_eq_some.mp hsc).1
  have h0 := mapFind_of_not_mem_names hname
  have h1 := mapFind_of_not_mem_names hfresh
  have hne' : ¬ name = t := fun e => hne e.symm
  refine ⟨_, (sc.add name (labelEntry none true)).add t Identifier.Variable,
    by simpa only [visit] using hv, ?_, ?_, ?_, ?_, ?_⟩
  · simp [afterRegistrations, State.setScope, hrej]
  · simp only [afterRegistrations, hacc]
    simp [State.setScope, List.getElem?_set, hlt, Scope.add, Scope.addVariables]
  · simp [Scope.add, labelEntry]
  · simp [Scope.add, mapFind_append, h1, mapFind, hne']
  · simp [Scope.add, mapFind_append, h0, mapFind, labelEntry]

/-- Witness for C8: the label `l` with stack info `["3"]` in a fresh filler. -/
theorem label_with_number_token_witness :
    ∃ st' sc', visit (Statement.label sampleLocation "l" ["3"]) (freshFiller []) =
        Result.ok true st' ∧
      st'.m_errors = (freshFiller []).m_errors ∧ st'.heap[0]? = some sc' ∧
      sc'.identifiers = rootScope.identifiers ++ [("l", Identifier.Label
        { id := unassignedLabelId, stackAdjustment := some 3, resetStackHeight := false })] ∧
      (∀ other, other ≠ "l" → mapFind other sc'.identifiers = mapFind other rootScope.identifiers) ∧
      st' = (freshFiller []).setScope 0 (rootScope.add "l" (labelEntry (some 3) false)) :=
  label_with_number_token (freshFiller []) 0 rootScope sampleLocation "l" "3" 3 rfl rfl
    (by decide) (by decide)

/-- Witness for C9 (as amended): the label `l` with stack info `["x"]` in a fresh filler. -/
theorem label_with_name_token_witness :
    ∃ st' sc', visit (Statement.label sampleLocation "l" ["x"]) (freshFiller []) =
        Result.ok true st' ∧
      st'.m_errors = (freshFiller []).m_errors ∧ st'.heap[0]? = some sc' ∧
      sc'.identifiers = rootScope.identifiers ++ [("l", Identifier.Label
        { id := unassignedLabelId, stackAdjustment := none, resetStackHeight := true }),
        ("x", Identifier.Variable)] ∧
      mapFind "x" sc'.identifiers = some Identifier.Variable ∧
      mapFind "l" sc'.identifiers = some (Identifier.Label
        { id := unassignedLabelId, stackAdjustment := none, resetStackHeight := true }) :=
  label_with_name_token (freshFiller []) 0 rootScope sampleLocation "l" "x" rfl rfl
    (by decide) (by decide) (by decide) (by decide) (by decide)

/-- Counterexample to C9 as stated: the label `x` with stack info `["x"]` in a fresh filler; the
token is non-empty, not a number and absent from the scope before the visit, yet the visit
returns false, records an error, and `x` stays a label. -/
theorem label_token_equal_to_label_name :
    "x" ∉ rootScope.names ∧ "x" ≠ "" ∧ lexical_cast_int "x" = none ∧
    visit (Statement.label sampleLocation "x" ["x"]) (freshFiller []) =
      Result.ok false
        { heap := [rootScope.add "x" (labelEntry none true)], m_scopes := [(none, some 0)],
          m_errors := [declarationError "Variable" "x" sampleLocation],
          m_currentScope := some 0 } := by
  decide

theorem mem_stackRequests {si : List String} {l : SourceLocation} {d : String × SourceLocation} :
    d ∈ stackRequests si l ↔ d.1 ∈ si ∧ d.1 ≠ "" ∧ d.2 = l := by
  unfold stackRequests
  simp only [List.mem_map, List.mem_filter, decide_eq_true_eq]
  constructor
  · rintro ⟨t, ⟨h1, h2⟩, rfl⟩; exact ⟨h1, h2, rfl⟩
  · rintro ⟨h1, h2, h3⟩; exact ⟨d.1, ⟨h1, h2⟩, by rw [← h3]⟩

theorem afterRegistrations_scope {st : State} {r : ScopeRef} {sc0 : Scope} (sc : Scope)
    (ds : List (String × SourceLocation)) (h : st.heap[r]? = some sc0) :
    (afterRegistrations st r sc ds).heap[r]? = some (sc.addVariables (accepted sc.names ds)) := by
  have hlt : r < st.heap.length := (List.getElem?_eq_some.mp h).1
  simp [afterRegistrations, List.getElem?_set, hlt]

/-- C10: a label with a fresh name and two or more stack-info tokens: the visit returns; the
label entry has no stack adjustment and "resets stack height" true; every non-empty token is
submitted for registration in the current scope: it ends up in the table, as a new variable when
the name was free, and with a "Variable name" error when the name was taken (by the scope or by
the label itself); every new error comes from such a token; each non-empty token gives exactly
one new entry or one new error; the former entries are untouched.  In particular two distinct
free tokens such as `x`, `y` or `1`, `2` are both registered as variables, without error. -/
theorem label_with_several_tokens (st : State) (c : ScopeRef) (sc : Scope)
    (location : SourceLocation) (name t1 t2 : String) (ts : List String)
    (hc : st.m_currentScope = some c) (hsc : st.heap[c]? = some sc) (hname : name ∉ sc.names) :
    ∃ b st' sc' new,
      visit (Statement.label location name (t1 :: t2 :: ts)) st = Result.ok b st' ∧
      st'.heap[c]? = some sc' ∧ st'.m_errors = st.m_errors ++ new ∧
      mapFind name sc'.identifiers = some (Identifier.Label
        { id := unassignedLabelId, stackAdjustment := none, resetStackHeight := true }) ∧
      (∀ t ∈ t1 :: t2 :: ts, t ≠ "" → t ∈ sc'.names) ∧
      (∀ t ∈ t1 :: t2 :: ts, t ≠ "" → t ≠ name → t ∉ sc.names →
        mapFind t sc'.identifiers = some Identifier.Variable) ∧
      (∀ t ∈ t1 :: t2 :: ts, t ≠ "" → (t = name ∨ t ∈ sc.names) →
        declarationError "Variable" t location ∈ new) ∧
      (∀ e ∈ new, ∃ t ∈ t1 :: t2 :: ts, t ≠ "" ∧ e = declarationError "Variable" t location) ∧
      (∀ n ∈ sc.names, mapFind n sc'.identifiers = mapFind n sc.identifiers) ∧
      (∀ n ∈ sc'.names, n ∈ sc.names ∨ n = name ∨ (n ∈ t1 :: t2 :: ts ∧ n ≠ "")) ∧
      new.length + sc'.identifiers.length =
        ((t1 :: t2 :: ts).filter (fun t => t ≠ "")).length + sc.identifiers.length + 1 ∧
      (b = true ↔ new = []) ∧
      (ts = [] → t1 ≠ "" → t2 ≠ "" → t1 ≠ t2 → t1 ≠ name → t2 ≠ name → t1 ∉ sc.names →
        t2 ∉ sc.names →
        b = true ∧ new = [] ∧ sc'.identifiers = sc.identifiers ++ [(name, Identifier.Label
          { id := unassignedLabelId, stackAdjustment := none, resetStackHeight := true }),
          (t1, Identifier.Variable), (t2, Identifier.Variable)]) := by
  have hv := visitLabel_fresh_many location t1 t2 ts hc hsc hname
  have h0 := mapFind_of_not_mem_names hname
  have hnames : (sc.add name (labelEntry none true)).names = sc.names ++ [name] := by
    simp [Scope.names, Scope.add]
  generalize hsi : t1 :: t2 :: ts = si at hv ⊢
  generalize hreqs : stackRequests si location = reqs at hv
  generalize hsc0 : sc.add name (labelEntry none true) = sc0 at hv hnames
  have hids : sc0.identifiers = sc.identifiers ++ [(name, labelEntry none true)] := by
    rw [← hsc0]; rfl
  refine ⟨_, _, _, (rejected sc0.names reqs).map (fun d => declarationError "Variable" d.1 d.2),
    by simpa only [visit] using hv,
    afterRegistrations_scope sc0 reqs (getElem?_setScope_self _ hsc), ?_, ?_, ?_, ?_, ?_, ?_, ?_,
    ?_, ?_, ?_, ?_⟩
  · simp [afterRegistrations, State.setScope]
  · simp [Scope.addVariables, hids, mapFind_append, h0, mapFind, labelEntry]
  · intro t ht hne
    have hmem : (t, location) ∈ reqs := by rw [← hreqs]; exact mem_stackRequests.mpr ⟨ht, hne, rfl⟩
    simp only [Scope.addVariables, Scope.names, List.map_append, List.map_map, List.mem_append]
    by_cases hs : t ∈ sc0.names
    · exact Or.inl hs
    · right
      have := mem_accepted.mpr ⟨hs, (t, location), hmem, rfl⟩
      simpa [Function.comp] using this
  · intro t ht hne hne2 hfresh
    have hmem : (t, location) ∈ reqs := by rw [← hreqs]; exact mem_stackRequests.mpr ⟨ht, hne, rfl⟩
    have hs : t ∉ sc0.names := by
      rw [hnames]; simp [hfresh, hne2]
    have hacc := mem_accepted.mpr ⟨hs, (t, location), hmem, rfl⟩
    simp only [Scope.addVariables, mapFind_append, mapFind_of_not_mem_names hs]
    exact mapFind_map_const _ _ _ hacc
  · intro t ht hne htaken
    have hmem : (t, location) ∈ reqs := by rw [← hreqs]; exact mem_stackRequests.mpr ⟨ht, hne, rfl⟩
    have hs : t ∈ sc0.names := by
      rw [hnames]
      rcases htaken with h | h
      · simp [h]
      · simp [h]
    exact List.mem_map.mpr ⟨(t, location), mem_rejected_of_seen hmem hs, rfl⟩
  · intro e he
    obtain ⟨d, hd, rfl⟩ := List.mem_map.mp he
    have := mem_rejected hd
    rw [← hreqs] at this
    obtain ⟨h1, h2, h3⟩ := mem_stackRequests.mp this
    exact ⟨d.1, h1, h2, by rw [h3]⟩
  · intro n hn
    have : mapFind n sc.identifiers ≠ none := by
      rw [Ne, mapFind_eq_none_iff]; exact fun h => h hn
    obtain ⟨v, hv⟩ := Option.ne_none_iff_exists'.mp this
    simp [Scope.addVariables, hids, mapFind_append, hv]
  · intro n hn
    simp only [Scope.addVariables, Scope.names, List.map_append, List.map_map, List.mem_append] at hn
    rcases hn with hn | hn
    · have : n ∈ sc0.names := hn
      rw [hnames] at this
      rcases List.mem_append.mp this with h | h
      · exact Or.inl h
      · exact Or.inr (Or.inl (by simpa using h))
    · have : n ∈ accepted sc0.names reqs := by simpa [Function.comp] using hn
      obtain ⟨-, d, hd, rfl⟩ := mem_accepted.mp this
      rw [← hreqs] at hd
      obtain ⟨h1, h2, -⟩ := mem_stackRequests.mp hd
      exact Or.inr (Or.inr ⟨h1, h2⟩)
  · have hlen := accepted_length_add_rejected_length sc0.names reqs
    have hr : reqs.length = (si.filter (fun t => t ≠ "")).length := by
      rw [← hreqs]; simp [stackRequests]
    simp only [Scope.addVariables, List.length_map, List.length_append, hids,
      List.length_singleton]
    omega
  · simp [List.isEmpty_iff]
  · intro hts h1 h2 h12 h1n h2n h1s h2s
    subst hts
    have hr : reqs = [(t1, location), (t2, location)] := by
      rw [← hreqs, ← hsi]; simp [stackRequests, List.filter, h1, h2]
    have ha : t1 ∉ sc0.names := by rw [hnames]; simp [h1s, h1n]
    have hb : t2 ∉ sc0.names ++ [t1] := by
      have h21 : ¬ t2 = t1 := fun e => h12 e.symm
      rw [hnames]; simp [h2s, h2n, h21]
    have hrej : rejected sc0.names reqs = [] := by
      rw [hr]; simp [rejected, ha, hb]
    have hacc : accepted sc0.names reqs = [t1, t2] := by
      rw [hr]; simp [accepted, ha, hb]
    simp [Scope.addVariables, hrej, hacc, hids, labelEntry]

/-- Witness for C10: the label `l` with stack info `["1", "2"]` in a fresh filler registers the
variables `1` and `2` and sets no stack adjustment. -/
theorem label_with_several_tokens_witness :
    ∃ st' sc', visit (Statement.label sampleLocation "l" ["1", "2"]) (freshFiller []) =
        Result.ok true st' ∧
      st'.heap[0]? = some sc' ∧ st'.m_errors = [] ∧
      sc'.identifiers = rootScope.identifiers ++ [("l", Identifier.Label
        { id := unassignedLabelId, stackAdjustment := none, resetStackHeight := true }),
        ("1", Identifier.Variable), ("2", Identifier.Variable)] := by
  obtain ⟨b, st', sc', new, hv, hs, he, -, -, -, -, -, -, -, -, -, hex⟩ :=
    label_with_several_tokens (freshFiller []) 0 rootScope sampleLocation "l" "1" "2" [] rfl rfl
      (by decide)
  obtain ⟨hb, hnew, hids⟩ := hex rfl (by decide) (by decide) (by decide) (by decide) (by decide)
    (by decide) (by decide)
  subst hb hnew
  exact ⟨st', sc', hv, hs, by simpa [freshFiller] using he, hids⟩

/-! ## Claims about duplicate declarations and shadowing -/

theorem addVariables_names (sc : Scope) (ns : List String) :
    (sc.addVariables ns).names = sc.names ++ ns := by
  have : ∀ l : List String, List.map Prod.fst (l.map (fun n => (n, Identifier.Variable))) = l := by
    intro l
    induction l with
    | nil => rfl
    | cons a l ih => simp only [List.map_cons, ih]
  simp only [Scope.names, Scope.addVariables, List.map_append, this]

/-- Visiting a block from a fresh filler: the block gets the scope object 1 under the root, and
the statements are visited with that scope as the current one. -/
theorem visit_block_fresh (errors : ErrorList) (a : Nat) (location : SourceLocation)
    (stmts : List Statement) :
    visit (Statement.block a location stmts) (freshFiller errors) =
      match visitStatements stmts (insideBlock errors a) with
      | Result.fatal e st2 => Result.fatal e st2
      | Result.ok success st2 => Result.ok success { st2 with m_currentScope := some 0 } := by
  have h : createScope (some a) (some 0) (freshFiller errors) =
      Result.ok 1 { insideBlock errors a with m_currentScope := some 0 } := by
    rw [@createScope_new (freshFiller errors) (some a) 0 rootScope
      (by simp [freshFiller, mapFind]) rfl]
    simp [freshFiller, mapAssign, insideBlock, rootScope, rootWithBlock, childOf, Scope.empty]
  simp only [visit, visitBlock]
  have hc : (freshFiller errors).m_currentScope = some 0 := rfl
  rw [hc, h]
  rfl

/-- C2: a block of variable declarations with leaf initializers, visited from a freshly
constructed filler: the visit returns; the number of new errors is the number of declarations
minus the number of distinct declared names; every new error is the "Variable name" error of a
declaration whose name is declared more than once; the block's scope holds exactly one entry per
distinct declared name, each a variable; in particular two declarations of one name give exactly
one error and one entry. -/
theorem duplicate_declarations_in_block (errors : ErrorList) (a : Nat)
    (location : SourceLocation) (stmts : List Statement)
    (hleaf : ∀ s ∈ stmts, (leafDeclaration s).isSome) :
    ∃ b st' r sc new,
      ScopeFiller [] [] errors = Result.ok () (freshFiller errors) ∧
      visit (Statement.block a location stmts) (freshFiller errors) = Result.ok b st' ∧
      mapFind (some a) st'.m_scopes = some (some r) ∧ st'.heap[r]? = some sc ∧
      st'.m_errors = errors ++ new ∧
      new.length =
        stmts.length - ((stmts.filterMap leafDeclaration).map Prod.fst).dedup.length ∧
      (∀ e ∈ new, ∃ d ∈ stmts.filterMap leafDeclaration,
        e = declarationError "Variable" d.1 d.2 ∧
        2 ≤ ((stmts.filterMap leafDeclaration).map Prod.fst).count d.1) ∧
      sc.names.Nodup ∧
      (∀ n, n ∈ sc.names ↔ n ∈ (stmts.filterMap leafDeclaration).map Prod.fst) ∧
      (∀ e ∈ sc.identifiers, e.2 = Identifier.Variable) ∧
      (∀ l1 n v1 l2 v2, stmts = [Statement.variableDeclaration l1 n v1,
          Statement.variableDeclaration l2 n v2] →
        new = [declarationError "Variable" n l2] ∧ sc.identifiers = [(n, Identifier.Variable)]) := by
  generalize hds : stmts.filterMap leafDeclaration = ds
  have hlen : ds.length = stmts.length := by
    rw [← hds]
    clear hds
    induction stmts with
    | nil => rfl
    | cons s rest ih =>
      obtain ⟨d, hd⟩ := Option.isSome_iff_exists.mp (hleaf s (List.mem_cons_self _ _))
      simp [List.filterMap_cons, hd, ih (fun x hx => hleaf x (List.mem_cons_of_mem _ hx))]
  have hv := visit_block_fresh errors a location stmts
  have hs := visitStatements_declarations stmts 1 (insideBlock errors a) (childOf 0) rfl rfl hleaf
  rw [hs] at hv
  simp only [hds] at hv
  have hnames : (childOf 0).names = [] := rfl
  rw [hnames] at hv
  refine ⟨_, _, 1, (childOf 0).addVariables (accepted [] ds),
    (rejected [] ds).map (fun d => declarationError "Variable" d.1 d.2), rfl, hv, ?_, ?_, ?_, ?_,
    ?_, ?_, ?_, ?_, ?_⟩
  · simp [afterRegistrations, mapFind, insideBlock]
  · simp [afterRegistrations, insideBlock, hnames]
  · simp [afterRegistrations, insideBlock, hnames]
  · have h1 := accepted_length_add_rejected_length [] ds
    have h2 := accepted_nil_length ds
    rw [List.length_map]
    omega
  · intro e he
    obtain ⟨d, hd, rfl⟩ := List.mem_map.mp he
    refine ⟨d, mem_rejected hd, rfl, ?_⟩
    rcases rejected_repeated hd with h | h
    · simp at h
    · exact h
  · rw [addVariables_names, hnames, List.nil_append]
    exact accepted_nodup [] ds
  · intro n
    rw [addVariables_names, hnames, List.nil_append, mem_accepted]
    simp only [List.mem_map]
    constructor
    · rintro ⟨-, d, hd, rfl⟩; exact ⟨d, hd, rfl⟩
    · rintro ⟨d, hd, rfl⟩; exact ⟨List.not_mem_nil _, d, hd, rfl⟩
  · intro e he
    simp only [Scope.addVariables, childOf, List.nil_append, List.mem_map] at he
    obtain ⟨n, -, rfl⟩ := he
    rfl
  · intro l1 n v1 l2 v2 hst
    subst hst
    have h1 := hleaf _ (List.mem_cons_self _ _)
    have h2 := hleaf _ (List.mem_cons_of_mem _ (List.mem_cons_self _ _))
    have e1 : isLeaf v1 = true := by
      by_contra h; simp [leafDeclaration, h] at h1
    have e2 : isLeaf v2 = true := by
      by_contra h; simp [leafDeclaration, h] at h2
    have : ds = [(n, l1), (n, l2)] := by
      rw [← hds]; simp [List.filterMap_cons, leafDeclaration, e1, e2]
    subst this
    simp [rejected, accepted, Scope.addVariables, childOf]

/-- Witness for C2: the block `{ let x := 1  let x := 2 }` gives one error, for the second
declaration, and one entry. -/
theorem duplicate_declarations_in_block_witness :
    ∃ b st' r sc,
      visit (Statement.block 1 sampleLocation
        [Statement.variableDeclaration sampleLocation "x" (Statement.literal sampleLocation true "1"),
         Statement.variableDeclaration sampleLocation "x" (Statement.literal sampleLocation true "2")])
        (freshFiller []) = Result.ok b st' ∧
      mapFind (some 1) st'.m_scopes = some (some r) ∧ st'.heap[r]? = some sc ∧
      st'.m_errors = [declarationError "Variable" "x" sampleLocation] ∧
      sc.identifiers = [("x", Identifier.Variable)] := by
  obtain ⟨b, st', r, sc, new, -, hv, hr, hsc, he, -, -, -, -, -, hex⟩ :=
    duplicate_declarations_in_block [] 1 sampleLocation
      [Statement.variableDeclaration sampleLocation "x" (Statement.literal sampleLocation true "1"),
       Statement.variableDeclaration sampleLocation "x" (Statement.literal sampleLocation true "2")]
      (by simp [leafDeclaration, isLeaf])
  obtain ⟨hnew, hids⟩ := hex _ _ _ _ _ rfl
  exact ⟨b, st', r, sc, hv, hr, hsc, by simpa [hnew] using he, hids⟩

/-- C3: for every name `x`, the block `{ let x := 1 { let x := 2 } }` visited from a freshly
constructed filler returns true and records no diagnostic; the outer and the inner block get
two different scopes, the inner one under the outer one, each holding exactly one entry, the
variable `x`.  Registration in a scope depends on that scope's own table only. -/
theorem inner_shadowing_is_accepted (errors : ErrorList) (x : String) (a b : Nat) (hab : a ≠ b)
    (l0 l1 l2 l3 l4 l5 : SourceLocation) :
    ∃ st' sca scb,
      ScopeFiller [] [] errors = Result.ok () (freshFiller errors) ∧
      visit (Statement.block a l0
        [Statement.variableDeclaration l1 x (Statement.literal l2 true "1"),
         Statement.block b l3 [Statement.variableDeclaration l4 x (Statement.literal l5 true "2")]])
        (freshFiller errors) = Result.ok true st' ∧
      st'.m_errors = errors ∧
      mapFind (some a) st'.m_scopes = some (some 1) ∧
      mapFind (some b) st'.m_scopes = some (some 2) ∧
      st'.heap[1]? = some sca ∧ st'.heap[2]? = some scb ∧
      sca.identifiers = [(x, Identifier.Variable)] ∧
      scb.identifiers = [(x, Identifier.Variable)] ∧
      sca.superScope = some 0 ∧ scb.superScope = some 1 ∧
      (∀ (sc : Scope) (n : String), (sc.registerVariable n).1 = true ↔ n ∉ sc.names) := by
  have hba : ¬ b = a := fun e => hab e.symm
  have hv : visit (Statement.block a l0
        [Statement.variableDeclaration l1 x (Statement.literal l2 true "1"),
         Statement.block b l3 [Statement.variableDeclaration l4 x (Statement.literal l5 true "2")]])
        (freshFiller errors) = Result.ok true (afterShadowing errors x a b) := by
    rw [visit_block_fresh]
    simp [visitStatements, visit, visitBlock, createScope, scopeSlot, linkScope, registerVariable,
      Scope.registerVariable, Scope.has, insideBlock, mapFind, mapAssign, hab, hba, childOf,
      Scope.empty, afterShadowing]
  refine ⟨afterShadowing errors x a b, _, _, rfl, hv, rfl, ?_, ?_, rfl, rfl, rfl, rfl, rfl, rfl, ?_⟩
  · simp [afterShadowing, mapFind, hab]
  · simp [afterShadowing, mapFind, hab, hba]
  · intro sc n
    rw [← Scope.has_eq_false_iff]
    unfold Scope.registerVariable
    cases sc.has n <;> simp

/-- Witness for C3: `{ let x := 1 { let x := 2 } }` with the blocks at addresses 1 and 2. -/
theorem inner_shadowing_is_accepted_witness :
    ∃ st', visit (Statement.block 1 sampleLocation
        [Statement.variableDeclaration sampleLocation "x" (Statement.literal sampleLocation true "1"),
         Statement.block 2 sampleLocation
          [Statement.variableDeclaration sampleLocation "x"
            (Statement.literal sampleLocation true "2")]])
        (freshFiller []) = Result.ok true st' ∧ st'.m_errors = [] := by
  obtain ⟨st', -, -, -, hv, he, -⟩ :=
    inner_shadowing_is_accepted [] "x" 1 2 (by decide) sampleLocation sampleLocation
      sampleLocation sampleLocation sampleLocation sampleLocation
  exact ⟨st', hv, he⟩

/-! ## Steps that touch one table only -/

theorem tableOnly_refl (c : ScopeRef) (st : State) : TableOnly c st st :=
  ⟨rfl, rfl, rfl, fun _ _ => rfl, fun csc h => ⟨csc, h, rfl, rfl, rfl⟩⟩

theorem tableOnly_trans {c : ScopeRef} {st st1 st2 : State} (h1 : TableOnly c st st1)
    (h2 : TableOnly c st1 st2) : TableOnly c st st2 := by
  obtain ⟨a1, b1, c1, d1, e1⟩ := h1
  obtain ⟨a2, b2, c2, d2, e2⟩ := h2
  refine ⟨a2.trans a1, b2.trans b1, c2.trans c1, fun r hr => (d2 r hr).trans (d1 r hr), ?_⟩
  intro csc hcsc
  obtain ⟨csc1, h1, s1, s2, s3⟩ := e1 csc hcsc
  obtain ⟨csc2, h2, t1, t2, t3⟩ := e2 csc1 h1
  exact ⟨csc2, h2, t1.trans s1, t2.trans s2, t3.trans s3⟩

theorem tableOnly_pushError (c : ScopeRef) (st : State) (e : Error) :
    TableOnly c st (st.pushError e) :=
  ⟨rfl, rfl, rfl, fun _ _ => rfl, fun csc h => ⟨csc, h, rfl, rfl, rfl⟩⟩

theorem tableOnly_of_set {c : ScopeRef} {st st' : State} {csc csc' : Scope}
    (h : st.heap[c]? = some csc) (hh : st'.heap = st.heap.set c csc')
    (hm : st'.m_scopes = st.m_scopes) (hc : st'.m_currentScope = st.m_currentScope)
    (h1 : csc'.superScope = csc.superScope) (h2 : csc'.subScopes = csc.subScopes)
    (h3 : csc'.functionScope = csc.functionScope) : TableOnly c st st' := by
  have hlt : c < st.heap.length := (List.getElem?_eq_some.mp h).1
  refine ⟨hc, hm, by simp [hh], ?_, ?_⟩
  · intro r hr
    have : ¬ c = r := fun e => hr e.symm
    rw [hh, List.getElem?_set]
    simp [this]
  · intro csc0 h0
    rw [h] at h0
    cases h0
    refine ⟨csc', ?_, h1, h2, h3⟩
    rw [hh, List.getElem?_set]
    simp [hlt]

theorem tableOnly_setScope {c : ScopeRef} {st : State} {csc csc' : Scope}
    (h : st.heap[c]? = some csc) (h1 : csc'.superScope = csc.superScope)
    (h2 : csc'.subScopes = csc.subScopes) (h3 : csc'.functionScope = csc.functionScope) :
    TableOnly c st (st.setScope c csc') :=
  tableOnly_of_set h rfl rfl rfl h1 h2 h3

theorem tableOnly_afterRegistrations {c : ScopeRef} {st : State} {csc : Scope}
    (ds : List (String × SourceLocation)) (h : st.heap[c]? = some csc) :
    TableOnly c st (afterRegistrations st c csc ds) :=
  tableOnly_of_set h rfl rfl rfl rfl rfl rfl

/-- `ScopeFiller::registerVariable` on a valid scope returns and touches only its table. -/
theorem registerVariable_tableOnly {r : ScopeRef} {st : State} {sc : Scope} (n : String)
    (l : SourceLocation) (h : st.heap[r]? = some sc) :
    ∃ b st', registerVariable n l r st = Result.ok b st' ∧ TableOnly r st st' := by
  by_cases hn : n ∈ sc.names
  · exact ⟨_, _, registerVariable_taken h hn, tableOnly_pushError _ _ _⟩
  · exact ⟨_, _, registerVariable_fresh h hn, tableOnly_setScope h rfl rfl rfl⟩

/-- The label visitor with a valid current scope returns and touches only its table. -/
theorem visitLabel_tableOnly {c : ScopeRef} {st : State} {sc : Scope} (l : SourceLocation)
    (n : String) (si : List String) (hc : st.m_currentScope = some c)
    (h : st.heap[c]? = some sc) :
    ∃ b st', visitLabel l n si st = Result.ok b st' ∧ TableOnly c st st' := by
  by_cases hn : n ∈ sc.names
  · exact ⟨_, _, visitLabel_taken l si hc h hn, tableOnly_pushError _ _ _⟩
  · have hadd : ∀ i, TableOnly c st (st.setScope c (sc.add n i)) := fun i =>
      tableOnly_setScope h rfl rfl rfl
    have hreg : ∀ ds, TableOnly c st
        (afterRegistrations (st.setScope c (sc.add n (labelEntry none true))) c
          (sc.add n (labelEntry none true)) ds) := fun ds =>
      tableOnly_trans (hadd _) (tableOnly_afterRegistrations ds (getElem?_setScope_self _ h))
    match si with
    | [] => exact ⟨_, _, visitLabel_fresh_nil l hc h hn, hadd _⟩
    | [t] =>
      cases ht : lexical_cast_int t with
      | some k => exact ⟨_, _, visitLabel_fresh_number l hc h hn ht, hadd _⟩
      | none => exact ⟨_, _, visitLabel_fresh_token l hc h hn ht, hreg _⟩
    | t1 :: t2 :: ts => exact ⟨_, _, visitLabel_fresh_many l t1 t2 ts hc h hn, hreg _⟩

/-! ## The shape of the scope tree after a visit -/

theorem newEntries_append (n : Nat) (l1 l2 : List Nat) :
    newEntries n (l1 ++ l2) = newEntries n l1 ++ newEntries (n + l1.length) l2 := by
  induction l1 generalizing n with
  | nil => simp [newEntries]
  | cons a l ih =>
    have e : n + 1 + l.length = n + (l.length + 1) := by omega
    rw [List.cons_append]
    simp only [newEntries, List.length_cons, List.cons_append]
    rw [ih (n + 1), e]

theorem newEntries_keys (n : Nat) (l : List Nat) :
    (newEntries n l).map Prod.fst = l.map some := by
  induction l generalizing n with
  | nil => rfl
  | cons a l ih => simp [newEntries, ih]

theorem scopeOf_append {st st' : State} {extra : List (BlockPtr × Option ScopeRef)}
    (h : st'.m_scopes = st.m_scopes ++ extra) {a : Nat} {r : ScopeRef} (hs : ScopeOf st a r) :
    ScopeOf st' a r := by
  unfold ScopeOf at hs ⊢
  rw [h, mapFind_append, hs]

theorem createScope_withNewScope {st : State} {k : BlockPtr} {q : ScopeRef} {qsc : Scope}
    (hk : ∀ s, mapFind k st.m_scopes ≠ some (some s)) (hq : st.heap[q]? = some qsc) :
    createScope k (some q) st = Result.ok st.heap.length (withNewScope st k q qsc) :=
  createScope_new hk hq

theorem post_of_tableOnly {c : ScopeRef} {st st' : State} {csc : Scope} (P : Option Nat)
    (h : TableOnly c st st') (hc : st.heap[c]? = some csc) : VisitPost P c [] [] [] st st' := by
  obtain ⟨-, hm, hl, hf, hs⟩ := h
  obtain ⟨csc', h1, h2, h3, h4⟩ := hs csc hc
  refine ⟨by simp [hm, newEntries], by simp [hl], fun r _ hr => hf r hr,
    ⟨csc, csc', [], hc, h1, h2, h4, by simp [h3], List.Forall₂.nil⟩, ?_⟩
  intro info hi
  cases hi

theorem visitPost_trans {P : Option Nat} {c : ScopeRef} {B1 T1 B2 T2 : List Nat}
    {I1 I2 : List BlockInfo} {st st1 st2 : State} (h1 : VisitPost P c B1 T1 I1 st st1)
    (h2 : VisitPost P c B2 T2 I2 st1 st2) (hc : c < st.heap.length) :
    VisitPost P c (B1 ++ B2) (T1 ++ T2) (I1 ++ I2) st st2 := by
  obtain ⟨m1, l1, f1, ⟨csc, csc1, subs1, ha, hb, s1, s2, s3, s4⟩, i1⟩ := h1
  obtain ⟨m2, l2, f2, ⟨csc1', csc2, subs2, ha', hb', t1, t2, t3, t4⟩, i2⟩ := h2
  have e : csc1' = csc1 := by rw [hb] at ha'; cases ha'; rfl
  subst e
  have mono : ∀ a r, ScopeOf st1 a r → ScopeOf st2 a r := fun a r h => scopeOf_append m2 h
  refine ⟨?_, ?_, ?_, ⟨csc, csc2, subs1 ++ subs2, ha, hb', t1.trans s1, t2.trans s2, ?_, ?_⟩, ?_⟩
  · rw [m2, m1, l1, newEntries_append, List.append_assoc]
  · rw [l2, l1, List.length_append]; omega
  · intro r hr hne
    rw [f2 r (by omega) hne, f1 r hr hne]
  · rw [t3, s3, List.append_assoc]
  · exact List.rel_append (s4.imp mono) t4
  · intro info hi
    rcases List.mem_append.mp hi with hi | hi
    · obtain ⟨r, sc, pr, a1, a2, a3, a4, a5, a6, a7⟩ := i1 info hi
      have hr1 : r < st1.heap.length := (List.getElem?_eq_some.mp a3).1
      have hrc : r ≠ c := fun e => by rw [e] at a2; exact absurd hc (Nat.not_lt.mpr a2)
      refine ⟨r, sc, pr, mono _ _ a1, a2, ?_, a4, ?_, a6.imp mono, a7⟩
      · rw [f2 r hr1 hrc, a3]
      · rcases a5 with h | ⟨p, hp, hs⟩
        · exact Or.inl h
        · exact Or.inr ⟨p, hp, mono _ _ hs⟩
    · obtain ⟨r, sc, pr, a1, a2, a3, a4, a5, a6, a7⟩ := i2 info hi
      exact ⟨r, sc, pr, a1, by omega, a3, a4, a5, a6, a7⟩

theorem withNewScope_facts {st : State} {c : ScopeRef} {csc : Scope} (a : Nat)
    (hc : st.heap[c]? = some csc) (hk : mapFind (some a) st.m_scopes = none) :
    (withNewScope st (some a) c csc).m_scopes = st.m_scopes ++ [(some a, some st.heap.length)] ∧
    (withNewScope st (some a) c csc).heap.length = st.heap.length + 1 ∧
    (withNewScope st (some a) c csc).heap[st.heap.length]? = some (childOf c) ∧
    (withNewScope st (some a) c csc).heap[c]? =
      some { csc with subScopes := csc.subScopes ++ [st.heap.length] } ∧
    (∀ r, r < st.heap.length → r ≠ c → (withNewScope st (some a) c csc).heap[r]? = st.heap[r]?) ∧
    (withNewScope st (some a) c csc).m_currentScope = st.m_currentScope ∧
    (withNewScope st (some a) c csc).m_errors = st.m_errors := by
  have hlt : c < st.heap.length := (List.getElem?_eq_some.mp hc).1
  refine ⟨?_, ?_, ?_, ?_, ?_, rfl, rfl⟩
  · simp [withNewScope, mapAssign_of_not_mem _ _ _ hk]
  · simp [withNewScope]
  · simp [withNewScope, List.getElem?_append_right]
  · simp [withNewScope, List.getElem?_append_left, hlt, List.getElem?_set]
  · intro r hr hne
    have : ¬ c = r := fun e => hne e.symm
    simp [withNewScope, List.getElem?_append_left, hr, List.getElem?_set, this]

/-- The tree shape after a block or a function body: a new scope for the block `a` under the
current scope `c`, then the visit of its statements with the new scope as current scope. -/
theorem visitPost_nested {P : Option Nat} {c : ScopeRef} {a : Nat} {B T : List Nat}
    {I : List BlockInfo} {st st_c st_d : State} {csc nsc : Scope}
    (hc : st.heap[c]? = some csc) (hk : mapFind (some a) st.m_scopes = none)
    (hm : st_c.m_scopes = (withNewScope st (some a) c csc).m_scopes)
    (hh : st_c.heap = (withNewScope st (some a) c csc).heap.set st.heap.length nsc)
    (hn1 : nsc.superScope = some c) (hn2 : nsc.subScopes = [])
    (hin : VisitPost (some a) st.heap.length B T I st_c st_d) :
    VisitPost P c (a :: B) [a]
      ({ addr := a, parent := P, children := T, isFunctionBody := nsc.functionScope } :: I)
      st st_d := by
  have hlt : c < st.heap.length := (List.getElem?_eq_some.mp hc).1
  obtain ⟨w1, w2, w3, w4, w5, -, -⟩ := withNewScope_facts a hc hk
  have hlen : st_c.heap.length = st.heap.length + 1 := by rw [hh, List.length_set, w2]
  have hcn : st_c.heap[st.heap.length]? = some nsc := by
    rw [hh, List.getElem?_set]; simp [w2]
  have hcr : ∀ r, r ≠ st.heap.length →
      st_c.heap[r]? = (withNewScope st (some a) c csc).heap[r]? := by
    intro r hr
    have : ¬ st.heap.length = r := fun e => hr e.symm
    rw [hh, List.getElem?_set]; simp [this]
  obtain ⟨m, l, f, ⟨nsc0, nsc', subs, ha, hb, s1, s2, s3, s4⟩, i⟩ := hin
  have e : nsc0 = nsc := by rw [hcn] at ha; cases ha; rfl
  subst e
  have hmd : st_d.m_scopes = st.m_scopes ++ newEntries st.heap.length (a :: B) := by
    rw [m, hm, w1, hlen, List.append_assoc]; rfl
  have hself : ScopeOf st_d a st.heap.length := by
    unfold ScopeOf
    rw [hmd, mapFind_append, hk]
    simp [newEntries, mapFind]
  have hc1 : c < st_c.heap.length := by rw [hlen]; exact Nat.lt_succ_of_lt hlt
  have hc2 : c ≠ st.heap.length := Nat.ne_of_lt hlt
  have hcd : st_d.heap[c]? = some { csc with subScopes := csc.subScopes ++ [st.heap.length] } := by
    rw [f c hc1 hc2, hcr c hc2, w4]
  refine ⟨hmd, by rw [l, hlen, List.length_cons]; omega, ?_, ⟨csc, _, [st.heap.length], hc, hcd,
    rfl, rfl, rfl, List.Forall₂.cons hself List.Forall₂.nil⟩, ?_⟩
  · intro r hr hne
    have hr1 : r < st_c.heap.length := by rw [hlen]; exact Nat.lt_succ_of_lt hr
    have hr2 : r ≠ st.heap.length := Nat.ne_of_lt hr
    rw [f r hr1 hr2, hcr r hr2, w5 r hr hne]
  · intro info hi
    rcases List.mem_cons.mp hi with rfl | hi
    · refine ⟨st.heap.length, nsc', c, hself, le_refl _, hb, s1.trans hn1, Or.inl ⟨rfl, rfl⟩, ?_, s2⟩
      rw [s3, hn2, List.nil_append]
      exact s4
    · obtain ⟨r, sc, pr, a1, a2, a3, a4, a5, a6, a7⟩ := i info hi
      refine ⟨r, sc, pr, a1, by omega, a3, a4, Or.inr ?_, a6, a7⟩
      rcases a5 with ⟨h1, h2⟩ | h
      · exact ⟨a, h1, h2 ▸ hself⟩
      · exact h

/-! ## The function-definition visitor -/

theorem registerFunction_taken {sc : Scope} {n : String} (a r : Nat) (hn : n ∈ sc.names) :
    sc.registerFunction n a r = (false, sc) := by
  unfold Scope.registerFunction
  simp [(Scope.has_iff sc n).mpr hn]

theorem registerFunction_fresh {sc : Scope} {n : String} (a r : Nat) (hn : n ∉ sc.names) :
    sc.registerFunction n a r = (true, sc.add n (Identifier.Function a r)) := by
  unfold Scope.registerFunction Scope.add
  simp [(Scope.has_eq_false_iff sc n).mpr hn, mapAssign_of_not_mem _ _ _ (mapFind_of_not_mem_names hn)]

theorem functionNameStep_facts (st : State) (c : ScopeRef) (csc : Scope) (l : SourceLocation)
    (name : String) (na nr : Nat) (hsc : st.heap[c]? = some csc) :
    TableOnly c st (functionNameStep st c csc l name na nr).2.1 ∧
    (functionNameStep st c csc l name na nr).2.1.heap[c]? =
      some (functionNameStep st c csc l name na nr).2.2 := by
  unfold functionNameStep
  split
  · exact ⟨tableOnly_pushError _ _ _, hsc⟩
  · exact ⟨tableOnly_setScope hsc rfl rfl rfl, getElem?_setScope_self _ hsc⟩

/-- The first part of the function-definition visitor, when the body has no scope yet. -/
theorem enterFunction_new {st : State} {c : ScopeRef} {csc : Scope} (l : SourceLocation)
    (name : String) (as rs : List String) (a : Nat) (hc : st.m_currentScope = some c)
    (hsc : st.heap[c]? = some csc) (hk : mapFind (some a) st.m_scopes = none) :
    enterFunction l name as rs a st =
      Result.ok
        ((functionNameStep st c csc l name as.length rs.length).1 &&
          (rejected [] ((as ++ rs).map (fun n => (n, l)))).isEmpty)
        (afterEnterFunction (functionNameStep st c csc l name as.length rs.length).2.1 c
          (functionNameStep st c csc l name as.length rs.length).2.2 a
          ((as ++ rs).map (fun n => (n, l)))) := by
  obtain ⟨⟨hcur, hm, hl, -, -⟩, hca⟩ :=
    functionNameStep_facts st c csc l name as.length rs.length hsc
  generalize hstep : functionNameStep st c csc l name as.length rs.length = step at *
  obtain ⟨b0, st_a, csc_a⟩ := step
  simp only at hcur hm hl hca ⊢
  have hk' : ∀ s, mapFind (some a) st_a.m_scopes ≠ some (some s) := by
    intro s; rw [hm, hk]; simp
  have hcs := createScope_withNewScope hk' hca
  have hk2 : mapFind (some a) st_a.m_scopes = none := by rw [hm, hk]
  obtain ⟨w1, w2, w3, w4, w5, w6, w7⟩ := withNewScope_facts a hca hk2
  have hp : (match csc.registerFunction name as.length rs.length with
      | (false, _) =>
        (false, { st with m_errors := st.m_errors ++ [declarationError "Function" name l] })
      | (true, sc1) => (true, { st with heap := st.heap.set c sc1 })) = (b0, st_a) := by
    unfold functionNameStep at hstep
    by_cases hn : name ∈ csc.names
    · simp only [hn, if_true] at hstep
      cases hstep
      rw [registerFunction_taken _ _ hn]; rfl
    · simp only [hn, if_false] at hstep
      cases hstep
      rw [registerFunction_fresh _ _ hn]; rfl
  unfold enterFunction
  split
  · rename_i h0; rw [hc] at h0; cases h0
  rename_i c' hc'
  have hcc : c = c' := by rw [hc] at hc'; cases hc'; rfl
  subst hcc
  simp only [hsc, hp]
  simp only [hcur, hc, hcs, w3]
  have hreg := registerVariables_eq (as ++ rs) l st_a.heap.length
    ((withNewScope st_a (some a) c csc_a).setScope st_a.heap.length (functionScopeUnder c))
    (functionScopeUnder c) (getElem?_setScope_self _ w3)
  have e : ({ withNewScope st_a (some a) c csc_a with
      heap := (withNewScope st_a (some a) c csc_a).heap.set st_a.heap.length
        { childOf c with functionScope := true } } : State) =
      (withNewScope st_a (some a) c csc_a).setScope st_a.heap.length (functionScopeUnder c) := rfl
  rw [e, hreg]
  rfl

/-! ## Every visit from a ready state returns and builds the expected tree -/

theorem visitPost_of_eq {P : Option Nat} {c : ScopeRef} {B T : List Nat} {I : List BlockInfo}
    {st st' st1 st1' : State} (h : VisitPost P c B T I st st') (e1 : st1.heap = st.heap)
    (e2 : st1.m_scopes = st.m_scopes) (e3 : st1'.heap = st'.heap)
    (e4 : st1'.m_scopes = st'.m_scopes) : VisitPost P c B T I st1 st1' := by
  unfold VisitPost ScopeOf at *
  rw [e1, e2, e3, e4]
  exact h

theorem mapFind_newEntries_none {n : Nat} {l : List Nat} {a : Nat} (h : a ∉ l) :
    mapFind (some a) (newEntries n l) = none := by
  rw [mapFind_eq_none_iff, newEntries_keys]
  simpa using h

theorem ready_left {st : State} {c : ScopeRef} {B1 B2 : List Nat} (h : Ready st c (B1 ++ B2)) :
    Ready st c B1 :=
  ⟨h.1, h.2.1, fun a ha => h.2.2.1 a (List.mem_append_left _ ha), h.2.2.2.of_append_left⟩

theorem ready_step {st st1 : State} {c : ScopeRef} {B1 B2 T : List Nat} {I : List BlockInfo}
    {P : Option Nat} (h : Ready st c (B1 ++ B2)) (hcur : st1.m_currentScope = st.m_currentScope)
    (hp : VisitPost P c B1 T I st st1) : Ready st1 c B2 := by
  obtain ⟨m, -, -, ⟨csc, csc1, subs, -, hb, -⟩, -⟩ := hp
  refine ⟨hcur.trans h.1, ⟨csc1, hb⟩, ?_, h.2.2.2.of_append_right⟩
  intro a ha
  rw [m, mapFind_append, h.2.2.1 a (List.mem_append_right _ ha)]
  exact mapFind_newEntries_none (fun h1 => List.disjoint_of_nodup_append h.2.2.2 h1 ha)

theorem ready_lt {st : State} {c : ScopeRef} {B : List Nat} (h : Ready st c B) :
    c < st.heap.length := by
  obtain ⟨csc, hc⟩ := h.2.1
  exact (List.getElem?_eq_some.mp hc).1

theorem visitStatements_post (l : List Statement) (hl : ∀ s ∈ l, PostOK s) :
    ∀ (P : Option Nat) (st : State) (c : ScopeRef), Ready st c (blocksOfStatements l) →
    ∃ b st', visitStatements l st = Result.ok b st' ∧
      st'.m_currentScope = st.m_currentScope ∧
      VisitPost P c (blocksOfStatements l) (topBlocksStatements l) (blockInfosStatements P l)
        st st' := by
  induction l with
  | nil =>
    intro P st c h
    obtain ⟨csc, hc⟩ := h.2.1
    exact ⟨true, st, rfl, rfl, post_of_tableOnly P (tableOnly_refl c st) hc⟩
  | cons s rest ih =>
    intro P st c h
    simp only [blocksOfStatements, topBlocksStatements, blockInfosStatements] at h ⊢
    obtain ⟨b1, st1, h1, c1, p1⟩ := hl s (List.mem_cons_self _ _) P st c (ready_left h)
    obtain ⟨b2, st2, h2, c2, p2⟩ :=
      ih (fun x hx => hl x (List.mem_cons_of_mem _ hx)) P st1 c (ready_step h c1 p1)
    refine ⟨b1 && b2, st2, ?_, c2.trans c1, visitPost_trans p1 p2 (ready_lt h)⟩
    simp only [visitStatements, h1, h2]

theorem visitReversed_post (l : List Statement) (hl : ∀ s ∈ l, PostOK s) :
    ∀ (P : Option Nat) (st : State) (c : ScopeRef), Ready st c (blocksOfReversed l) →
    ∃ b st', visitReversed l st = Result.ok b st' ∧
      st'.m_currentScope = st.m_currentScope ∧
      VisitPost P c (blocksOfReversed l) (topBlocksReversed l) (blockInfosReversed P l)
        st st' := by
  induction l with
  | nil =>
    intro P st c h
    obtain ⟨csc, hc⟩ := h.2.1
    exact ⟨true, st, rfl, rfl, post_of_tableOnly P (tableOnly_refl c st) hc⟩
  | cons s rest ih =>
    intro P st c h
    simp only [blocksOfReversed, topBlocksReversed, blockInfosReversed] at h ⊢
    obtain ⟨b1, st1, h1, c1, p1⟩ :=
      ih (fun x hx => hl x (List.mem_cons_of_mem _ hx)) P st c (ready_left h)
    obtain ⟨b2, st2, h2, c2, p2⟩ := hl s (List.mem_cons_self _ _) P st1 c (ready_step h c1 p1)
    refine ⟨b1 && b2, st2, ?_, c2.trans c1, visitPost_trans p1 p2 (ready_lt h)⟩
    simp only [visitReversed, h1, h2]

/-- The block visitor on a block without a scope: the scope is created under the current scope
and the statements are visited with it as current scope. -/
theorem visitBlock_new {st : State} {c : ScopeRef} {csc : Scope} (a : Nat)
    (f : State → Result Bool) (hc : st.m_currentScope = some c) (hsc : st.heap[c]? = some csc)
    (hk : mapFind (some a) st.m_scopes = none) :
    visitBlock a f st =
      match f ((withNewScope st (some a) c csc).withCurrent (some st.heap.length)) with
      | Result.fatal e st2 => Result.fatal e st2
      | Result.ok b st2 => Result.ok b (st2.withCurrent (some c)) := by
  have hk' : ∀ s, mapFind (some a) st.m_scopes ≠ some (some s) := by
    intro s; rw [hk]; simp
  unfold visitBlock
  rw [hc, createScope_withNewScope hk' hsc]
  rfl

/-- The block visitor on a block whose scope exists under the current scope (the body of a
function definition): no scope is created, the statements are visited with the existing scope
as current scope. -/
theorem visitBlock_existing {st : State} {c n : ScopeRef} {nsc : Scope} (a : Nat)
    (f : State → Result Bool) (hc : st.m_currentScope = some c)
    (hk : mapFind (some a) st.m_scopes = some (some n)) (hn : st.heap[n]? = some nsc)
    (hs : nsc.superScope = some c) :
    visitBlock a f st =
      match f (st.withCurrent (some n)) with
      | Result.fatal e st2 => Result.fatal e st2
      | Result.ok b st2 => Result.ok b (st2.withCurrent (some c)) := by
  unfold visitBlock
  rw [hc, createScope_existing_same hk hn hs]
  rfl

/-- The statements of a block or function body, visited right after the scope of the block was
created under `c` (and possibly filled with parameters). -/
theorem inner_visit_post {l : List Statement} (hl : ∀ s ∈ l, PostOK s) (P : Option Nat)
    (st st4 : State) {c : ScopeRef} {csc nsc : Scope} {a : Nat}
    (hc : st.heap[c]? = some csc) (hk : mapFind (some a) st.m_scopes = none)
    (hm : st4.m_scopes = (withNewScope st (some a) c csc).m_scopes)
    (hh : st4.heap = (withNewScope st (some a) c csc).heap.set st.heap.length nsc)
    (hn1 : nsc.superScope = some c) (hn2 : nsc.subScopes = [])
    (hB : ∀ x ∈ blocksOfStatements l, mapFind (some x) st.m_scopes = none)
    (hnd : (a :: blocksOfStatements l).Nodup) :
    ∃ b st', visitStatements l (st4.withCurrent (some st.heap.length)) = Result.ok b st' ∧
      VisitPost P c (a :: blocksOfStatements l) [a]
        ({ addr := a, parent := P, children := topBlocksStatements l,
           isFunctionBody := nsc.functionScope } :: blockInfosStatements (some a) l) st st' := by
  obtain ⟨w1, w2, w3, w4, w5, -, -⟩ := withNewScope_facts a hc hk
  have hcn : st4.heap[st.heap.length]? = some nsc := by
    rw [hh, List.getElem?_set]; simp [w2]
  have hready : Ready (st4.withCurrent (some st.heap.length)) st.heap.length
      (blocksOfStatements l) := by
    refine ⟨rfl, ⟨nsc, hcn⟩, ?_, (List.nodup_cons.mp hnd).2⟩
    intro x hx
    have hxa : ¬ a = x := fun e => (List.nodup_cons.mp hnd).1 (e ▸ hx)
    show mapFind (some x) st4.m_scopes = none
    rw [hm, w1, mapFind_append, hB x hx]
    simp [mapFind, hxa]
  obtain ⟨b, st', hv, -, hp⟩ :=
    visitStatements_post l hl (some a) (st4.withCurrent (some st.heap.length)) st.heap.length hready
  exact ⟨b, st', hv, visitPost_nested hc hk hm hh hn1 hn2 hp⟩

/-- Every statement satisfies `PostOK`. -/
theorem visit_post : ∀ s : Statement, PostOK s := by
  intro s
  induction s using Statement.induction with
  | instruction l i =>
    intro P st c h
    obtain ⟨csc, hc⟩ := h.2.1
    exact ⟨true, st, rfl, rfl, post_of_tableOnly P (tableOnly_refl c st) hc⟩
  | literal l n v =>
    intro P st c h
    obtain ⟨csc, hc⟩ := h.2.1
    exact ⟨true, st, rfl, rfl, post_of_tableOnly P (tableOnly_refl c st) hc⟩
  | identifier l n =>
    intro P st c h
    obtain ⟨csc, hc⟩ := h.2.1
    exact ⟨true, st, rfl, rfl, post_of_tableOnly P (tableOnly_refl c st) hc⟩
  | label l n si =>
    intro P st c h
    obtain ⟨csc, hc⟩ := h.2.1
    obtain ⟨b, st', hv, ht⟩ := visitLabel_tableOnly l n si h.1 hc
    exact ⟨b, st', hv, ht.1, post_of_tableOnly P ht hc⟩
  | functionalAssignment l n v ih =>
    intro P st c h
    exact ih P st c h
  | functionCall l f args ih =>
    intro P st c h
    exact visitReversed_post args ih P st c h
  | functionalInstruction l i args ih =>
    intro P st c h
    obtain ⟨b, st', hv, hc, hp⟩ := visitReversed_post args ih P st c h
    refine ⟨b && true, st', ?_, hc, hp⟩
    simp only [visit, hv]
  | variableDeclaration l n v ih =>
    intro P st c h
    have h' : Ready st c (blocksOf v ++ []) := by simpa [blocksOf] using h
    obtain ⟨b1, st1, h1, c1, p1⟩ := ih P st c (ready_left h')
    have hr := ready_step h' c1 p1
    obtain ⟨csc1, hc1⟩ := hr.2.1
    obtain ⟨b2, st2, h2, t2⟩ := registerVariable_tableOnly n l hc1
    have p := visitPost_trans p1 (post_of_tableOnly P t2 hc1) (ready_lt h)
    refine ⟨b1 && b2, st2, ?_, t2.1.trans c1, ?_⟩
    · simp only [visit, h1, hr.1, h2]
    · simpa [blocksOf, topBlocks, blockInfos] using p
  | functionDefinition l n as rs a bl body ih =>
    intro P st c h
    obtain ⟨csc, hc⟩ := h.2.1
    have hk : mapFind (some a) st.m_scopes = none := h.2.2.1 a (by simp [blocksOf])
    have hB : ∀ x ∈ blocksOfStatements body, mapFind (some x) st.m_scopes = none :=
      fun x hx => h.2.2.1 x (by simp [blocksOf, hx])
    have hnd : (a :: blocksOfStatements body).Nodup := by simpa [blocksOf] using h.2.2.2
    have he := enterFunction_new l n as rs a h.1 hc hk
    obtain ⟨ht, hca⟩ := functionNameStep_facts st c csc l n as.length rs.length hc
    generalize functionNameStep st c csc l n as.length rs.length = step at he ht hca
    obtain ⟨b0, st_a, csc_a⟩ := step
    simp only at he ht hca
    generalize hds : (as ++ rs).map (fun x => (x, l)) = ds at he
    have hp0 : VisitPost P c [] [] [] st st_a := post_of_tableOnly P ht hc
    obtain ⟨tcur, tm, tl, -, -⟩ := ht
    have hk_a : mapFind (some a) st_a.m_scopes = none := by rw [tm, hk]
    have hB_a : ∀ x ∈ blocksOfStatements body, mapFind (some x) st_a.m_scopes = none := by
      intro x hx; rw [tm]; exact hB x hx
    obtain ⟨w1, w2, w3, w4, w5, w6, -⟩ := withNewScope_facts a hca hk_a
    have h4m : (afterEnterFunction st_a c csc_a a ds).m_scopes =
        (withNewScope st_a (some a) c csc_a).m_scopes := rfl
    have h4h : (afterEnterFunction st_a c csc_a a ds).heap =
        (withNewScope st_a (some a) c csc_a).heap.set st_a.heap.length
          ((functionScopeUnder c).addVariables (accepted (functionScopeUnder c).names ds)) := by
      simp [afterEnterFunction, afterRegistrations, State.setScope]
    have h4c : (afterEnterFunction st_a c csc_a a ds).m_currentScope = some c := by
      show (withNewScope st_a (some a) c csc_a).m_currentScope = some c
      rw [w6, tcur, h.1]
    have h4n : (afterEnterFunction st_a c csc_a a ds).heap[st_a.heap.length]? =
        some ((functionScopeUnder c).addVariables (accepted (functionScopeUnder c).names ds)) := by
      rw [h4h, List.getElem?_set]; simp [w2]
    have h4k : mapFind (some a) (afterEnterFunction st_a c csc_a a ds).m_scopes =
        some (some st_a.heap.length) := by
      rw [h4m, w1, mapFind_append, hk_a]; simp [mapFind]
    obtain ⟨b, st', hv, hp⟩ := inner_visit_post ih P st_a (afterEnterFunction st_a c csc_a a ds)
      hca hk_a h4m h4h rfl rfl hB_a hnd
    have hfin := visitPost_of_eq (visitPost_trans hp0 hp (ready_lt h)) (rfl : st.heap = st.heap) rfl
      (rfl : (st'.withCurrent (some c)).heap = st'.heap) rfl
    refine ⟨(b0 && (rejected [] ds).isEmpty) && b, st'.withCurrent (some c), ?_, h.1.symm, ?_⟩
    · simp only [visit, he]
      rw [visitBlock_existing a _ h4c h4k h4n rfl]
      simp only [hv]
    · simpa [blocksOf, topBlocks, blockInfos, Scope.addVariables, functionScopeUnder] using hfin
  | block a l stmts ih =>
    intro P st c h
    obtain ⟨csc, hc⟩ := h.2.1
    have hk : mapFind (some a) st.m_scopes = none := h.2.2.1 a (by simp [blocksOf])
    have hB : ∀ x ∈ blocksOfStatements stmts, mapFind (some x) st.m_scopes = none :=
      fun x hx => h.2.2.1 x (by simp [blocksOf, hx])
    have hnd : (a :: blocksOfStatements stmts).Nodup := by simpa [blocksOf] using h.2.2.2
    obtain ⟨w1, w2, w3, w4, w5, -, -⟩ := withNewScope_facts a hc hk
    obtain ⟨b, st', hv, hp⟩ := inner_visit_post ih P st (withNewScope st (some a) c csc)
      hc hk rfl (set_of_getElem? w3).symm rfl rfl hB hnd
    refine ⟨b, st'.withCurrent (some c), ?_, h.1.symm, ?_⟩
    · simp only [visit]
      rw [visitBlock_new a _ h.1 hc hk]
      simp only [hv]
    · exact visitPost_of_eq hp rfl rfl rfl rfl

/-! ## The blocks of a statement: nesting facts -/

theorem topBlocks_sublist : ∀ s : Statement, (topBlocks s).Sublist (blocksOf s) := by
  have hseq : ∀ l : List Statement, (∀ s ∈ l, (topBlocks s).Sublist (blocksOf s)) →
      (topBlocksStatements l).Sublist (blocksOfStatements l) := by
    intro l
    induction l with
    | nil => intro _; exact List.Sublist.refl _
    | cons s rest ih =>
      intro h
      simp only [topBlocksStatements, blocksOfStatements]
      exact (h s (List.mem_cons_self _ _)).append
        (ih (fun x hx => h x (List.mem_cons_of_mem _ hx)))
  have hrev : ∀ l : List Statement, (∀ s ∈ l, (topBlocks s).Sublist (blocksOf s)) →
      (topBlocksReversed l).Sublist (blocksOfReversed l) := by
    intro l
    induction l with
    | nil => intro _; exact List.Sublist.refl _
    | cons s rest ih =>
      intro h
      simp only [topBlocksReversed, blocksOfReversed]
      exact (ih (fun x hx => h x (List.mem_cons_of_mem _ hx))).append
        (h s (List.mem_cons_self _ _))
  intro s
  induction s using Statement.induction with
  | instruction l i => exact List.Sublist.refl _
  | literal l n v => exact List.Sublist.refl _
  | identifier l n => exact List.Sublist.refl _
  | label l n si => exact List.Sublist.refl _
  | functionalAssignment l n v ih => simpa [topBlocks, blocksOf] using ih
  | functionCall l f args ih => simpa [topBlocks, blocksOf] using hrev args ih
  | functionalInstruction l i args ih => simpa [topBlocks, blocksOf] using hrev args ih
  | variableDeclaration l n v ih => simpa [topBlocks, blocksOf] using ih
  | functionDefinition l n as rs a bl body ih => simp [topBlocks, blocksOf]
  | block a l stmts ih => simp [topBlocks, blocksOf]

theorem topBlocksStatements_sublist (l : List Statement) :
    (topBlocksStatements l).Sublist (blocksOfStatements l) := by
  induction l with
  | nil => exact List.Sublist.refl _
  | cons s rest ih =>
    simp only [topBlocksStatements, blocksOfStatements]
    exact (topBlocks_sublist s).append ih

/-- The blocks listed by `blockInfos` are the blocks of the statement, in the same order; and
when the blocks are pairwise different, so are the directly nested blocks of each block. -/
theorem blockInfos_facts : ∀ (s : Statement) (P : Option Nat),
    (blockInfos P s).map BlockInfo.addr = blocksOf s ∧
    ((blocksOf s).Nodup → ∀ info ∈ blockInfos P s, info.children.Nodup) := by
  have hseq : ∀ l : List Statement, (∀ s ∈ l, ∀ P : Option Nat,
      (blockInfos P s).map BlockInfo.addr = blocksOf s ∧
      ((blocksOf s).Nodup → ∀ info ∈ blockInfos P s, info.children.Nodup)) →
      ∀ P : Option Nat, (blockInfosStatements P l).map BlockInfo.addr = blocksOfStatements l ∧
      ((blocksOfStatements l).Nodup → ∀ info ∈ blockInfosStatements P l, info.children.Nodup) := by
    intro l
    induction l with
    | nil => intro _ P; exact ⟨rfl, fun _ info hi => by cases hi⟩
    | cons s rest ih =>
      intro h P
      obtain ⟨h1, h2⟩ := h s (List.mem_cons_self _ _) P
      obtain ⟨h3, h4⟩ := ih (fun x hx => h x (List.mem_cons_of_mem _ hx)) P
      simp only [blockInfosStatements, blocksOfStatements, List.map_append, h1, h3, true_and]
      intro hnd info hi
      rcases List.mem_append.mp hi with hi | hi
      · exact h2 hnd.of_append_left info hi
      · exact h4 hnd.of_append_right info hi
  have hrev : ∀ l : List Statement, (∀ s ∈ l, ∀ P : Option Nat,
      (blockInfos P s).map BlockInfo.addr = blocksOf s ∧
      ((blocksOf s).Nodup → ∀ info ∈ blockInfos P s, info.children.Nodup)) →
      ∀ P : Option Nat, (blockInfosReversed P l).map BlockInfo.addr = blocksOfReversed l ∧
      ((blocksOfReversed l).Nodup → ∀ info ∈ blockInfosReversed P l, info.children.Nodup) := by
    intro l
    induction l with
    | nil => intro _ P; exact ⟨rfl, fun _ info hi => by cases hi⟩
    | cons s rest ih =>
      intro h P
      obtain ⟨h1, h2⟩ := h s (List.mem_cons_self _ _) P
      obtain ⟨h3, h4⟩ := ih (fun x hx => h x (List.mem_cons_of_mem _ hx)) P
      simp only [blockInfosReversed, blocksOfReversed, List.map_append, h1, h3, true_and]
      intro hnd info hi
      rcases List.mem_append.mp hi with hi | hi
      · exact h4 hnd.of_append_left info hi
      · exact h2 hnd.of_append_right info hi
  intro s
  induction s using Statement.induction with
  | instruction l i => intro P; exact ⟨rfl, fun _ info hi => by cases hi⟩
  | literal l n v => intro P; exact ⟨rfl, fun _ info hi => by cases hi⟩
  | identifier l n => intro P; exact ⟨rfl, fun _ info hi => by cases hi⟩
  | label l n si => intro P; exact ⟨rfl, fun _ info hi => by cases hi⟩
  | functionalAssignment l n v ih => intro P; simpa [blockInfos, blocksOf] using ih P
  | functionCall l f args ih => intro P; simpa [blockInfos, blocksOf] using hrev args ih P
  | functionalInstruction l i args ih =>
    intro P; simpa [blockInfos, blocksOf] using hrev args ih P
  | variableDeclaration l n v ih => intro P; simpa [blockInfos, blocksOf] using ih P
  | functionDefinition l n as rs a bl body ih =>
    intro P
    obtain ⟨h1, h2⟩ := hseq body ih (some a)
    refine ⟨by simp [blockInfos, blocksOf, h1], ?_⟩
    intro hnd info hi
    have hnd' : (a :: blocksOfStatements body).Nodup := by simpa [blocksOf] using hnd
    simp only [blockInfos, List.mem_cons] at hi
    rcases hi with rfl | hi
    · exact (List.nodup_cons.mp hnd').2.sublist (topBlocksStatements_sublist body)
    · exact h2 (List.nodup_cons.mp hnd').2 info hi
  | block a l stmts ih =>
    intro P
    obtain ⟨h1, h2⟩ := hseq stmts ih (some a)
    refine ⟨by simp [blockInfos, blocksOf, h1], ?_⟩
    intro hnd info hi
    have hnd' : (a :: blocksOfStatements stmts).Nodup := by simpa [blocksOf] using hnd
    simp only [blockInfos, List.mem_cons] at hi
    rcases hi with rfl | hi
    · exact (List.nodup_cons.mp hnd').2.sublist (topBlocksStatements_sublist stmts)
    · exact h2 (List.nodup_cons.mp hnd').2 info hi

theorem mapFind_newEntries_ge {n : Nat} {l : List Nat} {k : BlockPtr} {r : ScopeRef}
    (h : mapFind k (newEntries n l) = some (some r)) : n ≤ r := by
  induction l generalizing n with
  | nil => simp [newEntries, mapFind] at h
  | cons a l ih =>
    simp only [newEntries, mapFind] at h
    split at h
    · simp at h; exact Nat.le_of_eq h
    · exact Nat.le_of_succ_le (ih h)

theorem mapFind_newEntries_inj {n : Nat} {l : List Nat} {k1 k2 : BlockPtr} {r : ScopeRef}
    (h1 : mapFind k1 (newEntries n l) = some (some r))
    (h2 : mapFind k2 (newEntries n l) = some (some r)) : k1 = k2 := by
  induction l generalizing n with
  | nil => simp [newEntries, mapFind] at h1
  | cons a l ih =>
    simp only [newEntries, mapFind] at h1 h2
    split at h1
    · rename_i e1
      split at h2
      · rename_i e2; exact e1.symm.trans e2
      · simp at h1
        have h3 : n + 1 ≤ r := mapFind_newEntries_ge h2
        have h4 : (n : Nat) = r := h1
        omega
    · split at h2
      · simp at h2
        have h3 : n + 1 ≤ r := mapFind_newEntries_ge h1
        have h4 : (n : Nat) = r := h2
        omega
      · exact ih h1 h2

theorem forall₂_scopeOf_nodup {st : State} {as : List Nat} {rs : List ScopeRef}
    (hinj : ∀ k1 k2 r, mapFind k1 st.m_scopes = some (some r) →
      mapFind k2 st.m_scopes = some (some r) → k1 = k2)
    (h : List.Forall₂ (ScopeOf st) as rs) (hnd : as.Nodup) : rs.Nodup := by
  induction h with
  | nil => exact List.nodup_nil
  | cons hab hrest ih =>
    rename_i a r as' rs'
    obtain ⟨hna, hnd'⟩ := List.nodup_cons.mp hnd
    refine List.nodup_cons.mpr ⟨?_, ih hnd'⟩
    intro hr
    have : ∀ {as' : List Nat} {rs' : List ScopeRef}, List.Forall₂ (ScopeOf st) as' rs' →
        r ∈ rs' → ∃ x ∈ as', ScopeOf st x r := by
      intro as' rs' h
      induction h with
      | nil => intro h; cases h
      | cons hxy _ ih2 =>
        intro hm
        rcases List.mem_cons.mp hm with rfl | hm
        · exact ⟨_, List.mem_cons_self _ _, hxy⟩
        · obtain ⟨x, hx, hs⟩ := ih2 hm
          exact ⟨x, List.mem_cons_of_mem _ hx, hs⟩
    obtain ⟨x, hx, hs⟩ := this hrest hr
    have e := hinj _ _ _ hab hs
    simp at e
    exact hna (e ▸ hx)

/-! ## Claims about the scope tree after a traversal -/

theorem ready_fresh (errors : ErrorList) {B : List Nat} (hnd : B.Nodup) :
    Ready (freshFiller errors) 0 B :=
  ⟨rfl, ⟨rootScope, rfl⟩, fun a _ => by simp [freshFiller, mapFind], hnd⟩

/-- The scope tree after visiting a statement `B` with one outermost block `a` from a fresh
filler, when the blocks of `B` have pairwise different addresses. -/
theorem traversal_from_fresh (errors : ErrorList) (B : Statement) (a : Nat)
    (htop : topBlocks B = [a]) (hnd : (blocksOf B).Nodup) :
    ∃ b st',
      visit B (freshFiller errors) = Result.ok b st' ∧
      st'.m_scopes = (none, some 0) :: newEntries 1 (blocksOf B) ∧
      st'.heap.length = 1 + (blocksOf B).length ∧
      (∀ k1 k2 r, mapFind k1 st'.m_scopes = some (some r) →
        mapFind k2 st'.m_scopes = some (some r) → k1 = k2) ∧
      (∃ root ra, mapFind none st'.m_scopes = some (some 0) ∧ st'.heap[0]? = some root ∧
        root.superScope = none ∧ root.functionScope = false ∧ ScopeOf st' a ra ∧
        root.subScopes = [ra]) ∧
      (∀ info ∈ blockInfos none B, ∃ r sc pr,
        ScopeOf st' info.addr r ∧ st'.heap[r]? = some sc ∧ sc.superScope = some pr ∧
        mapFind info.parent st'.m_scopes = some (some pr) ∧
        List.Forall₂ (ScopeOf st') info.children sc.subScopes ∧ sc.subScopes.Nodup ∧
        sc.functionScope = info.isFunctionBody) := by
  obtain ⟨b, st', hv, -, m, l, -, ⟨csc, csc', subs, ha, hb, s1, s2, s3, s4⟩, i⟩ :=
    visit_post B none (freshFiller errors) 0 (ready_fresh errors hnd)
  have hroot : csc = rootScope := by
    have : (freshFiller errors).heap[0]? = some rootScope := rfl
    rw [this] at ha; cases ha; rfl
  subst hroot
  have hm : st'.m_scopes = (none, some 0) :: newEntries 1 (blocksOf B) := by
    rw [m]; rfl
  have hnone : mapFind none st'.m_scopes = some (some 0) := by
    rw [hm]; simp [mapFind]
  have hinj : ∀ k1 k2 r, mapFind k1 st'.m_scopes = some (some r) →
      mapFind k2 st'.m_scopes = some (some r) → k1 = k2 := by
    intro k1 k2 r h1 h2
    rw [hm] at h1 h2
    simp only [mapFind] at h1 h2
    split at h1
    · rename_i e1
      split at h2
      · rename_i e2; exact e1.symm.trans e2
      · simp at h1
        have h3 := mapFind_newEntries_ge h2
        rw [← h1] at h3
        exact absurd h3 (by decide)
    · split at h2
      · simp at h2
        have h3 := mapFind_newEntries_ge h1
        rw [← h2] at h3
        exact absurd h3 (by decide)
      · exact mapFind_newEntries_inj h1 h2
  rw [htop] at s4
  obtain ⟨ra, hra, hsubs⟩ : ∃ ra, ScopeOf st' a ra ∧ subs = [ra] := by
    cases s4 with
    | cons h1 h2 => cases h2; exact ⟨_, h1, rfl⟩
  refine ⟨b, st', hv, hm, by rw [l]; simp [freshFiller], hinj,
    ⟨csc', ra, hnone, hb, s1, s2, hra, by rw [s3, hsubs]; rfl⟩, ?_⟩
  intro info hi
  obtain ⟨r, sc, pr, a1, -, a3, a4, a5, a6, a7⟩ := i info hi
  refine ⟨r, sc, pr, a1, a3, a4, ?_, a6,
    forall₂_scopeOf_nodup hinj a6 ((blockInfos_facts B none).2 hnd info hi), a7⟩
  rcases a5 with ⟨h1, h2⟩ | ⟨p, h1, h2⟩
  · rw [h1, h2]; exact hnone
  · rw [h1]; exact h2

/-- C6: visiting a top-level block `B` whose blocks have pairwise different addresses, from a
freshly constructed filler: the visit returns; the keys of the scope tree are the root key and
the blocks of `B` (the block itself, nested blocks, function bodies), each once and no others;
there is one scope object per key, different keys have different scopes; the root scope has no
super scope and lists exactly the scope of `B`; every block's scope has as super scope the
scope of its nearest enclosing block (the root scope for `B`) and lists exactly the scopes of
its directly nested blocks, in traversal order and without repetition. -/
theorem scope_tree_after_traversal (errors : ErrorList) (a : Nat) (location : SourceLocation)
    (stmts : List Statement) (hnd : (blocksOf (Statement.block a location stmts)).Nodup) :
    ∃ b st',
      ScopeFiller [] [] errors = Result.ok () (freshFiller errors) ∧
      visit (Statement.block a location stmts) (freshFiller errors) = Result.ok b st' ∧
      st'.m_scopes.map Prod.fst =
        none :: (blocksOf (Statement.block a location stmts)).map some ∧
      (st'.m_scopes.map Prod.fst).Nodup ∧
      st'.heap.length = 1 + (blocksOf (Statement.block a location stmts)).length ∧
      (∀ k ∈ st'.m_scopes.map Prod.fst, ∃ r sc,
        mapFind k st'.m_scopes = some (some r) ∧ st'.heap[r]? = some sc) ∧
      (∀ k1 k2 r, mapFind k1 st'.m_scopes = some (some r) →
        mapFind k2 st'.m_scopes = some (some r) → k1 = k2) ∧
      (∃ root ra, mapFind none st'.m_scopes = some (some 0) ∧ st'.heap[0]? = some root ∧
        root.superScope = none ∧ ScopeOf st' a ra ∧ root.subScopes = [ra]) ∧
      (blockInfos none (Statement.block a location stmts)).map BlockInfo.addr =
        blocksOf (Statement.block a location stmts) ∧
      (∀ info ∈ blockInfos none (Statement.block a location stmts), ∃ r sc pr,
        ScopeOf st' info.addr r ∧ st'.heap[r]? = some sc ∧ sc.superScope = some pr ∧
        mapFind info.parent st'.m_scopes = some (some pr) ∧
        List.Forall₂ (ScopeOf st') info.children sc.subScopes ∧ sc.subScopes.Nodup) := by
  generalize hB : Statement.block a location stmts = B at hnd ⊢
  have htop : topBlocks B = [a] := by rw [← hB]; rfl
  obtain ⟨b, st', hv, hm, hl, hinj, ⟨root, ra, hnone, hr0, hr1, -, hr3, hr4⟩, hinfo⟩ :=
    traversal_from_fresh errors B a htop hnd
  have hkeys : st'.m_scopes.map Prod.fst = none :: (blocksOf B).map some := by
    rw [hm, List.map_cons, newEntries_keys]
  refine ⟨b, st', rfl, hv, hkeys, ?_, hl, ?_, hinj, ⟨root, ra, hnone, hr0, hr1, hr3, hr4⟩,
    (blockInfos_facts B none).1, ?_⟩
  · rw [hkeys]
    refine List.nodup_cons.mpr ⟨by simp, ?_⟩
    exact hnd.map (fun x y h => by simpa using h)
  · intro k hk
    rw [hkeys] at hk
    rcases List.mem_cons.mp hk with rfl | hk
    · exact ⟨0, root, hnone, hr0⟩
    · obtain ⟨x, hx, rfl⟩ := List.mem_map.mp hk
      rw [← (blockInfos_facts B none).1] at hx
      obtain ⟨info, hi, rfl⟩ := List.mem_map.mp hx
      obtain ⟨r, sc, pr, a1, a3, -⟩ := hinfo info hi
      exact ⟨r, sc, a1, a3⟩
  · intro info hi
    obtain ⟨r, sc, pr, a1, a3, a4, a5, a6, a7, -⟩ := hinfo info hi
    exact ⟨r, sc, pr, a1, a3, a4, a5, a6, a7⟩

/-- Witness for C6: a block with a nested block and a function definition whose body holds
another block, at the addresses 1 to 4. -/
theorem scope_tree_after_traversal_witness :
    ∃ b st',
      visit (Statement.block 1 sampleLocation
        [Statement.block 2 sampleLocation [],
         Statement.functionDefinition sampleLocation "f" ["a"] ["r"] 3 sampleLocation
          [Statement.block 4 sampleLocation []]]) (freshFiller []) = Result.ok b st' ∧
      st'.m_scopes.map Prod.fst = [none, some 1, some 2, some 3, some 4] ∧
      st'.heap.length = 5 := by
  obtain ⟨b, st', -, hv, hk, -, hl, -⟩ := scope_tree_after_traversal [] 1 sampleLocation
    [Statement.block 2 sampleLocation [],
     Statement.functionDefinition sampleLocation "f" ["a"] ["r"] 3 sampleLocation
      [Statement.block 4 sampleLocation []]] (by decide)
  exact ⟨b, st', hv, hk, hl⟩

/-! ## The scope tree only gains -/

theorem scopeGrows_refl (sc : Scope) : ScopeGrows sc sc :=
  ⟨fun _ h => h, fun _ h => h, fun h => h⟩

theorem scopeGrows_trans {sc sc1 sc2 : Scope} (h1 : ScopeGrows sc sc1) (h2 : ScopeGrows sc1 sc2) :
    ScopeGrows sc sc2 :=
  ⟨fun n h => h2.1 n (h1.1 n h), fun p h => h2.2.1 p (h1.2.1 p h), fun h => h2.2.2 (h1.2.2 h)⟩

theorem grows_refl (st : State) : Grows st st :=
  ⟨fun _ _ h => h, fun _ sc h => ⟨sc, h, scopeGrows_refl sc⟩⟩

theorem grows_trans {st st1 st2 : State} (h1 : Grows st st1) (h2 : Grows st1 st2) :
    Grows st st2 := by
  refine ⟨fun k r h => h2.1 k r (h1.1 k r h), ?_⟩
  intro r sc h
  obtain ⟨sc1, a1, g1⟩ := h1.2 r sc h
  obtain ⟨sc2, a2, g2⟩ := h2.2 r sc1 a1
  exact ⟨sc2, a2, scopeGrows_trans g1 g2⟩

theorem grows_of_eq {st st' : State} (hh : st'.heap = st.heap) (hm : st'.m_scopes = st.m_scopes) :
    Grows st st' := by
  refine ⟨fun k r h => by rw [hm]; exact h, fun r sc h => ⟨sc, by rw [hh]; exact h, ?_⟩⟩
  exact scopeGrows_refl sc

theorem grows_of_set {st st' : State} {c : ScopeRef} {sc sc' : Scope}
    (h : st.heap[c]? = some sc) (hh : st'.heap = st.heap.set c sc')
    (hm : st'.m_scopes = st.m_scopes) (hg : ScopeGrows sc sc') : Grows st st' := by
  have hlt : c < st.heap.length := (List.getElem?_eq_some.mp h).1
  refine ⟨fun k r h => by rw [hm]; exact h, ?_⟩
  intro r sc0 h0
  by_cases e : c = r
  · subst e
    rw [h] at h0; cases h0
    exact ⟨sc', by rw [hh, List.getElem?_set]; simp [hlt], hg⟩
  · exact ⟨sc0, by rw [hh, List.getElem?_set]; simp [e, h0], scopeGrows_refl sc0⟩

theorem scopeGrows_add (sc : Scope) (n : String) (i : Identifier) : ScopeGrows sc (sc.add n i) :=
  ⟨fun m h => by simp [Scope.names, Scope.add] at h ⊢; exact Or.inl h, fun _ h => h, fun h => h⟩

theorem scopeGrows_addVariables (sc : Scope) (ns : List String) :
    ScopeGrows sc (sc.addVariables ns) :=
  ⟨fun m h => by rw [addVariables_names]; exact List.mem_append_left _ h, fun _ h => h,
    fun h => h⟩

theorem grows_afterRegistrations {st : State} {c : ScopeRef} {sc0 : Scope} (sc : Scope)
    (ds : List (String × SourceLocation)) (h : st.heap[c]? = some sc0) (hg : ScopeGrows sc0 sc) :
    Grows st (afterRegistrations st c sc ds) :=
  grows_of_set h rfl rfl (scopeGrows_trans hg (scopeGrows_addVariables sc _))

theorem scopeSlot_grows (k : BlockPtr) (st : State) :
    Grows st (scopeSlot k st).2 ∧ (scopeSlot k st).2.m_currentScope = st.m_currentScope := by
  unfold scopeSlot
  split
  · exact ⟨grows_refl st, rfl⟩
  · rename_i hk
    refine ⟨⟨?_, ?_⟩, rfl⟩
    · intro k' r h
      by_cases e : k = k'
      · subst e; exact absurd h (hk r)
      · simp only [mapFind_mapAssign_ne _ _ e]; exact h
    · intro r sc h
      have hlt : r < st.heap.length := (List.getElem?_eq_some.mp h).1
      exact ⟨sc, by simp [List.getElem?_append_left, hlt, h], scopeGrows_refl sc⟩

theorem linkScope_grows {s : ScopeRef} {p : Option ScopeRef} {st st' : State} {r : ScopeRef}
    (h : linkScope s p st = Result.ok r st') :
    Grows st st' ∧ st'.m_currentScope = st.m_currentScope := by
  unfold linkScope at h
  split at h
  · exact absurd h (by simp)
  · rename_i sc hsc
    split at h
    · rename_i hnone
      have g1 : ScopeGrows sc { sc with superScope := p } := by
        refine ⟨fun _ h => h, ?_, fun h => h⟩
        intro q hq
        rw [hnone] at hq
        cases hq
      split at h
      · simp at h; obtain ⟨-, rfl⟩ := h
        exact ⟨grows_of_set hsc rfl rfl g1, rfl⟩
      · rename_i q
        simp only at h
        split at h
        · exact absurd h (by simp)
        · rename_i qsc hq
          simp at h; obtain ⟨-, rfl⟩ := h
          have e1 : Grows st (st.setScope s { sc with superScope := some q }) :=
            grows_of_set hsc rfl rfl g1
          have e2 : Grows (st.setScope s { sc with superScope := some q })
              ((st.setScope s { sc with superScope := some q }).setScope q
                { qsc with subScopes := qsc.subScopes ++ [s] }) :=
            grows_of_set hq rfl rfl ⟨fun _ h => h, fun _ h => h, fun h => h⟩
          exact ⟨grows_trans e1 e2, rfl⟩
    · split at h
      · simp at h; obtain ⟨-, rfl⟩ := h
        exact ⟨grows_refl _, rfl⟩
      · exact absurd h (by simp)

theorem createScope_grows {k : BlockPtr} {p : Option ScopeRef} {st st' : State} {r : ScopeRef}
    (h : createScope k p st = Result.ok r st') :
    Grows st st' ∧ st'.m_currentScope = st.m_currentScope := by
  unfold createScope at h
  obtain ⟨g1, c1⟩ := scopeSlot_grows k st
  obtain ⟨g2, c2⟩ := linkScope_grows h
  exact ⟨grows_trans g1 g2, c2.trans c1⟩

/-- What a returning `ScopeFiller::registerVariable` did. -/
theorem registerVariable_ok_inv {n : String} {l : SourceLocation} {r : ScopeRef}
    {st st' : State} {b : Bool} (h : registerVariable n l r st = Result.ok b st') :
    ∃ sc, st.heap[r]? = some sc ∧
      ((n ∈ sc.names ∧ b = false ∧ st' = st.pushError (declarationError "Variable" n l)) ∨
       (n ∉ sc.names ∧ b = true ∧ st' = st.setScope r (sc.add n Identifier.Variable))) := by
  cases hsc : st.heap[r]? with
  | none => unfold registerVariable at h; simp [hsc] at h
  | some sc =>
    refine ⟨sc, rfl, ?_⟩
    by_cases hn : n ∈ sc.names
    · rw [registerVariable_taken hsc hn] at h
      simp at h
      exact Or.inl ⟨hn, h.1, h.2.symm⟩
    · rw [registerVariable_fresh hsc hn] at h
      simp at h
      exact Or.inr ⟨hn, h.1, h.2.symm⟩

/-- What a returning label visitor did. -/
theorem visitLabel_ok_inv {n : String} {l : SourceLocation} {si : List String}
    {st st' : State} {b : Bool} (h : visitLabel l n si st = Result.ok b st') :
    ∃ c sc, st.m_currentScope = some c ∧ st.heap[c]? = some sc ∧
      ((n ∈ sc.names ∧ b = false ∧ st' = st.pushError (declarationError "Label" n l)) ∨
       (n ∉ sc.names ∧ ∃ i ds,
          st' = afterRegistrations (st.setScope c (sc.add n i)) c (sc.add n i) ds)) := by
  cases hc : st.m_currentScope with
  | none => unfold visitLabel at h; simp [hc] at h
  | some c =>
    cases hsc : st.heap[c]? with
    | none => unfold visitLabel at h; simp [hc, hsc] at h
    | some sc =>
      refine ⟨c, sc, rfl, hsc, ?_⟩
      by_cases hn : n ∈ sc.names
      · rw [visitLabel_taken l si hc hsc hn] at h
        simp at h
        exact Or.inl ⟨hn, h.1, h.2.symm⟩
      · refine Or.inr ⟨hn, ?_⟩
        have hnil : ∀ i, st.setScope c (sc.add n i) =
            afterRegistrations (st.setScope c (sc.add n i)) c (sc.add n i) [] := fun i =>
          (afterRegistrations_nil _ c _ (getElem?_setScope_self _ hsc)).symm
        match si with
        | [] =>
          rw [visitLabel_fresh_nil l hc hsc hn] at h
          simp at h
          exact ⟨_, [], h.2.symm.trans (hnil _)⟩
        | [t] =>
          cases ht : lexical_cast_int t with
          | some k =>
            rw [visitLabel_fresh_number l hc hsc hn ht] at h
            simp at h
            exact ⟨_, [], h.2.symm.trans (hnil _)⟩
          | none =>
            rw [visitLabel_fresh_token l hc hsc hn ht] at h
            simp at h
            exact ⟨_, _, h.2.symm⟩
        | t1 :: t2 :: ts =>
          rw [visitLabel_fresh_many l t1 t2 ts hc hsc hn] at h
          simp at h
          exact ⟨_, _, h.2.symm⟩

/-- What a returning first part of the function-definition visitor did. -/
theorem enterFunction_ok_inv {l : SourceLocation} {n : String} {as rs : List String} {a : Nat}
    {st st4 : State} {b : Bool} (h : enterFunction l n as rs a st = Result.ok b st4) :
    ∃ c sc body st2 bsc, st.m_currentScope = some c ∧ st.heap[c]? = some sc ∧
      createScope (some a) (some c) (functionNameStep st c sc l n as.length rs.length).2.1 =
        Result.ok body st2 ∧
      st2.heap[body]? = some bsc ∧
      st4 = afterRegistrations (st2.setScope body { bsc with functionScope := true }) body
        { bsc with functionScope := true } ((as ++ rs).map (fun x => (x, l))) := by
  unfold enterFunction at h
  split at h
  · exact absurd h (by simp)
  rename_i c hc
  split at h
  · exact absurd h (by simp)
  rename_i sc hsc
  have hp : (match sc.registerFunction n as.length rs.length with
      | (false, _) =>
        (false, { st with m_errors := st.m_errors ++ [declarationError "Function" n l] })
      | (true, sc1) => (true, { st with heap := st.heap.set c sc1 })) =
      ((functionNameStep st c sc l n as.length rs.length).1,
        (functionNameStep st c sc l n as.length rs.length).2.1) := by
    unfold functionNameStep
    by_cases hn : n ∈ sc.names
    · simp only [hn, if_true]
      rw [registerFunction_taken _ _ hn]; rfl
    · simp only [hn, if_false]
      rw [registerFunction_fresh _ _ hn]; rfl
  simp only [hp] at h
  have hcur : (functionNameStep st c sc l n as.length rs.length).2.1.m_currentScope = some c := by
    rw [(functionNameStep_facts st c sc l n as.length rs.length hsc).1.1, hc]
  rw [hcur] at h
  split at h
  · exact absurd h (by simp)
  rename_i body st2 hcs
  split at h
  · exact absurd h (by simp)
  rename_i bsc hb
  refine ⟨c, sc, body, st2, bsc, hc, hsc, hcs, hb, ?_⟩
  have hreg := registerVariables_eq (as ++ rs) l body
    (st2.setScope body { bsc with functionScope := true }) { bsc with functionScope := true }
    (getElem?_setScope_self _ hb)
  have e : ({ st2 with heap := st2.heap.set body { bsc with functionScope := true } } : State) =
      st2.setScope body { bsc with functionScope := true } := rfl
  rw [e, hreg] at h
  simp only [Result.ok.injEq] at h
  exact h.2.symm

theorem grows_pushError (st : State) (e : Error) : Grows st (st.pushError e) :=
  grows_of_eq rfl rfl

theorem grows_setScope_add {st : State} {c : ScopeRef} {sc : Scope} (n : String)
    (i : Identifier) (h : st.heap[c]? = some sc) : Grows st (st.setScope c (sc.add n i)) :=
  grows_of_set h rfl rfl (scopeGrows_add sc n i)

theorem grows_label_registrations {st : State} {c : ScopeRef} {sc : Scope} (n : String)
    (i : Identifier) (ds : List (String × SourceLocation)) (h : st.heap[c]? = some sc) :
    Grows st (afterRegistrations (st.setScope c (sc.add n i)) c (sc.add n i) ds) :=
  grows_trans (grows_setScope_add n i h)
    (grows_afterRegistrations (sc.add n i) ds (getElem?_setScope_self _ h)
      (scopeGrows_refl _))

theorem step_and {b1 b2 : Bool} {st st1 st2 : State} (h1 : Step b1 st st1)
    (h2 : Step b2 st1 st2) : Step (b1 && b2) st st2 :=
  ⟨h2.1.trans h1.1, grows_trans h1.2 h2.2⟩

theorem registerVariable_step {n : String} {l : SourceLocation} {r : ScopeRef}
    {st st' : State} {b : Bool} (h : registerVariable n l r st = Result.ok b st') :
    Step b st st' := by
  obtain ⟨sc, hsc, ⟨-, -, rfl⟩ | ⟨-, -, rfl⟩⟩ := registerVariable_ok_inv h
  · exact ⟨rfl, grows_pushError _ _⟩
  · exact ⟨rfl, grows_setScope_add _ _ hsc⟩

theorem visitLabel_step {n : String} {l : SourceLocation} {si : List String}
    {st st' : State} {b : Bool} (h : visitLabel l n si st = Result.ok b st') :
    Step b st st' := by
  obtain ⟨c, sc, -, hsc, ⟨-, -, rfl⟩ | ⟨-, i, ds, rfl⟩⟩ := visitLabel_ok_inv h
  · exact ⟨rfl, grows_pushError _ _⟩
  · exact ⟨rfl, grows_label_registrations n i ds hsc⟩

theorem functionNameStep_grows (st : State) (c : ScopeRef) (sc : Scope) (l : SourceLocation)
    (n : String) (na nr : Nat) (hsc : st.heap[c]? = some sc) :
    Grows st (functionNameStep st c sc l n na nr).2.1 := by
  unfold functionNameStep
  split
  · exact grows_pushError _ _
  · exact grows_setScope_add _ _ hsc

theorem enterFunction_step {l : SourceLocation} {n : String} {as rs : List String} {a : Nat}
    {st st4 : State} {b : Bool} (h : enterFunction l n as rs a st = Result.ok b st4) :
    Step b st st4 := by
  obtain ⟨c, sc, body, st2, bsc, hc, hsc, hcs, hb, rfl⟩ := enterFunction_ok_inv h
  obtain ⟨g2, c2⟩ := createScope_grows hcs
  have g1 := functionNameStep_grows st c sc l n as.length rs.length hsc
  have c1 := (functionNameStep_facts st c sc l n as.length rs.length hsc).1.1
  have g3 : Grows st2 (st2.setScope body { bsc with functionScope := true }) :=
    grows_of_set hb rfl rfl ⟨fun _ h => h, fun _ h => h, fun _ => rfl⟩
  have g4 := grows_afterRegistrations { bsc with functionScope := true }
    ((as ++ rs).map (fun x => (x, l))) (getElem?_setScope_self { bsc with functionScope := true } hb)
    (scopeGrows_refl _)
  exact ⟨c2.trans c1, grows_trans g1 (grows_trans g2 (grows_trans g3 g4))⟩

theorem visitBlock_step {addr : Nat} {f : State → Result Bool} {st st' : State} {b : Bool}
    (hf : ∀ st1 b1 st1', f st1 = Result.ok b1 st1' → Step b1 st1 st1')
    (h : visitBlock addr f st = Result.ok b st') : Step b st st' := by
  unfold visitBlock at h
  split at h
  · exact absurd h (by simp)
  · rename_i s st1 h1
    split at h
    · exact absurd h (by simp)
    · rename_i b2 st2 h2
      simp at h; obtain ⟨rfl, rfl⟩ := h
      obtain ⟨g1, -⟩ := createScope_grows h1
      obtain ⟨-, g2⟩ := hf _ _ _ h2
      have g12 : Grows st1 st2 := grows_trans (grows_of_eq rfl rfl) g2
      exact ⟨rfl, grows_trans g1 (grows_trans g12 (grows_of_eq rfl rfl))⟩

/-- Every returning visit restores the current scope and lets the scope tree only gain. -/
theorem visit_step_all :
    (∀ s st b st', visit s st = Result.ok b st' → Step b st st') ∧
    (∀ l st b st', visitStatements l st = Result.ok b st' → Step b st st') ∧
    (∀ l st b st', visitReversed l st = Result.ok b st' → Step b st st') :=
  visit_rel_all Step (fun st => ⟨rfl, grows_refl st⟩) (fun _ _ _ _ _ h1 h2 => step_and h1 h2)
    (fun _ _ _ _ _ _ h => visitLabel_step h) (fun _ _ _ _ _ _ _ h => registerVariable_step h)
    (fun _ _ _ _ _ _ _ _ h => enterFunction_step h)
    (fun _ _ _ _ _ hf h => visitBlock_step hf h)

/-! ## Declarations land in the current scope -/

theorem mem_names_add (sc : Scope) (n : String) (i : Identifier) : n ∈ (sc.add n i).names := by
  simp [Scope.names, Scope.add]

theorem functionNameStep_name (st : State) (c : ScopeRef) (sc : Scope) (l : SourceLocation)
    (n : String) (na nr : Nat) :
    n ∈ (functionNameStep st c sc l n na nr).2.2.names ∧
    (n ∈ sc.names → declarationError "Function" n l ∈
      (functionNameStep st c sc l n na nr).2.1.m_errors) := by
  unfold functionNameStep
  split
  · rename_i h
    exact ⟨h, fun _ => by simp [State.pushError]⟩
  · rename_i h
    exact ⟨mem_names_add _ _ _, fun h' => absurd h' h⟩

theorem mem_errors_of_errRel {b : Bool} {st st' : State} {e : Error} (h : ErrRel b st st')
    (he : e ∈ st.m_errors) : e ∈ st'.m_errors := by
  obtain ⟨new, hn, -⟩ := h
  rw [hn]; exact List.mem_append_left _ he

/-- A statement that declares a name, visited with current scope `F`: afterwards the name is in
the table of `F`, and if it was there before, the duplicate was reported. -/
theorem declaration_registered {s : Statement} {d : Declaration} (hd : declarationOf s = some d)
    {st st' : State} {b : Bool} {F : ScopeRef} {fsc : Scope} (hc : st.m_currentScope = some F)
    (hF : st.heap[F]? = some fsc) (hv : visit s st = Result.ok b st') :
    (∃ fsc', st'.heap[F]? = some fsc' ∧ d.name ∈ fsc'.names) ∧
    (d.name ∈ fsc.names → declarationError d.kind d.name d.location ∈ st'.m_errors) := by
  cases s with
  | variableDeclaration l n v =>
    simp only [declarationOf, Option.some.injEq] at hd
    subst hd
    simp only [visit] at hv
    split at hv
    · exact absurd hv (by simp)
    rename_i b1 st1 h1
    obtain ⟨c1, g1⟩ := visit_step_all.1 _ _ _ _ h1
    obtain ⟨fsc1, hF1, sg1⟩ := g1.2 F fsc hF
    rw [c1, hc] at hv
    simp only at hv
    split at hv
    · exact absurd hv (by simp)
    rename_i b2 st2 h2
    simp at hv
    obtain ⟨-, rfl⟩ := hv
    obtain ⟨sc, hsc, ⟨hn, -, rfl⟩ | ⟨hn, -, rfl⟩⟩ := registerVariable_ok_inv h2
    · rw [hF1] at hsc; cases hsc
      exact ⟨⟨fsc1, hF1, hn⟩, fun _ => by simp [State.pushError]⟩
    · rw [hF1] at hsc; cases hsc
      exact ⟨⟨_, getElem?_setScope_self _ hF1, mem_names_add _ _ _⟩,
        fun h => absurd (sg1.1 n h) hn⟩
  | label l n si =>
    simp only [declarationOf, Option.some.injEq] at hd
    subst hd
    simp only [visit] at hv
    obtain ⟨c, sc, hc', hsc, ⟨hn, -, rfl⟩ | ⟨hn, i, ds, rfl⟩⟩ := visitLabel_ok_inv hv
    · rw [hc] at hc'; cases hc'
      rw [hF] at hsc; cases hsc
      exact ⟨⟨fsc, hF, hn⟩, fun _ => by simp [State.pushError]⟩
    · rw [hc] at hc'; cases hc'
      rw [hF] at hsc; cases hsc
      refine ⟨⟨_, afterRegistrations_scope _ ds (getElem?_setScope_self _ hF), ?_⟩,
        fun h => absurd h hn⟩
      rw [addVariables_names]
      exact List.mem_append_left _ (mem_names_add _ _ _)
  | functionDefinition l n as rs a bl body =>
    simp only [declarationOf, Option.some.injEq] at hd
    subst hd
    simp only [visit] at hv
    split at hv
    · exact absurd hv (by simp)
    rename_i b1 st1 h1
    split at hv
    · exact absurd hv (by simp)
    rename_i b2 st2 h2
    simp at hv
    obtain ⟨-, rfl⟩ := hv
    obtain ⟨c, sc, body', st_b, bsc, hc', hsc, hcs, hb, rfl⟩ := enterFunction_ok_inv h1
    rw [hc] at hc'; cases hc'
    rw [hF] at hsc; cases hsc
    obtain ⟨hname, herr⟩ := functionNameStep_name st F fsc l n as.length rs.length
    obtain ⟨-, hFa⟩ := functionNameStep_facts st F fsc l n as.length rs.length hF
    obtain ⟨g2, -⟩ := createScope_grows hcs
    have g3 : Grows st_b (st_b.setScope body' { bsc with functionScope := true }) :=
      grows_of_set hb rfl rfl ⟨fun _ h => h, fun _ h => h, fun _ => rfl⟩
    have g4 := grows_afterRegistrations { bsc with functionScope := true }
      ((as ++ rs).map (fun x => (x, l)))
      (getElem?_setScope_self { bsc with functionScope := true } hb) (scopeGrows_refl _)
    have g5 := (visitBlock_step (fun st1 b1 st1' h => visit_step_all.2.1 body st1 b1 st1' h) h2).2
    obtain ⟨fsc', hF', sg⟩ := (grows_trans g2 (grows_trans g3 (grows_trans g4 g5))).2 F _ hFa
    refine ⟨⟨fsc', hF', sg.1 _ hname⟩, fun h => ?_⟩
    have e1 := herr h
    have e2 : declarationError "Function" n l ∈ st_b.m_errors := by
      rw [createScope_errors hcs]; exact e1
    have e3 : declarationError "Function" n l ∈
        (afterRegistrations (st_b.setScope body' { bsc with functionScope := true }) body'
          { bsc with functionScope := true } ((as ++ rs).map (fun x => (x, l)))).m_errors := by
      simp only [afterRegistrations, State.setScope]
      exact List.mem_append_left _ e2
    exact mem_errors_of_errRel
      (visitBlock_errRel (fun st1 b1 st1' h => visitStatements_errRel h) h2) e3
  | instruction _ _ => simp [declarationOf] at hd
  | literal _ _ _ => simp [declarationOf] at hd
  | identifier _ _ => simp [declarationOf] at hd
  | functionalAssignment _ _ _ => simp [declarationOf] at hd
  | functionCall _ _ _ => simp [declarationOf] at hd
  | functionalInstruction _ _ _ => simp [declarationOf] at hd
  | block _ _ _ => simp [declarationOf] at hd

/-- The declarations made by the statements of a list, visited with current scope `F`. -/
theorem declarations_registered (l : List Statement) :
    ∀ (st st' : State) (b : Bool) (F : ScopeRef) (fsc : Scope), st.m_currentScope = some F →
    st.heap[F]? = some fsc → visitStatements l st = Result.ok b st' →
    ∀ s ∈ l, ∀ d, declarationOf s = some d →
      (∃ fsc', st'.heap[F]? = some fsc' ∧ d.name ∈ fsc'.names) ∧
      (d.name ∈ fsc.names → declarationError d.kind d.name d.location ∈ st'.m_errors) := by
  induction l with
  | nil => intro st st' b F fsc _ _ _ s hs; cases hs
  | cons s0 rest ih =>
    intro st st' b F fsc hc hF hv s hs d hd
    simp only [visitStatements] at hv
    split at hv
    · exact absurd hv (by simp)
    rename_i b1 st1 h1
    split at hv
    · exact absurd hv (by simp)
    rename_i b2 st2 h2
    simp at hv
    obtain ⟨-, rfl⟩ := hv
    obtain ⟨c1, g1⟩ := visit_step_all.1 _ _ _ _ h1
    obtain ⟨fsc1, hF1, sg1⟩ := g1.2 F fsc hF
    rcases List.mem_cons.mp hs with rfl | hs
    · obtain ⟨⟨fsc', hF', hn⟩, herr⟩ := declaration_registered hd hc hF h1
      obtain ⟨-, g2⟩ := visit_step_all.2.1 _ _ _ _ h2
      obtain ⟨fsc2, hF2, sg2⟩ := g2.2 F fsc' hF'
      exact ⟨⟨fsc2, hF2, sg2.1 _ hn⟩,
        fun h => mem_errors_of_errRel (visitStatements_errRel h2) (herr h)⟩
    · obtain ⟨hex, herr⟩ := ih st1 st2 b2 F fsc1 (c1.trans hc) hF1 h2 s hs d hd
      exact ⟨hex, fun h => herr (sg1.1 _ h)⟩

/-! ## Claims about function scopes -/

theorem afterEnterFunction_facts {st : State} {c : ScopeRef} {csc : Scope} (a : Nat)
    (ds : List (String × SourceLocation)) (hc : st.heap[c]? = some csc)
    (hk : mapFind (some a) st.m_scopes = none) :
    ScopeOf (afterEnterFunction st c csc a ds) a st.heap.length ∧
    (afterEnterFunction st c csc a ds).heap.length = st.heap.length + 1 ∧
    (afterEnterFunction st c csc a ds).heap[st.heap.length]? =
      some ((functionScopeUnder c).addVariables (accepted [] ds)) ∧
    (afterEnterFunction st c csc a ds).m_currentScope = st.m_currentScope := by
  obtain ⟨w1, w2, w3, -, -, w6, -⟩ := withNewScope_facts a hc hk
  have hh : (afterEnterFunction st c csc a ds).heap =
      (withNewScope st (some a) c csc).heap.set st.heap.length
        ((functionScopeUnder c).addVariables (accepted (functionScopeUnder c).names ds)) := by
    simp [afterEnterFunction, afterRegistrations, State.setScope]
  refine ⟨?_, ?_, ?_, w6⟩
  · show mapFind (some a) (withNewScope st (some a) c csc).m_scopes = some (some st.heap.length)
    rw [w1, mapFind_append, hk]; simp [mapFind]
  · rw [hh, List.length_set, w2]
  · rw [hh, List.getElem?_set]; simp [w2]; rfl

/-- A returning visit of a function definition whose body block has no scope yet: the body
gets the one new scope object, under the current scope and flagged; its statements are visited
with that scope as current scope; its table holds the parameters, the return variables and the
names declared by the body's statements. -/
theorem functionDefinition_visit_facts :
    ∀ (st st' : State) (c : ScopeRef) (csc : Scope) (l : SourceLocation) (name : String)
      (as rs : List String) (a : Nat) (bl : SourceLocation) (body : List Statement) (b : Bool),
      st.m_currentScope = some c → st.heap[c]? = some csc →
      mapFind (some a) st.m_scopes = none →
      visit (Statement.functionDefinition l name as rs a bl body) st = Result.ok b st' →
      ∃ fsc b1 st1 b2 st2,
        ScopeOf st' a st.heap.length ∧ st'.heap[st.heap.length]? = some fsc ∧
        fsc.superScope = some c ∧ fsc.functionScope = true ∧
        enterFunction l name as rs a st = Result.ok b1 st1 ∧
        st1.heap.length = st.heap.length + 1 ∧
        visitStatements body (st1.withCurrent (some st.heap.length)) = Result.ok b2 st2 ∧
        st' = st2.withCurrent (some c) ∧ b = (b1 && b2) ∧
        (∀ n ∈ as ++ rs, n ∈ fsc.names) ∧
        (∀ s ∈ body, ∀ d, declarationOf s = some d → d.name ∈ fsc.names) ∧
        (∀ s ∈ body, ∀ d, declarationOf s = some d → d.name ∈ as ++ rs →
          declarationError d.kind d.name d.location ∈ st'.m_errors) := by
  intro st st' c csc l name as rs a bl body b hc hsc hk hv
  have he := enterFunction_new l name as rs a hc hsc hk
  obtain ⟨ht, hca⟩ := functionNameStep_facts st c csc l name as.length rs.length hsc
  generalize functionNameStep st c csc l name as.length rs.length = step at he ht hca
  obtain ⟨b0, st_a, csc_a⟩ := step
  simp only at he ht hca
  generalize hds : (as ++ rs).map (fun x => (x, l)) = ds at he
  obtain ⟨tcur, tm, tl, -, -⟩ := ht
  have hk_a : mapFind (some a) st_a.m_scopes = none := by rw [tm, hk]
  obtain ⟨f1, f2, f3, f4⟩ := afterEnterFunction_facts a ds hca hk_a
  rw [tl] at f1 f2 f3
  have f4' : (afterEnterFunction st_a c csc_a a ds).m_currentScope = some c := by
    rw [f4, tcur, hc]
  simp only [visit, he] at hv
  rw [visitBlock_existing a _ f4' f1 f3 rfl] at hv
  split at hv
  · exact absurd hv (by simp)
  rename_i b2 st2' h2x
  split at h2x
  · exact absurd h2x (by simp)
  rename_i b2' st2 h2
  simp at h2x hv
  obtain ⟨rfl, rfl⟩ := h2x
  obtain ⟨rfl, rfl⟩ := hv
  obtain ⟨-, g⟩ := visit_step_all.2.1 _ _ _ _ h2
  obtain ⟨fsc, hF, sg⟩ := g.2 st.heap.length _ f3
  have hparams : ∀ n ∈ as ++ rs,
      n ∈ ((functionScopeUnder c).addVariables (accepted [] ds)).names := by
    intro n hn
    rw [addVariables_names]
    refine List.mem_append_right _ (mem_accepted.mpr ⟨List.not_mem_nil _, (n, l), ?_, rfl⟩)
    rw [← hds]
    exact List.mem_map.mpr ⟨n, hn, rfl⟩
  have hdecl := declarations_registered body
    ((afterEnterFunction st_a c csc_a a ds).withCurrent (some st.heap.length)) st2 b2'
    st.heap.length _ rfl f3 h2
  refine ⟨fsc, _, _, b2', st2, g.1 _ _ f1, hF, sg.2.1 c rfl, sg.2.2 rfl, he, f2, h2, rfl, rfl,
    fun n hn => sg.1 n (hparams n hn), ?_, ?_⟩
  · intro s hs d hd
    obtain ⟨⟨fsc', hF', hn⟩, -⟩ := hdecl s hs d hd
    have : fsc' = fsc := by
      rw [hF'] at hF; cases hF; rfl
    exact this ▸ hn
  · intro s hs d hd hmem
    exact (hdecl s hs d hd).2 (hparams _ hmem)

/-- C7: (1) a function definition visited with current scope `c`, its body block `a` having no
scope yet: if the visit returns, the body has the scope `F` (the one new object made by the
first part of the visitor), `F` has super scope `c` and the function-scope flag, the visit of
the body's statements happens with `F` itself as current scope (no further scope is made for
the statement block), `F`'s table holds the parameters, the return variables and the names
declared by the body's statements, and a body statement declaring a parameter or return name is
reported as a duplicate.  (2) Such a visit does return when, in addition, the blocks of the
function definition have pairwise different addresses and none of them has a scope yet.
(3) After a traversal of a top-level block with pairwise different block addresses from a fresh
filler, a scope has the function-scope flag iff its block is the body of a function
definition. -/
theorem function_scope_is_flat :
    (∀ (st st' : State) (c : ScopeRef) (csc : Scope) (l : SourceLocation) (name : String)
      (as rs : List String) (a : Nat) (bl : SourceLocation) (body : List Statement) (b : Bool),
      st.m_currentScope = some c → st.heap[c]? = some csc →
      mapFind (some a) st.m_scopes = none →
      visit (Statement.functionDefinition l name as rs a bl body) st = Result.ok b st' →
      ∃ fsc b1 st1 b2 st2,
        ScopeOf st' a st.heap.length ∧ st'.heap[st.heap.length]? = some fsc ∧
        fsc.superScope = some c ∧ fsc.functionScope = true ∧
        enterFunction l name as rs a st = Result.ok b1 st1 ∧
        st1.heap.length = st.heap.length + 1 ∧
        visitStatements body (st1.withCurrent (some st.heap.length)) = Result.ok b2 st2 ∧
        st' = st2.withCurrent (some c) ∧ b = (b1 && b2) ∧
        (∀ n ∈ as ++ rs, n ∈ fsc.names) ∧
        (∀ s ∈ body, ∀ d, declarationOf s = some d → d.name ∈ fsc.names) ∧
        (∀ s ∈ body, ∀ d, declarationOf s = some d → d.name ∈ as ++ rs →
          declarationError d.kind d.name d.location ∈ st'.m_errors)) ∧
    (∀ (st : State) (c : ScopeRef) (l : SourceLocation) (name : String)
      (as rs : List String) (a : Nat) (bl : SourceLocation) (body : List Statement),
      Ready st c (blocksOf (Statement.functionDefinition l name as rs a bl body)) →
      ∃ b st', visit (Statement.functionDefinition l name as rs a bl body) st =
        Result.ok b st') ∧
    (∀ (errors : ErrorList) (a : Nat) (location : SourceLocation) (stmts : List Statement),
      (blocksOf (Statement.block a location stmts)).Nodup →
      ∃ b st', visit (Statement.block a location stmts) (freshFiller errors) = Result.ok b st' ∧
        ∀ k r sc, mapFind k st'.m_scopes = some (some r) → st'.heap[r]? = some sc →
          (sc.functionScope = true ↔
            ∃ x, k = some x ∧ x ∈ functionBodies (Statement.block a location stmts))) := by
  refine ⟨?_, ?_, ?_⟩
  · exact functionDefinition_visit_facts
  · intro st c l name as rs a bl body hready
    obtain ⟨b, st', hv, -⟩ := visit_post _ none st c hready
    exact ⟨b, st', hv⟩
  · intro errors a location stmts hnd
    generalize hB : Statement.block a location stmts = B at hnd ⊢
    have htop : topBlocks B = [a] := by rw [← hB]; rfl
    obtain ⟨b, st', hv, hm, -, -, ⟨root, ra, hnone, hr0, -, hrf, -, -⟩, hinfo⟩ :=
      traversal_from_fresh errors B a htop hnd
    refine ⟨b, st', hv, ?_⟩
    intro k r sc hk hsc
    have hkeys : st'.m_scopes.map Prod.fst = none :: (blocksOf B).map some := by
      rw [hm, List.map_cons, newEntries_keys]
    constructor
    · intro hflag
      cases k with
      | none =>
        rw [hnone] at hk
        simp at hk
        subst hk
        rw [hr0] at hsc; cases hsc
        rw [hrf] at hflag; cases hflag
      | some x =>
        have hx : x ∈ blocksOf B := by
          have : mapFind (some x) st'.m_scopes ≠ none := by rw [hk]; simp
          rw [Ne, mapFind_eq_none_iff, not_not, hkeys] at this
          simpa using this
        rw [← (blockInfos_facts B none).1] at hx
        obtain ⟨info, hi, rfl⟩ := List.mem_map.mp hx
        obtain ⟨r', sc', pr, a1, a3, -, -, -, -, a8⟩ := hinfo info hi
        have hr : r' = r := by
          unfold ScopeOf at a1; rw [hk] at a1; simp at a1; exact a1.symm
        subst hr
        rw [hsc] at a3; cases a3
        refine ⟨info.addr, rfl, ?_⟩
        unfold functionBodies
        exact List.mem_map.mpr ⟨info, List.mem_filter.mpr ⟨hi, by rw [← a8]; exact hflag⟩, rfl⟩
    · rintro ⟨x, rfl, hx⟩
      unfold functionBodies at hx
      obtain ⟨info, hi, rfl⟩ := List.mem_map.mp hx
      obtain ⟨hi1, hi2⟩ := List.mem_filter.mp hi
      obtain ⟨r', sc', pr, a1, a3, -, -, -, -, a8⟩ := hinfo info hi1
      have hr : r' = r := by
        unfold ScopeOf at a1; rw [hk] at a1; simp at a1; exact a1.symm
      subst hr
      rw [hsc] at a3; cases a3
      rw [a8]; exact hi2

/-- Witness for C7: the function `f(a) -> r` whose body, at address 3, declares `a` again,
visited in a fresh filler: the body's scope is object 1, flagged, holds `a` and `r`, and the
second `a` is reported. -/
theorem function_scope_is_flat_witness :
    ∃ b st' fsc,
      visit (Statement.functionDefinition sampleLocation "f" ["a"] ["r"] 3 sampleLocation
        [Statement.variableDeclaration sampleLocation "a"
          (Statement.literal sampleLocation true "1")]) (freshFiller []) = Result.ok b st' ∧
      st'.heap[1]? = some fsc ∧ fsc.superScope = some 0 ∧ fsc.functionScope = true ∧
      "a" ∈ fsc.names ∧ "r" ∈ fsc.names ∧
      declarationError "Variable" "a" sampleLocation ∈ st'.m_errors := by
  obtain ⟨b, st', hv⟩ := function_scope_is_flat.2.1 (freshFiller []) 0 sampleLocation "f" ["a"]
    ["r"] 3 sampleLocation
    [Statement.variableDeclaration sampleLocation "a" (Statement.literal sampleLocation true "1")]
    (ready_fresh [] (by decide))
  obtain ⟨fsc, -, -, -, -, -, hF, hs, hf, -, -, -, -, -, hp, -, hd⟩ :=
    function_scope_is_flat.1 (freshFiller []) st' 0 rootScope sampleLocation "f" ["a"] ["r"] 3
      sampleLocation
      [Statement.variableDeclaration sampleLocation "a" (Statement.literal sampleLocation true "1")]
      b rfl rfl (by decide) hv
  exact ⟨b, st', fsc, hv, hF, hs, hf, hp "a" (by decide), hp "r" (by decide),
    hd _ (List.mem_cons_self _ _) _ rfl (by decide)⟩
/-! ## Further claims: duplicate labels, the constructor, the current scope -/

/-- C11: a label whose name is already in the table of the current scope, with any stack info:
the visit returns false, appends the one record "Label name <name> already taken in this
scope." at the label's location, and leaves the scope objects, the map from blocks to scopes
and the current scope as they were; so the entry of the name is the one it was and no
stack-info token is registered. -/
theorem label_name_taken (st : State) (c : ScopeRef) (sc : Scope) (location : SourceLocation)
    (name : String) (stackInfo : List String) (entry : Identifier)
    (hc : st.m_currentScope = some c) (hsc : st.heap[c]? = some sc)
    (hentry : mapFind name sc.identifiers = some entry) :
    ∃ st', visit (Statement.label location name stackInfo) st = Result.ok false st' ∧
      st'.m_errors = st.m_errors ++
        [{ type := ErrorType.DeclarationError,
           message := "Label name " ++ name ++ " already taken in this scope.",
           location := location }] ∧
      st'.heap = st.heap ∧ st'.m_scopes = st.m_scopes ∧
      st'.m_currentScope = st.m_currentScope ∧
      st'.heap[c]? = some sc ∧ mapFind name sc.identifiers = some entry := by
  have hn : name ∈ sc.names := by
    have h : mapFind name sc.identifiers ≠ none := by rw [hentry]; simp
    rw [Ne, mapFind_eq_none_iff, not_not] at h
    exact h
  refine ⟨st.pushError (declarationError "Label" name location), ?_, ?_, rfl, rfl, rfl, hsc,
    hentry⟩
  · simp only [visit]
    exact visitLabel_taken location stackInfo hc hsc hn
  · simp [State.pushError, declarationError, String.append_assoc]

/-- Witness for C11: in a fresh filler the name `invalidJumpLabel` is taken by the reserved
label; a label of that name with the stack info `x`, `y` is refused and registers nothing. -/
theorem label_name_taken_witness :
    ∃ st', visit (Statement.label sampleLocation "invalidJumpLabel" ["x", "y"]) (freshFiller []) =
        Result.ok false st' ∧
      st'.m_errors = [] ++
        [{ type := ErrorType.DeclarationError,
           message := "Label name " ++ "invalidJumpLabel" ++ " already taken in this scope.",
           location := sampleLocation }] ∧
      st'.heap = [rootScope] := by
  obtain ⟨st', h1, h2, h3, -⟩ := label_name_taken (freshFiller []) 0 rootScope sampleLocation
    "invalidJumpLabel" ["x", "y"] (Identifier.Label (Label.new errorLabelId)) rfl rfl
    (by decide)
  exact ⟨st', h1, h2, h3⟩

/-- C15: constructing the filler over an empty scope tree returns; afterwards the tree has one
key, "no block", with one scope object, the root: no super scope, no nested scopes, and a table
holding exactly `invalidJumpLabel`, bound to a label whose id is the reserved error-label id;
the current scope is the root and the error sink is the one passed in. -/
theorem constructor_over_empty_tree (errors : ErrorList) :
    ∃ st root l, ScopeFiller [] [] errors = Result.ok () st ∧
      st.m_scopes = [(none, some 0)] ∧ st.heap = [root] ∧
      root.superScope = none ∧ root.subScopes = [] ∧
      root.identifiers = [("invalidJumpLabel", Identifier.Label l)] ∧ l.id = errorLabelId ∧
      st.m_currentScope = some 0 ∧ scope none st = Result.ok 0 st ∧
      st.m_errors = errors :=
  ⟨freshFiller errors, rootScope, Label.new errorLabelId, rfl, rfl, rfl, rfl, rfl, rfl, rfl, rfl,
    rfl, rfl⟩

/-- C17: whenever the visit of a statement returns, from any state, the current scope is the
one it was before the visit. -/
theorem current_scope_restored (s : Statement) (st st' : State) (b : Bool)
    (h : visit s st = Result.ok b st') : st'.m_currentScope = st.m_currentScope :=
  (visit_step_all.1 s st b st' h).1

/-- Witness for C17: a function `f` whose body at address 2 declares its parameter `a` again,
in a block at address 3, visited in a fresh filler: the visit reports the duplicate, returns
false, and the current scope is still the root. -/
theorem current_scope_restored_witness :
    ∃ st', visit (Statement.block 3 sampleLocation
        [Statement.functionDefinition sampleLocation "f" ["a"] [] 2 sampleLocation
          [Statement.variableDeclaration sampleLocation "a"
            (Statement.literal sampleLocation true "1")]])
        (freshFiller []) = Result.ok false st' ∧
      st'.m_currentScope = some 0 := by
  obtain ⟨b, st', hv, -⟩ := visit_post (Statement.block 3 sampleLocation
    [Statement.functionDefinition sampleLocation "f" ["a"] [] 2 sampleLocation
      [Statement.variableDeclaration sampleLocation "a"
        (Statement.literal sampleLocation true "1")]]) none (freshFiller []) 0
    (ready_fresh [] (by decide))
  have hb : (match visit (Statement.block 3 sampleLocation
      [Statement.functionDefinition sampleLocation "f" ["a"] [] 2 sampleLocation
        [Statement.variableDeclaration sampleLocation "a"
          (Statement.literal sampleLocation true "1")]]) (freshFiller []) with
      | Result.ok b _ => b
      | Result.fatal _ _ => true) = false := by decide
  rw [hv] at hb
  simp only at hb
  subst hb
  exact ⟨st', hv, current_scope_restored _ (freshFiller []) st' false hv⟩

/-! ## The records appended to the error sink, whether a run returns or stops -/

theorem errorsGrow_refl (st : State) : ErrorsGrow st st := ⟨[], by simp⟩

theorem errorsGrow_of_reports {D : List Declaration} {st st' : State} (h : Reports D st st') :
    ErrorsGrow st st' := by
  obtain ⟨new, e, -⟩ := h
  exact ⟨new, e⟩

theorem reports_refl (D : List Declaration) (st : State) : Reports D st st :=
  ⟨[], by simp, fun e he => absurd he (List.not_mem_nil e)⟩

theorem reports_of_eq (D : List Declaration) {st st' : State} (h : st'.m_errors = st.m_errors) :
    Reports D st st' :=
  ⟨[], by simp [h], fun e he => absurd he (List.not_mem_nil e)⟩

theorem reports_one {D : List Declaration} (d : Declaration) (hd : d ∈ D) {st st' : State}
    (h : st'.m_errors = st.m_errors ++ [declarationError d.kind d.name d.location]) :
    Reports D st st' :=
  ⟨[_], h, fun _ he => ⟨d, hd, List.mem_singleton.mp he⟩⟩

theorem reports_trans {D1 D2 D : List Declaration} {st st1 st2 : State}
    (h1 : Reports D1 st st1) (h2 : Reports D2 st1 st2) (s1 : ∀ d ∈ D1, d ∈ D)
    (s2 : ∀ d ∈ D2, d ∈ D) : Reports D st st2 := by
  obtain ⟨n1, e1, p1⟩ := h1
  obtain ⟨n2, e2, p2⟩ := h2
  refine ⟨n1 ++ n2, by rw [e2, e1, List.append_assoc], ?_⟩
  intro e he
  rcases List.mem_append.mp he with h | h
  · obtain ⟨d, hd, rfl⟩ := p1 e h
    exact ⟨d, s1 d hd, rfl⟩
  · obtain ⟨d, hd, rfl⟩ := p2 e h
    exact ⟨d, s2 d hd, rfl⟩

theorem reports_mono {D1 D : List Declaration} {st st' : State} (h : Reports D1 st st')
    (s : ∀ d ∈ D1, d ∈ D) : Reports D st st' :=
  reports_trans h (reports_refl D1 st') s s

theorem linkScope_state_errors (s : ScopeRef) (p : Option ScopeRef) (st : State) :
    (linkScope s p st).state.m_errors = st.m_errors := by
  unfold linkScope
  split
  · rfl
  · split
    · split
      · rfl
      · simp only
        split <;> rfl
    · split <;> rfl

theorem createScope_state_errors (k : BlockPtr) (p : Option ScopeRef) (st : State) :
    (createScope k p st).state.m_errors = st.m_errors := by
  unfold createScope
  rw [linkScope_state_errors, scopeSlot_errors]

theorem registerVariable_reports (n : String) (l : SourceLocation) (r : ScopeRef) (st : State) :
    Reports [variableRequest l n] st (registerVariable n l r st).state := by
  unfold registerVariable
  split
  · exact reports_refl _ _
  · split
    · exact reports_one (variableRequest l n) (List.mem_singleton.mpr rfl) rfl
    · exact reports_refl _ _

theorem registerVariables_reports (ns : List String) (l : SourceLocation) (r : ScopeRef) :
    ∀ st : State, Reports (ns.map (variableRequest l)) st (registerVariables ns l r st).state := by
  induction ns with
  | nil => intro st; exact reports_refl _ _
  | cons n ns ih =>
    intro st
    have h1 := registerVariable_reports n l r st
    have s1 : ∀ d ∈ [variableRequest l n], d ∈ (n :: ns).map (variableRequest l) := by
      intro d hd; rw [List.mem_singleton.mp hd]; exact List.mem_cons_self _ _
    have s2 : ∀ d ∈ ns.map (variableRequest l), d ∈ (n :: ns).map (variableRequest l) :=
      fun d hd => List.mem_cons_of_mem _ hd
    simp only [registerVariables]
    split
    · rename_i e st1 he; rw [he] at h1; exact reports_mono h1 s1
    · rename_i b st1 he
      rw [he] at h1
      have h2 := ih st1
      split
      · rename_i e2 st2 he2; rw [he2] at h2; exact reports_trans h1 h2 s1 s2
      · rename_i b2 st2 he2; rw [he2] at h2; exact reports_trans h1 h2 s1 s2

theorem registerStackItems_reports (ts : List String) (l : SourceLocation) (r : ScopeRef) :
    ∀ st : State, Reports ((ts.filter (fun t => t ≠ "")).map (variableRequest l)) st
      (registerStackItems ts l r st).state := by
  induction ts with
  | nil => intro st; exact reports_refl _ _
  | cons n ns ih =>
    intro st
    simp only [registerStackItems]
    split
    · rename_i hn
      have : (n :: ns).filter (fun t => t ≠ "") = ns.filter (fun t => t ≠ "") := by
        simp [List.filter, hn]
      rw [this]
      exact ih st
    · rename_i hn
      have hf : (n :: ns).filter (fun t => t ≠ "") = n :: ns.filter (fun t => t ≠ "") := by
        simp [List.filter, hn]
      rw [hf]
      have h1 := registerVariable_reports n l r st
      have s1 : ∀ d ∈ [variableRequest l n],
          d ∈ (n :: ns.filter (fun t => t ≠ "")).map (variableRequest l) := by
        intro d hd; rw [List.mem_singleton.mp hd]; exact List.mem_cons_self _ _
      have s2 : ∀ d ∈ (ns.filter (fun t => t ≠ "")).map (variableRequest l),
          d ∈ (n :: ns.filter (fun t => t ≠ "")).map (variableRequest l) :=
        fun d hd => List.mem_cons_of_mem _ hd
      split
      · rename_i e st1 he; rw [he] at h1; exact reports_mono h1 s1
      · rename_i b st1 he
        rw [he] at h1
        have h2 := ih st1
        split
        · rename_i e2 st2 he2; rw [he2] at h2; exact reports_trans h1 h2 s1 s2
        · rename_i b2 st2 he2; rw [he2] at h2; exact reports_trans h1 h2 s1 s2

theorem updateLabel_state_errors (r : ScopeRef) (n : String) (f : Label → Label) (st : State) :
    (updateLabel r n f st).state.m_errors = st.m_errors := by
  unfold updateLabel
  split
  · rfl
  · split <;> rfl

theorem labelVariables_reports (l : SourceLocation) (n : String) (si : List String)
    (c : ScopeRef) (st : State) :
    Reports ((si.filter (fun t => t ≠ "")).map (variableRequest l)) st
      (labelVariables l n si c st).state := by
  have h1 := updateLabel_state_errors c n (fun l => { l with resetStackHeight := true }) st
  unfold labelVariables
  split
  · rename_i e st2 he; rw [he] at h1; exact reports_of_eq _ h1
  · rename_i u st2 he; rw [he] at h1
    exact reports_trans (reports_of_eq _ h1) (registerStackItems_reports si l c st2)
      (fun _ hd => hd) (fun _ hd => hd)

theorem visitLabel_reports (l : SourceLocation) (n : String) (si : List String) (st : State) :
    Reports (requestsOf (Statement.label l n si)) st (visitLabel l n si st).state := by
  have stail : ∀ d ∈ (si.filter (fun t => t ≠ "")).map (variableRequest l),
      d ∈ requestsOf (Statement.label l n si) := by
    intro d hd
    simp only [requestsOf]
    exact List.mem_cons_of_mem _ hd
  unfold visitLabel
  split
  · exact reports_refl _ _
  · split
    · exact reports_refl _ _
    · split
      · refine reports_one { kind := "Label", name := n, location := l } ?_ rfl
        simp only [requestsOf]
        exact List.mem_cons_self _ _
      · simp only
        split
        · exact reports_refl _ _
        · split
          · split
            · rename_i e st2 he
              have h1 := congrArg (fun r => (Result.state r).m_errors) he
              simp only [updateLabel_state_errors] at h1
              exact reports_of_eq _ h1.symm
            · rename_i u st2 he
              have h1 := congrArg (fun r => (Result.state r).m_errors) he
              simp only [updateLabel_state_errors] at h1
              exact reports_of_eq _ h1.symm
          · exact reports_mono (labelVariables_reports _ _ _ _ _) stail
        · exact reports_mono (labelVariables_reports _ _ _ _ _) stail

theorem enterFunction_reports (l : SourceLocation) (n : String) (as rs : List String)
    (a : Nat) (st : State) :
    Reports ({ kind := "Function", name := n, location := l } ::
      (as ++ rs).map (variableRequest l)) st (enterFunction l n as rs a st).state := by
  have s1 : ∀ d ∈ [({ kind := "Function", name := n, location := l } : Declaration)],
      d ∈ ({ kind := "Function", name := n, location := l } : Declaration) ::
        (as ++ rs).map (variableRequest l) := by
    intro d hd; rw [List.mem_singleton.mp hd]; exact List.mem_cons_self _ _
  have s2 : ∀ d ∈ (as ++ rs).map (variableRequest l),
      d ∈ ({ kind := "Function", name := n, location := l } : Declaration) ::
        (as ++ rs).map (variableRequest l) := fun d hd => List.mem_cons_of_mem _ hd
  unfold enterFunction
  split
  · exact reports_refl _ _
  · split
    · exact reports_refl _ _
    · rename_i c hc x sc hsc
      simp only
      generalize hp : (match sc.registerFunction n as.length rs.length with
        | (false, _) =>
          (false, { st with m_errors := st.m_errors ++ [declarationError "Function" n l] })
        | (true, sc1) => (true, { st with heap := st.heap.set c sc1 })) = p
      have h0 : Reports [({ kind := "Function", name := n, location := l } : Declaration)]
          st p.2 := by
        rw [← hp]
        split
        · exact reports_one { kind := "Function", name := n, location := l }
            (List.mem_singleton.mpr rfl) rfl
        · exact reports_refl _ _
      have h1 := createScope_state_errors (some a) p.2.m_currentScope p.2
      split
      · rename_i e st2 he; rw [he] at h1
        exact reports_trans h0 (reports_of_eq [] h1) s1 (fun d hd => absurd hd (List.not_mem_nil d))
      · rename_i body st2 he; rw [he] at h1
        have h2 : Reports [({ kind := "Function", name := n, location := l } : Declaration)]
            st st2 := reports_trans h0 (reports_of_eq [] h1) (fun _ hd => hd)
              (fun d hd => absurd hd (List.not_mem_nil d))
        split
        · exact reports_mono h2 s1
        · rename_i bsc hb
          have h3 := registerVariables_reports (as ++ rs) l body
            { st2 with heap := st2.heap.set body { bsc with functionScope := true } }
          split
          · rename_i e st4 he4; rw [he4] at h3; exact reports_trans h2 h3 s1 s2
          · rename_i b st4 he4; rw [he4] at h3; exact reports_trans h2 h3 s1 s2

theorem visitBlock_reports (D : List Declaration) (a : Nat) (f : State → Result Bool)
    (hf : ∀ st1, Reports D st1 (f st1).state) (st : State) :
    Reports D st (visitBlock a f st).state := by
  have h1 := createScope_state_errors (some a) st.m_currentScope st
  unfold visitBlock
  split
  · rename_i e st1 he; rw [he] at h1; exact reports_of_eq _ h1
  · rename_i s st1 he; rw [he] at h1
    have h2 := hf { st1 with m_currentScope := some s }
    split
    · rename_i e st2 he2; rw [he2] at h2
      exact reports_trans (reports_of_eq D h1) h2 (fun _ hd => hd) (fun _ hd => hd)
    · rename_i b st2 he2; rw [he2] at h2
      exact reports_trans (reports_of_eq D h1) h2 (fun _ hd => hd) (fun _ hd => hd)

theorem requestsOfList_cons (s : Statement) (rest : List Statement) :
    requestsOfList (s :: rest) = requestsOf s ++ requestsOfList rest := by
  simp only [requestsOfList]

theorem visitStatements_reports_of (l : List Statement)
    (hl : ∀ s ∈ l, ∀ st, Reports (requestsOf s) st (visit s st).state) :
    ∀ st, Reports (requestsOfList l) st (visitStatements l st).state := by
  induction l with
  | nil => intro st; exact reports_refl _ _
  | cons s rest ih =>
    intro st
    have h1 := hl s (List.mem_cons_self _ _) st
    rw [requestsOfList_cons]
    simp only [visitStatements]
    split
    · rename_i e st1 he; rw [he] at h1
      exact reports_mono h1 (fun _ hd => List.mem_append_left _ hd)
    · rename_i b st1 he; rw [he] at h1
      have h2 := ih (fun s hs => hl s (List.mem_cons_of_mem _ hs)) st1
      split
      · rename_i e2 st2 he2; rw [he2] at h2
        exact reports_trans h1 h2 (fun _ hd => List.mem_append_left _ hd)
          (fun _ hd => List.mem_append_right _ hd)
      · rename_i b2 st2 he2; rw [he2] at h2
        exact reports_trans h1 h2 (fun _ hd => List.mem_append_left _ hd)
          (fun _ hd => List.mem_append_right _ hd)

theorem visitReversed_reports_of (l : List Statement)
    (hl : ∀ s ∈ l, ∀ st, Reports (requestsOf s) st (visit s st).state) :
    ∀ st, Reports (requestsOfList l) st (visitReversed l st).state := by
  induction l with
  | nil => intro st; exact reports_refl _ _
  | cons s rest ih =>
    intro st
    have h1 := ih (fun s hs => hl s (List.mem_cons_of_mem _ hs)) st
    rw [requestsOfList_cons]
    simp only [visitReversed]
    split
    · rename_i e st1 he; rw [he] at h1
      exact reports_mono h1 (fun _ hd => List.mem_append_right _ hd)
    · rename_i b st1 he; rw [he] at h1
      have h2 := hl s (List.mem_cons_self _ _) st1
      split
      · rename_i e2 st2 he2; rw [he2] at h2
        exact reports_trans h1 h2 (fun _ hd => List.mem_append_right _ hd)
          (fun _ hd => List.mem_append_left _ hd)
      · rename_i b2 st2 he2; rw [he2] at h2
        exact reports_trans h1 h2 (fun _ hd => List.mem_append_right _ hd)
          (fun _ hd => List.mem_append_left _ hd)

/-- Under a visit, returned or stopped, the error sink only gets new records at its end, each
the diagnostic of a registration request of the statement. -/
theorem visit_reports : ∀ (s : Statement) (st : State),
    Reports (requestsOf s) st (visit s st).state := by
  intro s
  induction s using Statement.induction with
  | instruction l i => intro st; exact reports_refl _ _
  | literal l n v => intro st; exact reports_refl _ _
  | identifier l n => intro st; exact reports_refl _ _
  | label l n si => intro st; simp only [visit]; exact visitLabel_reports _ _ _ _
  | functionalAssignment l n v ih => intro st; simp only [visit, requestsOf]; exact ih st
  | functionCall l f args ih =>
    intro st; simp only [visit, requestsOf]; exact visitReversed_reports_of args ih st
  | functionalInstruction l i args ih =>
    intro st
    have h1 := visitReversed_reports_of args ih st
    simp only [visit, requestsOf]
    split
    · rename_i e st1 he; rw [he] at h1; exact h1
    · rename_i b st1 he; rw [he] at h1; exact h1
  | variableDeclaration l n v ih =>
    intro st
    have h1 := ih st
    simp only [visit, requestsOf]
    split
    · rename_i e st1 he; rw [he] at h1
      exact reports_mono h1 (fun _ hd => List.mem_append_left _ hd)
    · rename_i b st1 he; rw [he] at h1
      split
      · exact reports_mono h1 (fun _ hd => List.mem_append_left _ hd)
      · rename_i c hc
        have h2 := registerVariable_reports n l c st1
        split
        · rename_i e st2 he2; rw [he2] at h2
          exact reports_trans h1 h2 (fun _ hd => List.mem_append_left _ hd)
            (fun _ hd => List.mem_append_right _ hd)
        · rename_i b2 st2 he2; rw [he2] at h2
          exact reports_trans h1 h2 (fun _ hd => List.mem_append_left _ hd)
            (fun _ hd => List.mem_append_right _ hd)
  | functionDefinition l n as rs a bl body ih =>
    intro st
    have h1 := enterFunction_reports l n as rs a st
    have s1 : ∀ d ∈ ({ kind := "Function", name := n, location := l } : Declaration) ::
        (as ++ rs).map (variableRequest l),
        d ∈ requestsOf (Statement.functionDefinition l n as rs a bl body) := by
      intro d hd
      simp only [requestsOf]
      rcases List.mem_cons.mp hd with h | h
      · rw [h]; exact List.mem_cons_self _ _
      · exact List.mem_cons_of_mem _ (List.mem_append_left _ h)
    have s2 : ∀ d ∈ requestsOfList body,
        d ∈ requestsOf (Statement.functionDefinition l n as rs a bl body) := by
      intro d hd
      simp only [requestsOf]
      exact List.mem_cons_of_mem _ (List.mem_append_right _ hd)
    simp only [visit]
    split
    · rename_i e st1 he; rw [he] at h1; exact reports_mono h1 s1
    · rename_i b st1 he; rw [he] at h1
      have h2 := visitBlock_reports (requestsOfList body) a (visitStatements body)
        (visitStatements_reports_of body ih) st1
      split
      · rename_i e st2 he2; rw [he2] at h2; exact reports_trans h1 h2 s1 s2
      · rename_i b2 st2 he2; rw [he2] at h2; exact reports_trans h1 h2 s1 s2
  | block a l stmts ih =>
    intro st
    simp only [visit, requestsOf]
    exact visitBlock_reports (requestsOfList stmts) a (visitStatements stmts)
      (visitStatements_reports_of stmts ih) st

/-- The error sink only grows under a visit, whether the visit returns or stops. -/
theorem visit_errorsGrow (s : Statement) (st : State) : ErrorsGrow st (visit s st).state :=
  errorsGrow_of_reports (visit_reports s st)

/-- The sink after a visit is the sink before followed by the records the visit appended. -/
theorem errors_append_appended (s : Statement) (st : State) :
    (visit s st).state.m_errors = st.m_errors ++ appended s st := by
  obtain ⟨new, h⟩ := visit_errorsGrow s st
  unfold appended
  rw [h, List.drop_left]

/-! ## Claims about argument lists -/

theorem visitStatements_eq_sequence (l : List Statement) :
    ∀ st, visitStatements l st = (visitInSequence l st).map (fun bs => bs.all id) := by
  induction l with
  | nil => intro st; rfl
  | cons s rest ih =>
    intro st
    simp only [visitStatements, visitInSequence]
    cases visit s st with
    | fatal e st1 => rfl
    | ok b st1 =>
      simp only [ih st1]
      cases visitInSequence rest st1 with
      | fatal e st2 => rfl
      | ok bs st2 => simp [Result.map]

theorem visitInSequence_append (l1 l2 : List Statement) :
    ∀ st, visitInSequence (l1 ++ l2) st =
      match visitInSequence l1 st with
      | Result.fatal e st1 => Result.fatal e st1
      | Result.ok bs1 st1 =>
        match visitInSequence l2 st1 with
        | Result.fatal e st2 => Result.fatal e st2
        | Result.ok bs2 st2 => Result.ok (bs1 ++ bs2) st2 := by
  induction l1 with
  | nil =>
    intro st
    rw [List.nil_append]
    simp only [visitInSequence]
    cases visitInSequence l2 st <;> rfl
  | cons s rest ih =>
    intro st
    rw [List.cons_append]
    simp only [visitInSequence]
    cases visit s st with
    | fatal e st1 => rfl
    | ok b st1 =>
      simp only [ih st1]
      cases visitInSequence rest st1 with
      | fatal e st2 => rfl
      | ok bs st2 =>
        simp only
        cases visitInSequence l2 st2 <;> rfl

theorem visitReversed_eq_sequence (l : List Statement) :
    ∀ st, visitReversed l st = (visitInSequence l.reverse st).map (fun bs => bs.all id) := by
  induction l with
  | nil => intro st; rfl
  | cons a rest ih =>
    intro st
    simp only [visitReversed, List.reverse_cons, visitInSequence_append, ih st]
    cases visitInSequence rest.reverse st with
    | fatal e st1 => rfl
    | ok bs st1 =>
      simp only [Result.map, visitInSequence]
      cases visit a st1 with
      | fatal e st2 => rfl
      | ok b st2 => simp [Result.map]

theorem appendedInSequence_append (l1 l2 : List Statement) :
    ∀ st, appendedInSequence (l1 ++ l2) st =
      appendedInSequence l1 st ++
        match visitInSequence l1 st with
        | Result.fatal _ _ => []
        | Result.ok _ st1 => appendedInSequence l2 st1 := by
  induction l1 with
  | nil => intro st; rfl
  | cons s rest ih =>
    intro st
    rw [List.cons_append]
    simp only [appendedInSequence, visitInSequence]
    cases visit s st with
    | fatal e st1 => simp
    | ok b st1 =>
      simp only [ih st1, List.cons_append]
      cases visitInSequence rest st1 <;> rfl

/-- The sink after a sequence of visits is the sink before followed by what each visit
appended, in the order of the visits. -/
theorem visitInSequence_errors (l : List Statement) :
    ∀ st, (visitInSequence l st).state.m_errors = st.m_errors ++ (appendedInSequence l st).flatten := by
  induction l with
  | nil => intro st; simp [visitInSequence, appendedInSequence, Result.state]
  | cons s rest ih =>
    intro st
    have h1 := errors_append_appended s st
    simp only [visitInSequence, appendedInSequence, List.flatten_cons]
    cases hv : visit s st with
    | fatal e st1 =>
      rw [hv] at h1
      simp only [Result.state] at h1 ⊢
      simp [h1]
    | ok b st1 =>
      rw [hv] at h1
      simp only [Result.state] at h1
      have h2 := ih st1
      simp only
      cases hr : visitInSequence rest st1 with
      | fatal e st2 =>
        rw [hr] at h2
        simp only [Result.state] at h2 ⊢
        rw [h2, h1, List.append_assoc]
      | ok bs st2 =>
        rw [hr] at h2
        simp only [Result.state] at h2 ⊢
        rw [h2, h1, List.append_assoc]

theorem map_state {α β : Type} (f : α → β) (r : Result α) : (r.map f).state = r.state := by
  cases r <;> rfl

/-- C14: a function call and a functional instruction with the arguments `a1, ..., an` end
like the sequence of visits of `an`, ..., `a1`, each from the state left by the previous one:
same final state (scope tree and error sink; also when a visit stops the run), the returned
flag is the conjunction of the flags of the arguments, and the sink is the one before followed
by the records of `an`, then those of `a(n-1)`, ..., then those of `a1`; for the arguments
`f, g` the records of `g` come before those of `f`. -/
theorem arguments_visited_right_to_left (location : SourceLocation) (name : String)
    (instruction : Nat) (arguments : List Statement) (st : State) :
    visit (Statement.functionCall location name arguments) st =
      (visitInSequence arguments.reverse st).map (fun bs => bs.all id) ∧
    visit (Statement.functionalInstruction location instruction arguments) st =
      (visitInSequence arguments.reverse st).map (fun bs => bs.all id) ∧
    (visit (Statement.functionCall location name arguments) st).state.m_errors =
      st.m_errors ++ (appendedInSequence arguments.reverse st).flatten ∧
    (visit (Statement.functionalInstruction location instruction arguments) st).state.m_errors =
      st.m_errors ++ (appendedInSequence arguments.reverse st).flatten ∧
    (∀ f g bg st1, arguments = [f, g] → visit g st = Result.ok bg st1 →
      (visit (Statement.functionCall location name arguments) st).state.m_errors =
        st.m_errors ++ appended g st ++ appended f st1 ∧
      (visit (Statement.functionalInstruction location instruction arguments) st).state.m_errors =
        st.m_errors ++ appended g st ++ appended f st1) := by
  have h1 : visit (Statement.functionCall location name arguments) st =
      (visitInSequence arguments.reverse st).map (fun bs => bs.all id) := by
    simp only [visit]
    exact visitReversed_eq_sequence arguments st
  have h2 : visit (Statement.functionalInstruction location instruction arguments) st =
      (visitInSequence arguments.reverse st).map (fun bs => bs.all id) := by
    simp only [visit, visitReversed_eq_sequence arguments st]
    cases visitInSequence arguments.reverse st with
    | fatal e st1 => rfl
    | ok bs st1 => simp [Result.map]
  have h3 := visitInSequence_errors arguments.reverse st
  refine ⟨h1, h2, ?_, ?_, ?_⟩
  · rw [h1, map_state, h3]
  · rw [h2, map_state, h3]
  · intro f g bg st1 ha hg
    have h4 : (appendedInSequence arguments.reverse st).flatten = appended g st ++ appended f st1 := by
      subst ha
      simp only [List.reverse_cons, List.reverse_nil, List.nil_append, List.singleton_append,
        appendedInSequence, hg]
      cases visit f st1 <;> simp
    rw [h1, h2, map_state, h3, h4, List.append_assoc]
    exact ⟨rfl, rfl⟩

/-- Witness for C14: a call whose two arguments both redeclare the reserved label, the first at
the location 1..1 and the second at 2..2, in a fresh filler: the record of the second argument
precedes the one of the first. -/
theorem arguments_visited_right_to_left_witness :
    (visit (Statement.functionCall sampleLocation "h"
      [Statement.label { start := 1, stop := 1, sourceName := "" } "invalidJumpLabel" [],
       Statement.label { start := 2, stop := 2, sourceName := "" } "invalidJumpLabel" []])
      (freshFiller [])).state.m_errors =
    [declarationError "Label" "invalidJumpLabel" { start := 2, stop := 2, sourceName := "" },
     declarationError "Label" "invalidJumpLabel" { start := 1, stop := 1, sourceName := "" }] :=
  ((arguments_visited_right_to_left sampleLocation "h" 0
    [Statement.label { start := 1, stop := 1, sourceName := "" } "invalidJumpLabel" [],
     Statement.label { start := 2, stop := 2, sourceName := "" } "invalidJumpLabel" []]
    (freshFiller [])).2.2.2.2
    (Statement.label { start := 1, stop := 1, sourceName := "" } "invalidJumpLabel" [])
    (Statement.label { start := 2, stop := 2, sourceName := "" } "invalidJumpLabel" [])
    false
    ((freshFiller []).pushError
      (declarationError "Label" "invalidJumpLabel" { start := 2, stop := 2, sourceName := "" }))
    rfl (by decide)).1.trans (by decide)

/-! ## Claims about the error sink -/

theorem visitBlock_state_errors (a : Nat) (stmts : List Statement) (st st1 : State)
    (r : ScopeRef) (h : createScope (some a) st.m_currentScope st = Result.ok r st1) :
    (visitBlock a (visitStatements stmts) st).state.m_errors =
      st.m_errors ++ (appendedInSequence stmts (st1.withCurrent (some r))).flatten := by
  have h1 := visitInSequence_errors stmts (st1.withCurrent (some r))
  rw [← map_state (fun bs => bs.all id), ← visitStatements_eq_sequence] at h1
  have h2 : (st1.withCurrent (some r)).m_errors = st.m_errors :=
    (createScope_errors h : st1.m_errors = st.m_errors)
  rw [h2] at h1
  rw [← h1]
  unfold visitBlock
  rw [h]
  simp only [State.withCurrent]
  cases visitStatements stmts { st1 with m_currentScope := some r } <;> rfl

/-- C19: for every statement and every starting state, the error sink after the visit (returned
or stopped) is the sink before followed by the records the visit appended, so every earlier
record is still there at its position; and for a block, whose scope `createScope` returns as
`r`, the appended records are those appended by its statements, one statement after the other
in the order of the block. -/
theorem error_sink_append_only (s : Statement) (st : State) :
    (visit s st).state.m_errors = st.m_errors ++ appended s st ∧
    (visit s st).state.m_errors.take st.m_errors.length = st.m_errors ∧
    (∀ (i : Nat) (e : Error), st.m_errors[i]? = some e →
      (visit s st).state.m_errors[i]? = some e) ∧
    (∀ b st', visit s st = Result.ok b st' → st'.m_errors = st.m_errors ++ appended s st) ∧
    (∀ a location stmts r st1, s = Statement.block a location stmts →
      createScope (some a) st.m_currentScope st = Result.ok r st1 →
      appended s st = (appendedInSequence stmts (st1.withCurrent (some r))).flatten) := by
  have h := errors_append_appended s st
  refine ⟨h, ?_, ?_, ?_, ?_⟩
  · rw [h, List.take_left]
  · intro i e hi
    rw [h]
    have hlt : i < st.m_errors.length := (List.getElem?_eq_some.mp hi).1
    rw [List.getElem?_append_left hlt]
    exact hi
  · intro b st' hv
    rw [hv] at h
    exact h
  · intro a location stmts r st1 hs hc
    subst hs
    have h2 := visitBlock_state_errors a stmts st st1 r hc
    unfold appended
    simp only [visit]
    rw [h2, List.drop_left]

/-- Witness for C19: a block at address 1 with the statements `let x`, the label `x`, `let y`,
`let x`, visited in a fresh filler whose sink already holds one record: the old record stays in
front, followed by the record of the label and then the one of the second `let x`. -/
theorem error_sink_append_only_witness :
    ∃ b st', visit (Statement.block 1 sampleLocation
        [Statement.variableDeclaration sampleLocation "x" (Statement.literal sampleLocation true "1"),
         Statement.label sampleLocation "x" [],
         Statement.variableDeclaration sampleLocation "y" (Statement.literal sampleLocation true "2"),
         Statement.variableDeclaration sampleLocation "x" (Statement.literal sampleLocation true "3")])
        (freshFiller [declarationError "Function" "old" sampleLocation]) = Result.ok b st' ∧
      st'.m_errors = [declarationError "Function" "old" sampleLocation] ++
        [declarationError "Label" "x" sampleLocation,
         declarationError "Variable" "x" sampleLocation] := by
  obtain ⟨b, st', hv, -⟩ := visit_post (Statement.block 1 sampleLocation
    [Statement.variableDeclaration sampleLocation "x" (Statement.literal sampleLocation true "1"),
     Statement.label sampleLocation "x" [],
     Statement.variableDeclaration sampleLocation "y" (Statement.literal sampleLocation true "2"),
     Statement.variableDeclaration sampleLocation "x" (Statement.literal sampleLocation true "3")])
    none (freshFiller [declarationError "Function" "old" sampleLocation]) 0
    (ready_fresh _ (by decide))
  refine ⟨b, st', hv, ?_⟩
  rw [(error_sink_append_only _ _).2.2.2.1 b st' hv,
    (error_sink_append_only _ (freshFiller [declarationError "Function" "old" sampleLocation])).2.2.2.2
      1 sampleLocation _ 1
      (withNewScope (freshFiller [declarationError "Function" "old" sampleLocation]) (some 1) 0
        rootScope) rfl (by decide)]
  decide

/-! ## Claims about completion and the frame of a block -/

/-- C16: the filler constructed over an empty scope tree, then a top-level block whose blocks
(the block, nested blocks, function bodies) have pairwise different addresses: the constructor
returns, the visit of the block returns a flag, and it does not stop on any fatal event, so
neither the assertion of `createScope` nor a failed scope lookup is hit; no condition is put on
the declarations of the block. -/
theorem traversal_runs_to_completion (errors : ErrorList) (a : Nat) (location : SourceLocation)
    (stmts : List Statement) (hnd : (blocksOf (Statement.block a location stmts)).Nodup) :
    ScopeFiller [] [] errors = Result.ok () (freshFiller errors) ∧
    (∃ b st', visit (Statement.block a location stmts) (freshFiller errors) = Result.ok b st') ∧
    (∀ e st', visit (Statement.block a location stmts) (freshFiller errors) ≠
      Result.fatal e st') := by
  obtain ⟨b, st', hv, -⟩ :=
    visit_post (Statement.block a location stmts) none (freshFiller errors) 0
      (ready_fresh errors hnd)
  refine ⟨rfl, ⟨b, st', hv⟩, ?_⟩
  intro e st'' h
  rw [hv] at h
  exact absurd h (by simp)

/-- Witness for C16: a block at address 1 that declares `x` twice, defines `f` twice (bodies at
2 and 3) and holds a nested block at 4 with a duplicate label: the visit returns. -/
theorem traversal_runs_to_completion_witness :
    ∃ b st', visit (Statement.block 1 sampleLocation
        [Statement.variableDeclaration sampleLocation "x" (Statement.literal sampleLocation true "1"),
         Statement.variableDeclaration sampleLocation "x" (Statement.literal sampleLocation true "2"),
         Statement.functionDefinition sampleLocation "f" ["a", "a"] ["a"] 2 sampleLocation [],
         Statement.functionDefinition sampleLocation "f" [] [] 3 sampleLocation [],
         Statement.block 4 sampleLocation
          [Statement.label sampleLocation "l" [], Statement.label sampleLocation "l" ["l"]]])
        (freshFiller []) = Result.ok b st' :=
  (traversal_runs_to_completion [] 1 sampleLocation
    [Statement.variableDeclaration sampleLocation "x" (Statement.literal sampleLocation true "1"),
     Statement.variableDeclaration sampleLocation "x" (Statement.literal sampleLocation true "2"),
     Statement.functionDefinition sampleLocation "f" ["a", "a"] ["a"] 2 sampleLocation [],
     Statement.functionDefinition sampleLocation "f" [] [] 3 sampleLocation [],
     Statement.block 4 sampleLocation
      [Statement.label sampleLocation "l" [], Statement.label sampleLocation "l" ["l"]]]
    (by decide)).2.1

/-- C20: a block at address `a` visited with current scope `c`, from a state in which no block
of it (the block itself, nested blocks, function bodies; their addresses pairwise different)
has a scope yet: the visit returns; the block gets the one new scope object right after the
old ones; every old scope other than `c` is exactly what it was; `c` is what it was except that
the new scope is appended to its nested scopes; so every old scope keeps its table, and after a
traversal from a fresh filler the table of the root is still the reserved label alone. -/
theorem declarations_stay_in_block (st : State) (c : ScopeRef) (csc : Scope) (a : Nat)
    (location : SourceLocation) (stmts : List Statement)
    (hc : st.m_currentScope = some c) (hsc : st.heap[c]? = some csc)
    (hnew : ∀ x ∈ blocksOf (Statement.block a location stmts),
      mapFind (some x) st.m_scopes = none)
    (hnd : (blocksOf (Statement.block a location stmts)).Nodup) :
    ∃ b st', visit (Statement.block a location stmts) st = Result.ok b st' ∧
      ScopeOf st' a st.heap.length ∧
      (∀ (r : ScopeRef) (sc : Scope), st.heap[r]? = some sc → r ≠ c → st'.heap[r]? = some sc) ∧
      st'.heap[c]? = some { csc with subScopes := csc.subScopes ++ [st.heap.length] } ∧
      (∀ (r : ScopeRef) (sc : Scope), st.heap[r]? = some sc →
        ∃ sc', st'.heap[r]? = some sc' ∧ sc'.identifiers = sc.identifiers) ∧
      (∀ errors, st = freshFiller errors → ∃ root, st'.heap[0]? = some root ∧
        root.identifiers = [("invalidJumpLabel", Identifier.Label (Label.new errorLabelId))]) := by
  have hk : mapFind (some a) st.m_scopes = none := hnew a (List.mem_cons_self _ _)
  have hnd' : (a :: blocksOfStatements stmts).Nodup := hnd
  obtain ⟨w1, w2, w3, w4, w5, -, -⟩ := withNewScope_facts a hsc hk
  have hlt : c < st.heap.length := (List.getElem?_eq_some.mp hsc).1
  have hready : Ready ((withNewScope st (some a) c csc).withCurrent (some st.heap.length))
      st.heap.length (blocksOfStatements stmts) := by
    refine ⟨rfl, ⟨childOf c, w3⟩, ?_, (List.nodup_cons.mp hnd').2⟩
    intro x hx
    have hxa : ¬ a = x := fun e => (List.nodup_cons.mp hnd').1 (e ▸ hx)
    show mapFind (some x) (withNewScope st (some a) c csc).m_scopes = none
    rw [w1, mapFind_append, hnew x (List.mem_cons_of_mem _ hx)]
    simp [mapFind, hxa]
  obtain ⟨b, st2, hv, -, hm, -, hframe, -, -⟩ :=
    visitStatements_post stmts (fun s _ => visit_post s) (some a)
      ((withNewScope st (some a) c csc).withCurrent (some st.heap.length)) st.heap.length hready
  have hold : ∀ r : ScopeRef, r < st.heap.length →
      st2.heap[r]? = (withNewScope st (some a) c csc).heap[r]? := by
    intro r hr
    refine hframe r ?_ (Nat.ne_of_lt hr)
    show r < (withNewScope st (some a) c csc).heap.length
    rw [w2]
    exact Nat.lt_succ_of_lt hr
  have hother : ∀ (r : ScopeRef) (sc : Scope), st.heap[r]? = some sc → r ≠ c →
      (st2.withCurrent (some c)).heap[r]? = some sc := by
    intro r sc hr hne
    have hrl : r < st.heap.length := (List.getElem?_eq_some.mp hr).1
    show st2.heap[r]? = some sc
    rw [hold r hrl, w5 r hrl hne, hr]
  have hcur : (st2.withCurrent (some c)).heap[c]? =
      some { csc with subScopes := csc.subScopes ++ [st.heap.length] } := by
    show st2.heap[c]? = _
    rw [hold c hlt, w4]
  have htables : ∀ (r : ScopeRef) (sc : Scope), st.heap[r]? = some sc →
      ∃ sc', (st2.withCurrent (some c)).heap[r]? = some sc' ∧
        sc'.identifiers = sc.identifiers := by
    intro r sc hr
    by_cases hrc : r = c
    · subst hrc
      rw [hsc] at hr
      cases hr
      exact ⟨_, hcur, rfl⟩
    · exact ⟨sc, hother r sc hr hrc, rfl⟩
  refine ⟨b, st2.withCurrent (some c), ?_, ?_, hother, hcur, htables, ?_⟩
  · simp only [visit]
    rw [visitBlock_new a _ hc hsc hk, hv]
  · show mapFind (some a) st2.m_scopes = some (some st.heap.length)
    rw [hm]
    show mapFind (some a) ((withNewScope st (some a) c csc).m_scopes ++ _) = _
    rw [w1, mapFind_append, mapFind_append, hk]
    simp [mapFind]
  · intro errors he
    subst he
    exact htables 0 rootScope rfl

/-- Witness for C20: a fresh filler and a block at address 1 that declares `x` and holds a
function `f(a)` with body at address 2: afterwards the root scope still has only the reserved
label in its table and lists the scope of the block, object 1. -/
theorem declarations_stay_in_block_witness :
    ∃ b st', visit (Statement.block 1 sampleLocation
        [Statement.variableDeclaration sampleLocation "x" (Statement.literal sampleLocation true "1"),
         Statement.functionDefinition sampleLocation "f" ["a"] [] 2 sampleLocation []])
        (freshFiller []) = Result.ok b st' ∧
      st'.heap[0]? = some { rootScope with subScopes := rootScope.subScopes ++ [1] } := by
  obtain ⟨b, st', hv, -, -, h, -⟩ := declarations_stay_in_block (freshFiller []) 0 rootScope 1
    sampleLocation
    [Statement.variableDeclaration sampleLocation "x" (Statement.literal sampleLocation true "1"),
     Statement.functionDefinition sampleLocation "f" ["a"] [] 2 sampleLocation []]
    rfl rfl (by decide) (by decide)
  exact ⟨b, st', hv, h⟩

/-! ## Every appended record is for a refused request -/

theorem explains_refl (Q : Declaration → Prop) (st : State) : Explains Q st st :=
  ⟨[], by simp, fun e he => absurd he (List.not_mem_nil e)⟩

theorem explains_of_eq (Q : Declaration → Prop) {st st' : State}
    (h : st'.m_errors = st.m_errors) : Explains Q st st' :=
  ⟨[], by simp [h], fun e he => absurd he (List.not_mem_nil e)⟩

theorem explains_one {Q : Declaration → Prop} (d : Declaration) (hd : Q d) {st st' : State}
    (h : st'.m_errors = st.m_errors ++ [declarationError d.kind d.name d.location]) :
    Explains Q st st' :=
  ⟨[_], h, fun _ he => ⟨d, hd, List.mem_singleton.mp he⟩⟩

theorem explains_trans {Q1 Q2 Q : Declaration → Prop} {st st1 st2 : State}
    (h1 : Explains Q1 st st1) (h2 : Explains Q2 st1 st2) (s1 : ∀ d, Q1 d → Q d)
    (s2 : ∀ d, Q2 d → Q d) : Explains Q st st2 := by
  obtain ⟨n1, e1, p1⟩ := h1
  obtain ⟨n2, e2, p2⟩ := h2
  refine ⟨n1 ++ n2, by rw [e2, e1, List.append_assoc], ?_⟩
  intro e he
  rcases List.mem_append.mp he with h | h
  · obtain ⟨d, hd, rfl⟩ := p1 e h
    exact ⟨d, s1 d hd, rfl⟩
  · obtain ⟨d, hd, rfl⟩ := p2 e h
    exact ⟨d, s2 d hd, rfl⟩

theorem explains_mono {Q1 Q : Declaration → Prop} {st st' : State} (h : Explains Q1 st st')
    (s : ∀ d, Q1 d → Q d) : Explains Q st st' :=
  explains_trans h (explains_refl Q1 st') s s

/-- A record pushed by `ScopeFiller::registerVariable` is for a refused request. -/
theorem registerVariable_explains (n : String) (l : SourceLocation) (r : ScopeRef) (st : State) :
    Explains (RefusedAt st r "Variable" n l) st (registerVariable n l r st).state := by
  cases hsc : st.heap[r]? with
  | none =>
    refine explains_of_eq _ ?_
    unfold registerVariable
    simp [hsc, Result.state]
  | some sc =>
    by_cases hn : n ∈ sc.names
    · rw [registerVariable_taken hsc hn]
      exact explains_one { kind := "Variable", name := n, location := l } ⟨rfl, sc, hsc, hn⟩ rfl
    · rw [registerVariable_fresh hsc hn]
      exact explains_of_eq _ rfl

theorem registerVariables_state_of_none (ns : List String) (l : SourceLocation) (r : ScopeRef)
    (st : State) (h : st.heap[r]? = none) : (registerVariables ns l r st).state = st := by
  cases ns with
  | nil => rfl
  | cons n ns =>
    simp only [registerVariables]
    have : registerVariable n l r st = Result.fatal Fatal.badPointer st := by
      unfold registerVariable
      simp [h]
    rw [this]
    rfl

/-- The records pushed by a loop of variable registrations are for refused requests. -/
theorem registerVariables_explains (ns : List String) (l : SourceLocation) (r : ScopeRef)
    (st : State) : Explains (RefusedAmong st r ns l) st (registerVariables ns l r st).state := by
  cases hsc : st.heap[r]? with
  | none =>
    rw [registerVariables_state_of_none ns l r st hsc]
    exact explains_refl _ _
  | some sc =>
    rw [registerVariables_eq ns l r st sc hsc]
    refine ⟨(rejected sc.names (ns.map (fun n => (n, l)))).map
      (fun d : String × SourceLocation => declarationError "Variable" d.1 d.2), rfl, ?_⟩
    intro e he
    obtain ⟨d0, hd0, rfl⟩ := List.mem_map.mp he
    obtain ⟨n, -, hn⟩ := List.mem_map.mp (mem_rejected hd0)
    have h2 : d0.2 = l := by rw [← hn]
    have h3 : (d0.1, l) = d0 := by rw [← h2]
    refine ⟨variableRequest l d0.1, ⟨sc, hsc, ?_, rfl⟩, ?_⟩
    · show (d0.1, l) ∈ _
      rw [h3]; exact hd0
    · show declarationError "Variable" d0.1 d0.2 = declarationError "Variable" d0.1 l
      rw [h2]

/-- The records pushed by the label visitor are for refused requests. -/
theorem visitLabel_explains (l : SourceLocation) (n : String) (si : List String) (st : State) :
    Explains (Refused (Statement.label l n si) st) st (visitLabel l n si st).state := by
  cases hc : st.m_currentScope with
  | none =>
    refine explains_of_eq _ ?_
    unfold visitLabel
    simp [hc, Result.state]
  | some c =>
    cases hsc : st.heap[c]? with
    | none =>
      refine explains_of_eq _ ?_
      unfold visitLabel
      simp [hc, hsc, Result.state]
    | some sc =>
      by_cases hn : n ∈ sc.names
      · rw [visitLabel_taken l si hc hsc hn]
        refine explains_one { kind := "Label", name := n, location := l } ?_ rfl
        simp only [Refused]
        exact Or.inl ⟨c, hc, rfl, sc, hsc, hn⟩
      · have hreg : ∀ ts : List String, (∀ t k, ts = [t] → lexical_cast_int t ≠ some k) →
            si = ts →
            Explains (Refused (Statement.label l n si) st) st
              (afterRegistrations (st.setScope c (sc.add n (labelEntry none true))) c
                (sc.add n (labelEntry none true)) (stackRequests ts l)) := by
          intro ts hmode hts
          subst hts
          have h1 := registerVariables_explains (si.filter (fun t => t ≠ "")) l c
            (st.setScope c (sc.add n (labelEntry none true)))
          rw [registerVariables_eq _ l c _ _ (getElem?_setScope_self _ hsc)] at h1
          refine explains_trans
            (explains_of_eq (fun _ => False)
              (rfl : (st.setScope c (sc.add n (labelEntry none true))).m_errors = st.m_errors))
            h1 (fun _ h => h.elim) ?_
          intro d hd
          simp only [Refused]
          exact Or.inr ⟨c, sc, hc, hsc, hn, hmode, hd⟩
        match si with
        | [] =>
          rw [visitLabel_fresh_nil l hc hsc hn]
          exact explains_of_eq _ rfl
        | [t] =>
          cases ht : lexical_cast_int t with
          | some k =>
            rw [visitLabel_fresh_number l hc hsc hn ht]
            exact explains_of_eq _ rfl
          | none =>
            rw [visitLabel_fresh_token l hc hsc hn ht]
            refine hreg [t] ?_ rfl
            intro t' k h
            simp only [List.cons.injEq, and_true] at h
            rw [← h, ht]
            simp
        | t1 :: t2 :: ts =>
          rw [visitLabel_fresh_many l t1 t2 ts hc hsc hn]
          refine hreg (t1 :: t2 :: ts) ?_ rfl
          intro t' k h
          simp at h

/-- The records pushed by the first part of the function-definition visitor are for refused
requests: the one for the function name in the current scope, those for parameters and return
variables in the scope of the body. -/
theorem enterFunction_explains (l : SourceLocation) (n : String) (as rs : List String)
    (a : Nat) (st : State) :
    Explains (fun d =>
      (∃ c, st.m_currentScope = some c ∧ RefusedAt st c "Function" n l d) ∨
      (∃ c sc r st2, st.m_currentScope = some c ∧ st.heap[c]? = some sc ∧
        createScope (some a) (some c) (functionNameStep st c sc l n as.length rs.length).2.1 =
          Result.ok r st2 ∧
        RefusedAmong st2 r (as ++ rs) l d)) st (enterFunction l n as rs a st).state := by
  unfold enterFunction
  split
  · exact explains_refl _ _
  rename_i c hc
  split
  · exact explains_refl _ _
  rename_i sc hsc
  have hp : (match sc.registerFunction n as.length rs.length with
      | (false, _) =>
        (false, { st with m_errors := st.m_errors ++ [declarationError "Function" n l] })
      | (true, sc1) => (true, { st with heap := st.heap.set c sc1 })) =
      ((functionNameStep st c sc l n as.length rs.length).1,
        (functionNameStep st c sc l n as.length rs.length).2.1) := by
    unfold functionNameStep
    by_cases hn : n ∈ sc.names
    · simp only [hn, if_true]
      rw [registerFunction_taken _ _ hn]; rfl
    · simp only [hn, if_false]
      rw [registerFunction_fresh _ _ hn]; rfl
  simp only [hp]
  have hcur : (functionNameStep st c sc l n as.length rs.length).2.1.m_currentScope = some c := by
    rw [(functionNameStep_facts st c sc l n as.length rs.length hsc).1.1, hc]
  rw [hcur]
  have h0 : Explains (RefusedAt st c "Function" n l) st
      (functionNameStep st c sc l n as.length rs.length).2.1 := by
    unfold functionNameStep
    split
    · rename_i hn
      exact explains_one { kind := "Function", name := n, location := l } ⟨rfl, sc, hsc, hn⟩ rfl
    · exact explains_of_eq _ rfl
  have s1 : ∀ d, RefusedAt st c "Function" n l d →
      (∃ c, st.m_currentScope = some c ∧ RefusedAt st c "Function" n l d) ∨
      (∃ c sc r st2, st.m_currentScope = some c ∧ st.heap[c]? = some sc ∧
        createScope (some a) (some c) (functionNameStep st c sc l n as.length rs.length).2.1 =
          Result.ok r st2 ∧
        RefusedAmong st2 r (as ++ rs) l d) := fun d hd => Or.inl ⟨c, hc, hd⟩
  have h1 := createScope_state_errors (some a) (some c)
    (functionNameStep st c sc l n as.length rs.length).2.1
  split
  · rename_i e st2 he
    rw [he] at h1
    exact explains_trans h0 (explains_of_eq (fun _ => False) h1) s1 (fun _ h => h.elim)
  · rename_i body st2 he
    rw [he] at h1
    have h2 : Explains (RefusedAt st c "Function" n l) st st2 :=
      explains_trans h0 (explains_of_eq (fun _ => False) h1) (fun _ h => h) (fun _ h => h.elim)
    split
    · exact explains_mono h2 s1
    · rename_i bsc hb
      have e : ({ st2 with heap := st2.heap.set body { bsc with functionScope := true } } : State) =
          st2.setScope body { bsc with functionScope := true } := rfl
      rw [e]
      have h3 := registerVariables_explains (as ++ rs) l body
        (st2.setScope body { bsc with functionScope := true })
      have h3' := explains_trans
        (explains_of_eq (fun _ => False)
          (rfl : (st2.setScope body { bsc with functionScope := true }).m_errors = st2.m_errors))
        h3 (fun _ h => h.elim) (fun _ h => h)
      have h4 := explains_trans h2 h3' s1 (by
        rintro d ⟨sc3, hsc3, hrej, hd⟩
        rw [getElem?_setScope_self _ hb] at hsc3
        cases hsc3
        exact Or.inr ⟨c, sc, body, st2, hc, hsc, he, bsc, hb, hrej, hd⟩)
      split
      · rename_i e4 st4 he4; rw [he4] at h4; exact h4
      · rename_i b4 st4 he4; rw [he4] at h4; exact h4

/-- The records pushed during the visit of a block are those of its statements. -/
theorem visitBlock_explains (a : Nat) (stmts : List Statement)
    (hf : ∀ st1, Explains (RefusedStatements stmts st1) st1 (visitStatements stmts st1).state)
    (st : State) :
    Explains (fun d => ∃ r st1, createScope (some a) st.m_currentScope st = Result.ok r st1 ∧
      RefusedStatements stmts (st1.withCurrent (some r)) d) st
      (visitBlock a (visitStatements stmts) st).state := by
  have h1 := createScope_state_errors (some a) st.m_currentScope st
  unfold visitBlock
  split
  · rename_i e st1 he; rw [he] at h1; exact explains_of_eq _ h1
  · rename_i s st1 he; rw [he] at h1
    have h2 := hf (st1.withCurrent (some s))
    have s2 : ∀ d, RefusedStatements stmts (st1.withCurrent (some s)) d →
        ∃ r st1', createScope (some a) st.m_currentScope st = Result.ok r st1' ∧
          RefusedStatements stmts (st1'.withCurrent (some r)) d :=
      fun d hd => ⟨s, st1, he, hd⟩
    have h3 : Explains (RefusedStatements stmts (st1.withCurrent (some s))) st
        (visitStatements stmts (st1.withCurrent (some s))).state :=
      explains_trans (explains_of_eq (fun _ => False) h1) h2 (fun _ h => h.elim) (fun _ h => h)
    simp only [State.withCurrent] at h3 s2 ⊢
    split
    · rename_i e st2 he2; rw [he2] at h3
      exact explains_mono h3 s2
    · rename_i b st2 he2; rw [he2] at h3
      exact explains_mono h3 s2

theorem visitStatements_explains_of (l : List Statement)
    (hl : ∀ s ∈ l, ∀ st, Explains (Refused s st) st (visit s st).state) :
    ∀ st, Explains (RefusedStatements l st) st (visitStatements l st).state := by
  induction l with
  | nil => intro st; exact explains_refl _ _
  | cons s rest ih =>
    intro st
    have h1 := hl s (List.mem_cons_self _ _) st
    simp only [visitStatements, RefusedStatements]
    split
    · rename_i e st1 he; rw [he] at h1
      exact explains_mono h1 (fun _ hd => Or.inl hd)
    · rename_i b st1 he; rw [he] at h1
      have h2 := ih (fun s hs => hl s (List.mem_cons_of_mem _ hs)) st1
      split
      · rename_i e2 st2 he2; rw [he2] at h2
        exact explains_trans h1 h2 (fun _ hd => Or.inl hd) (fun _ hd => Or.inr ⟨b, st1, he, hd⟩)
      · rename_i b2 st2 he2; rw [he2] at h2
        exact explains_trans h1 h2 (fun _ hd => Or.inl hd) (fun _ hd => Or.inr ⟨b, st1, he, hd⟩)

theorem visitReversed_explains_of (l : List Statement)
    (hl : ∀ s ∈ l, ∀ st, Explains (Refused s st) st (visit s st).state) :
    ∀ st, Explains (RefusedReversed l st) st (visitReversed l st).state := by
  induction l with
  | nil => intro st; exact explains_refl _ _
  | cons s rest ih =>
    intro st
    have h1 := ih (fun s hs => hl s (List.mem_cons_of_mem _ hs)) st
    simp only [visitReversed, RefusedReversed]
    split
    · rename_i e st1 he; rw [he] at h1
      exact explains_mono h1 (fun _ hd => Or.inl hd)
    · rename_i b st1 he; rw [he] at h1
      have h2 := hl s (List.mem_cons_self _ _) st1
      split
      · rename_i e2 st2 he2; rw [he2] at h2
        exact explains_trans h1 h2 (fun _ hd => Or.inl hd) (fun _ hd => Or.inr ⟨b, st1, he, hd⟩)
      · rename_i b2 st2 he2; rw [he2] at h2
        exact explains_trans h1 h2 (fun _ hd => Or.inl hd) (fun _ hd => Or.inr ⟨b, st1, he, hd⟩)

/-- Under a visit, returned or stopped, every record appended to the error sink is the
diagnostic of a request that was refused because its name was already in the table of the
scope it was made to. -/
theorem visit_explains : ∀ (s : Statement) (st : State),
    Explains (Refused s st) st (visit s st).state := by
  intro s
  induction s using Statement.induction with
  | instruction l i => intro st; exact explains_refl _ _
  | literal l n v => intro st; exact explains_refl _ _
  | identifier l n => intro st; exact explains_refl _ _
  | label l n si => intro st; simp only [visit]; exact visitLabel_explains _ _ _ _
  | functionalAssignment l n v ih => intro st; simp only [visit, Refused]; exact ih st
  | functionCall l f args ih =>
    intro st; simp only [visit, Refused]; exact visitReversed_explains_of args ih st
  | functionalInstruction l i args ih =>
    intro st
    have h1 := visitReversed_explains_of args ih st
    simp only [visit, Refused]
    split
    · rename_i e st1 he; rw [he] at h1; exact h1
    · rename_i b st1 he; rw [he] at h1; exact h1
  | variableDeclaration l n v ih =>
    intro st
    have h1 := ih st
    simp only [visit, Refused]
    split
    · rename_i e st1 he; rw [he] at h1
      exact explains_mono h1 (fun _ hd => Or.inl hd)
    · rename_i b st1 he; rw [he] at h1
      split
      · exact explains_mono h1 (fun _ hd => Or.inl hd)
      · rename_i c hc
        have h2 := registerVariable_explains n l c st1
        split
        · rename_i e st2 he2; rw [he2] at h2
          exact explains_trans h1 h2 (fun _ hd => Or.inl hd)
            (fun _ hd => Or.inr ⟨b, st1, c, he, hc, hd⟩)
        · rename_i b2 st2 he2; rw [he2] at h2
          exact explains_trans h1 h2 (fun _ hd => Or.inl hd)
            (fun _ hd => Or.inr ⟨b, st1, c, he, hc, hd⟩)
  | functionDefinition l n as rs a bl body ih =>
    intro st
    have h1 := enterFunction_explains l n as rs a st
    have s1 : ∀ d, ((∃ c, st.m_currentScope = some c ∧ RefusedAt st c "Function" n l d) ∨
        (∃ c sc r st2, st.m_currentScope = some c ∧ st.heap[c]? = some sc ∧
          createScope (some a) (some c) (functionNameStep st c sc l n as.length rs.length).2.1 =
            Result.ok r st2 ∧
          RefusedAmong st2 r (as ++ rs) l d)) →
        Refused (Statement.functionDefinition l n as rs a bl body) st d := by
      intro d hd
      simp only [Refused]
      rcases hd with h | h
      · exact Or.inl h
      · exact Or.inr (Or.inl h)
    simp only [visit]
    split
    · rename_i e st1 he; rw [he] at h1; exact explains_mono h1 s1
    · rename_i b st1 he; rw [he] at h1
      have h2 := visitBlock_explains a body (visitStatements_explains_of body ih) st1
      have s2 : ∀ d, (∃ r st2, createScope (some a) st1.m_currentScope st1 = Result.ok r st2 ∧
          RefusedStatements body (st2.withCurrent (some r)) d) →
          Refused (Statement.functionDefinition l n as rs a bl body) st d := by
        rintro d ⟨r, st2, hcs, hd⟩
        simp only [Refused]
        exact Or.inr (Or.inr ⟨b, st1, r, st2, he, hcs, hd⟩)
      split
      · rename_i e st2 he2; rw [he2] at h2; exact explains_trans h1 h2 s1 s2
      · rename_i b2 st2 he2; rw [he2] at h2; exact explains_trans h1 h2 s1 s2
  | block a l stmts ih =>
    intro st
    simp only [visit, Refused]
    exact visitBlock_explains a stmts (visitStatements_explains_of stmts ih) st

theorem refusedAmong_mem {st : State} {r : ScopeRef} {ns : List String} {l : SourceLocation}
    {d : Declaration} (h : RefusedAmong st r ns l d) : d ∈ ns.map (variableRequest l) := by
  obtain ⟨sc, -, hrej, hd⟩ := h
  obtain ⟨n, hn, e⟩ := List.mem_map.mp (mem_rejected hrej)
  have : n = d.name := congrArg Prod.fst e
  rw [hd, ← this]
  exact List.mem_map_of_mem _ hn

theorem refusedStatements_mem (l : List Statement)
    (hl : ∀ s ∈ l, ∀ st d, Refused s st d → d ∈ requestsOf s) :
    ∀ st d, RefusedStatements l st d → d ∈ requestsOfList l := by
  induction l with
  | nil => intro st d h; simp only [RefusedStatements] at h
  | cons s rest ih =>
    intro st d h
    simp only [RefusedStatements] at h
    rw [requestsOfList_cons]
    rcases h with h | ⟨b, st1, -, h⟩
    · exact List.mem_append_left _ (hl s (List.mem_cons_self _ _) st d h)
    · exact List.mem_append_right _ (ih (fun s hs => hl s (List.mem_cons_of_mem _ hs)) st1 d h)

theorem refusedReversed_mem (l : List Statement)
    (hl : ∀ s ∈ l, ∀ st d, Refused s st d → d ∈ requestsOf s) :
    ∀ st d, RefusedReversed l st d → d ∈ requestsOfList l := by
  induction l with
  | nil => intro st d h; simp only [RefusedReversed] at h
  | cons s rest ih =>
    intro st d h
    simp only [RefusedReversed] at h
    rw [requestsOfList_cons]
    rcases h with h | ⟨b, st1, -, h⟩
    · exact List.mem_append_right _ (ih (fun s hs => hl s (List.mem_cons_of_mem _ hs)) st d h)
    · exact List.mem_append_left _ (hl s (List.mem_cons_self _ _) st1 d h)

/-- A refused request of a statement is one of its registration requests. -/
theorem refused_mem_requestsOf : ∀ (s : Statement) (st : State) (d : Declaration),
    Refused s st d → d ∈ requestsOf s := by
  intro s
  induction s using Statement.induction with
  | instruction l i => intro st d h; simp only [Refused] at h
  | literal l n v => intro st d h; simp only [Refused] at h
  | identifier l n => intro st d h; simp only [Refused] at h
  | label l n si =>
    intro st d h
    simp only [Refused] at h
    simp only [requestsOf]
    rcases h with ⟨c, -, hd, -⟩ | ⟨c, sc, -, -, -, -, h⟩
    · rw [hd]; exact List.mem_cons_self _ _
    · exact List.mem_cons_of_mem _ (refusedAmong_mem h)
  | functionalAssignment l n v ih =>
    intro st d h; simp only [Refused] at h; simp only [requestsOf]; exact ih st d h
  | functionCall l f args ih =>
    intro st d h; simp only [Refused] at h; simp only [requestsOf]
    exact refusedReversed_mem args ih st d h
  | functionalInstruction l i args ih =>
    intro st d h; simp only [Refused] at h; simp only [requestsOf]
    exact refusedReversed_mem args ih st d h
  | variableDeclaration l n v ih =>
    intro st d h
    simp only [Refused] at h
    simp only [requestsOf]
    rcases h with h | ⟨b, st1, c, -, -, hd, -⟩
    · exact List.mem_append_left _ (ih st d h)
    · rw [hd]; exact List.mem_append_right _ (List.mem_singleton.mpr rfl)
  | functionDefinition l n as rs a bl body ih =>
    intro st d h
    simp only [Refused] at h
    simp only [requestsOf]
    rcases h with ⟨c, -, hd, -⟩ | ⟨c, sc, r, st2, -, -, -, h⟩ | ⟨b, st1, r, st2, -, -, h⟩
    · rw [hd]; exact List.mem_cons_self _ _
    · exact List.mem_cons_of_mem _ (List.mem_append_left _ (refusedAmong_mem h))
    · exact List.mem_cons_of_mem _ (List.mem_append_right _ (refusedStatements_mem body ih _ d h))
  | block a l stmts ih =>
    intro st d h
    simp only [Refused] at h
    simp only [requestsOf]
    obtain ⟨r, st1, -, h⟩ := h
    exact refusedStatements_mem stmts ih _ d h

/-! ## Claims about the content of the records -/

theorem requestsOfList_kind (l : List Statement)
    (hl : ∀ s ∈ l, ∀ d ∈ requestsOf s,
      d.kind = "Variable" ∨ d.kind = "Label" ∨ d.kind = "Function") :
    ∀ d ∈ requestsOfList l, d.kind = "Variable" ∨ d.kind = "Label" ∨ d.kind = "Function" := by
  induction l with
  | nil => intro d hd; simp [requestsOfList] at hd
  | cons s rest ih =>
    intro d hd
    rw [requestsOfList_cons] at hd
    rcases List.mem_append.mp hd with h | h
    · exact hl s (List.mem_cons_self _ _) d h
    · exact ih (fun s hs => hl s (List.mem_cons_of_mem _ hs)) d h

theorem variableRequest_kind {l : SourceLocation} {ns : List String} {d : Declaration}
    (hd : d ∈ ns.map (variableRequest l)) : d.kind = "Variable" := by
  obtain ⟨n, -, rfl⟩ := List.mem_map.mp hd
  rfl

/-- Every registration request is for a variable, a label or a function. -/
theorem requestsOf_kind : ∀ s : Statement, ∀ d ∈ requestsOf s,
    d.kind = "Variable" ∨ d.kind = "Label" ∨ d.kind = "Function" := by
  intro s
  induction s using Statement.induction with
  | instruction l i => intro d hd; simp [requestsOf] at hd
  | literal l n v => intro d hd; simp [requestsOf] at hd
  | identifier l n => intro d hd; simp [requestsOf] at hd
  | label l n si =>
    intro d hd
    simp only [requestsOf] at hd
    rcases List.mem_cons.mp hd with h | h
    · rw [h]; exact Or.inr (Or.inl rfl)
    · exact Or.inl (variableRequest_kind h)
  | functionalAssignment l n v ih => intro d hd; simp only [requestsOf] at hd; exact ih d hd
  | functionCall l f args ih =>
    intro d hd; simp only [requestsOf] at hd; exact requestsOfList_kind args ih d hd
  | functionalInstruction l i args ih =>
    intro d hd; simp only [requestsOf] at hd; exact requestsOfList_kind args ih d hd
  | variableDeclaration l n v ih =>
    intro d hd
    simp only [requestsOf] at hd
    rcases List.mem_append.mp hd with h | h
    · exact ih d h
    · rw [List.mem_singleton.mp h]; exact Or.inl rfl
  | functionDefinition l n as rs a bl body ih =>
    intro d hd
    simp only [requestsOf] at hd
    rcases List.mem_cons.mp hd with h | h
    · rw [h]; exact Or.inr (Or.inr rfl)
    · rcases List.mem_append.mp h with h | h
      · exact Or.inl (variableRequest_kind h)
      · exact requestsOfList_kind body ih d h
  | block a l stmts ih =>
    intro d hd; simp only [requestsOf] at hd; exact requestsOfList_kind stmts ih d hd

/-- C18: for every statement and starting state, the sink after the visit (returned or
stopped) is the sink before followed by the appended records, and every appended record is a
`DeclarationError` for one registration request of the statement that was refused, its name
being already in the table of the scope it was made to at that moment: the message is
"Variable name N already taken in this scope.", "Label name N ..." or "Function name N ..."
with the kind and the name N of the refused request, and the location is the one of the
request, that is of the variable declaration, of the label (for its name and for its
stack-info tokens) or of the function definition (for its name and for its parameters and
return variables). -/
theorem appended_records_are_declaration_errors (s : Statement) (st : State) :
    (visit s st).state.m_errors = st.m_errors ++ appended s st ∧
    ∀ e ∈ appended s st,
      e.type = ErrorType.DeclarationError ∧
      ∃ d ∈ requestsOf s,
        (d.kind = "Variable" ∨ d.kind = "Label" ∨ d.kind = "Function") ∧
        e.message = d.kind ++ " name " ++ d.name ++ " already taken in this scope." ∧
        e.location = d.location ∧
        Refused s st d := by
  refine ⟨errors_append_appended s st, ?_⟩
  intro e he
  obtain ⟨new, h1, h2⟩ := visit_explains s st
  have : appended s st = new := by
    unfold appended
    rw [h1, List.drop_left]
  rw [this] at he
  obtain ⟨d, hd, rfl⟩ := h2 e he
  have hmem := refused_mem_requestsOf s st d hd
  exact ⟨rfl, d, hmem, requestsOf_kind s d hmem, rfl, rfl, hd⟩

/-- Witness for C18: the function `f(a) -> a` defined at the location 5..9 inside a block, in a
fresh filler: the record for the repeated `a` is a declaration error with the message
"Variable name a already taken in this scope." at the location of the function definition, and
it is for a refused request. -/
theorem appended_records_are_declaration_errors_witness :
    ({ type := ErrorType.DeclarationError,
       message := "Variable name a already taken in this scope.",
       location := { start := 5, stop := 9, sourceName := "" } } : Error) ∈
      appended (Statement.block 1 sampleLocation
        [Statement.functionDefinition { start := 5, stop := 9, sourceName := "" } "f" ["a"] ["a"]
          2 sampleLocation []]) (freshFiller []) ∧
    ∃ d ∈ requestsOf (Statement.block 1 sampleLocation
        [Statement.functionDefinition { start := 5, stop := 9, sourceName := "" } "f" ["a"] ["a"]
          2 sampleLocation []]),
      (d.kind = "Variable" ∨ d.kind = "Label" ∨ d.kind = "Function") ∧
      "Variable name a already taken in this scope." =
        d.kind ++ " name " ++ d.name ++ " already taken in this scope." ∧
      ({ start := 5, stop := 9, sourceName := "" } : SourceLocation) = d.location ∧
      Refused (Statement.block 1 sampleLocation
        [Statement.functionDefinition { start := 5, stop := 9, sourceName := "" } "f" ["a"] ["a"]
          2 sampleLocation []]) (freshFiller []) d :=
  ⟨by decide,
   ((appended_records_are_declaration_errors (Statement.block 1 sampleLocation
      [Statement.functionDefinition { start := 5, stop := 9, sourceName := "" } "f" ["a"] ["a"]
        2 sampleLocation []]) (freshFiller [])).2
      { type := ErrorType.DeclarationError,
        message := "Variable name a already taken in this scope.",
        location := { start := 5, stop := 9, sourceName := "" } } (by decide)).2⟩

/-! ## Registration requests without repetition -/

theorem accepted_append (d1 d2 : List (String × SourceLocation)) :
    ∀ seen, accepted seen (d1 ++ d2) =
      accepted seen d1 ++ accepted (seen ++ accepted seen d1) d2 := by
  induction d1 with
  | nil => intro seen; simp [accepted]
  | cons d rest ih =>
    intro seen
    by_cases hd : d.1 ∈ seen
    · rw [List.cons_append]
      simp only [accepted, hd, if_true, ih seen]
    · rw [List.cons_append]
      simp only [accepted, hd, if_false, ih (seen ++ [d.1]), List.append_assoc,
        List.singleton_append, List.cons_append, List.nil_append]

theorem rejected_append (d1 d2 : List (String × SourceLocation)) :
    ∀ seen, rejected seen (d1 ++ d2) =
      rejected seen d1 ++ rejected (seen ++ accepted seen d1) d2 := by
  induction d1 with
  | nil => intro seen; simp [accepted, rejected]
  | cons d rest ih =>
    intro seen
    by_cases hd : d.1 ∈ seen
    · rw [List.cons_append]
      simp only [accepted, rejected, hd, if_true, ih seen, List.cons_append]
    · rw [List.cons_append]
      simp only [accepted, rejected, hd, if_false, ih (seen ++ [d.1]), List.append_assoc,
        List.singleton_append, List.cons_append, List.nil_append]

/-- Requests for names without repetition: those already seen are refused, the others are
accepted. -/
theorem requests_nodup (l : SourceLocation) (ns : List String) (hnd : ns.Nodup) :
    ∀ seen, accepted seen (ns.map (fun n => (n, l))) = ns.filter (fun n => decide (n ∉ seen)) ∧
      rejected seen (ns.map (fun n => (n, l))) =
        (ns.filter (fun n => decide (n ∈ seen))).map (fun n => (n, l)) := by
  induction ns with
  | nil => intro seen; simp [accepted, rejected]
  | cons n rest ih =>
    intro seen
    obtain ⟨hn, hrest⟩ := List.nodup_cons.mp hnd
    by_cases hs : n ∈ seen
    · obtain ⟨h1, h2⟩ := ih hrest seen
      simp [accepted, rejected, hs, h1, h2]
    · obtain ⟨h1, h2⟩ := ih hrest (seen ++ [n])
      have e1 : rest.filter (fun m => decide (m ∉ seen ++ [n])) =
          rest.filter (fun m => decide (m ∉ seen)) := by
        apply List.filter_congr
        intro m hm
        have : m ≠ n := fun e => hn (e ▸ hm)
        simp [this]
      have e2 : rest.filter (fun m => decide (m ∈ seen ++ [n])) =
          rest.filter (fun m => decide (m ∈ seen)) := by
        apply List.filter_congr
        intro m hm
        have : m ≠ n := fun e => hn (e ▸ hm)
        simp [this]
      simp only [List.map_cons, accepted, rejected, hs, if_false, h1, h2, e1, e2]
      simp [hs]

/-- In a list without repetition, the elements that satisfy a condition met by `x` alone. -/
theorem filter_eq_singleton {p : String → Bool} {x : String} :
    ∀ {ns : List String}, ns.Nodup → x ∈ ns → p x = true → (∀ y ∈ ns, p y = true → y = x) →
      ns.filter p = [x] := by
  intro ns
  induction ns with
  | nil => intro _ hx; simp at hx
  | cons n rest ih =>
    intro hnd hx hp hu
    obtain ⟨hn, hrest⟩ := List.nodup_cons.mp hnd
    by_cases hnx : n = x
    · subst hnx
      have : rest.filter p = [] := by
        rw [List.filter_eq_nil_iff]
        intro y hy hpy
        have := hu y (List.mem_cons_of_mem _ hy) hpy
        exact hn (this ▸ hy)
      simp [List.filter, hp, this]
    · have hpn : p n = false := by
        cases h : p n with
        | false => rfl
        | true => exact absurd (hu n (List.mem_cons_self _ _) h) hnx
      have hx' : x ∈ rest := by
        rcases List.mem_cons.mp hx with h | h
        · exact absurd h.symm hnx
        · exact h
      simp [List.filter, hpn, ih hrest hx' hp (fun y hy => hu y (List.mem_cons_of_mem _ hy))]

/-- The requests of a parameter list and a return list that have no repetition of their own
and share the one name `x`: only the request for `x` among the returns is refused. -/
theorem requests_sharing_one (l : SourceLocation) {as rs : List String} {x : String}
    (ha : as.Nodup) (hr : rs.Nodup) (hxa : x ∈ as) (hxr : x ∈ rs)
    (hu : ∀ y, y ∈ as → y ∈ rs → y = x) :
    accepted [] ((as ++ rs).map (fun n => (n, l))) = as ++ rs.filter (fun n => decide (n ∉ as)) ∧
    rejected [] ((as ++ rs).map (fun n => (n, l))) = [(x, l)] := by
  obtain ⟨a1, a2⟩ := requests_nodup l as ha []
  obtain ⟨r1, r2⟩ := requests_nodup l rs hr ([] ++ as)
  have a1' : accepted [] (as.map (fun n => (n, l))) = as := by
    rw [a1]; simp
  have a2' : rejected [] (as.map (fun n => (n, l))) = [] := by
    rw [a2]; simp
  have hf : rs.filter (fun n => decide (n ∈ as)) = [x] :=
    filter_eq_singleton hr hxr (by simpa using hxa)
      (fun y hy hp => hu y (by simpa using hp) hy)
  rw [List.map_append, accepted_append, rejected_append, a1', a2']
  simp only [List.nil_append] at r1 r2 ⊢
  rw [r1, r2, hf]
  exact ⟨rfl, rfl⟩

/-! ## Claims about function definitions with duplicates -/

theorem setScope_facts (st : State) (r : ScopeRef) (sc : Scope) :
    (st.setScope r sc).m_scopes = st.m_scopes ∧ (st.setScope r sc).m_errors = st.m_errors ∧
    (st.setScope r sc).m_currentScope = st.m_currentScope ∧
    (st.setScope r sc).heap.length = st.heap.length :=
  ⟨rfl, rfl, rfl, by simp [State.setScope]⟩

theorem afterEnterFunction_outer {st : State} {c : ScopeRef} {csc : Scope} (a : Nat)
    (ds : List (String × SourceLocation)) (hc : st.heap[c]? = some csc)
    (hk : mapFind (some a) st.m_scopes = none) :
    (afterEnterFunction st c csc a ds).heap[c]? =
      some { csc with subScopes := csc.subScopes ++ [st.heap.length] } ∧
    (afterEnterFunction st c csc a ds).m_errors =
      st.m_errors ++ (rejected [] ds).map (fun d => declarationError "Variable" d.1 d.2) ∧
    (∀ r, r < st.heap.length → r ≠ c →
      (afterEnterFunction st c csc a ds).heap[r]? = st.heap[r]?) := by
  obtain ⟨-, w2, -, w4, w5, -, -⟩ := withNewScope_facts a hc hk
  have hlt : c < st.heap.length := (List.getElem?_eq_some.mp hc).1
  have hh : (afterEnterFunction st c csc a ds).heap =
      (withNewScope st (some a) c csc).heap.set st.heap.length
        ((functionScopeUnder c).addVariables (accepted (functionScopeUnder c).names ds)) := by
    simp [afterEnterFunction, afterRegistrations, State.setScope]
  refine ⟨?_, rfl, ?_⟩
  · rw [hh, List.getElem?_set_ne (Nat.ne_of_gt hlt), w4]
  · intro r hr hne
    rw [hh, List.getElem?_set_ne (Nat.ne_of_gt hr), w5 r hr hne]

/-- C12: a function definition with a name that is free in the current scope `c`, an empty
body whose block has no scope yet, and parameter and return lists that are each without
repetition and share exactly the name `x`: the visit returns false and appends the one record
"Variable name x already taken in this scope."; the body gets a new scope under `c`, flagged as
function scope, whose table has one `Variable` entry for each parameter and for each return
variable other than `x`; and `c` gets the entry of the function with the numbers of parameters
and of return variables. -/
theorem parameter_shared_with_return (st : State) (c : ScopeRef) (csc : Scope)
    (location : SourceLocation) (name : String) (arguments returns : List String) (x : String)
    (bodyAddr : Nat) (bodyLocation : SourceLocation)
    (hc : st.m_currentScope = some c) (hsc : st.heap[c]? = some csc) (hname : name ∉ csc.names)
    (hbody : mapFind (some bodyAddr) st.m_scopes = none)
    (ha : arguments.Nodup) (hr : returns.Nodup) (hxa : x ∈ arguments) (hxr : x ∈ returns)
    (hu : ∀ y, y ∈ arguments → y ∈ returns → y = x) :
    ∃ st' fsc csc',
      visit (Statement.functionDefinition location name arguments returns bodyAddr bodyLocation
        []) st = Result.ok false st' ∧
      st'.m_errors = st.m_errors ++
        [{ type := ErrorType.DeclarationError,
           message := "Variable name " ++ x ++ " already taken in this scope.",
           location := location }] ∧
      ScopeOf st' bodyAddr st.heap.length ∧ st'.heap.length = st.heap.length + 1 ∧
      st'.heap[st.heap.length]? = some fsc ∧
      fsc.superScope = some c ∧ fsc.functionScope = true ∧
      fsc.identifiers = (arguments ++ returns.filter (fun n => decide (n ∉ arguments))).map
        (fun n => (n, Identifier.Variable)) ∧
      fsc.names.Nodup ∧ (∀ n, n ∈ fsc.names ↔ n ∈ arguments ++ returns) ∧
      st'.heap[c]? = some csc' ∧
      csc'.identifiers = csc.identifiers ++
        [(name, Identifier.Function arguments.length returns.length)] ∧
      mapFind name csc'.identifiers =
        some (Identifier.Function arguments.length returns.length) ∧
      st'.m_currentScope = some c := by
  have he := enterFunction_new location name arguments returns bodyAddr hc hsc hbody
  have hstep : functionNameStep st c csc location name arguments.length returns.length =
      (true, st.setScope c (csc.add name (Identifier.Function arguments.length returns.length)),
        csc.add name (Identifier.Function arguments.length returns.length)) := by
    simp [functionNameStep, hname]
  rw [hstep] at he
  simp only at he
  obtain ⟨q1, q2⟩ := requests_sharing_one location ha hr hxa hxr hu
  generalize hds : (arguments ++ returns).map (fun n => (n, location)) = ds at he q1 q2
  generalize hcsc : csc.add name (Identifier.Function arguments.length returns.length) = csc_a
    at he
  obtain ⟨s1, s2, s3, s4⟩ := setScope_facts st c csc_a
  have hca : (st.setScope c csc_a).heap[c]? = some csc_a := getElem?_setScope_self _ hsc
  have hk_a : mapFind (some bodyAddr) (st.setScope c csc_a).m_scopes = none := by rw [s1, hbody]
  obtain ⟨f1, f2, f3, f4⟩ := afterEnterFunction_facts bodyAddr ds hca hk_a
  obtain ⟨g1, g2, -⟩ := afterEnterFunction_outer bodyAddr ds hca hk_a
  rw [s4] at f1 f2 f3 g1
  have f4' : (afterEnterFunction (st.setScope c csc_a) c csc_a bodyAddr ds).m_currentScope =
      some c := by rw [f4, s3, hc]
  have hnames : ((functionScopeUnder c).addVariables (accepted [] ds)).names =
      arguments ++ returns.filter (fun n => decide (n ∉ arguments)) := by
    rw [addVariables_names, q1]; rfl
  refine ⟨(afterEnterFunction (st.setScope c csc_a) c csc_a bodyAddr ds).withCurrent (some c),
    (functionScopeUnder c).addVariables (accepted [] ds),
    { csc_a with subScopes := csc_a.subScopes ++ [st.heap.length] },
    ?_, ?_, f1, f2, f3, rfl, rfl, ?_, ?_, ?_, g1, ?_, ?_, rfl⟩
  · simp only [visit, he]
    rw [visitBlock_existing bodyAddr _ f4' f1 f3 rfl]
    simp [visitStatements, q2]
    rfl
  · show (afterEnterFunction (st.setScope c csc_a) c csc_a bodyAddr ds).m_errors = _
    rw [g2, q2, s2]
    simp [declarationError, String.append_assoc]
  · rw [q1]; rfl
  · rw [hnames]
    refine List.Nodup.append ha (hr.filter _) ?_
    intro n h1 h2
    have := (List.mem_filter.mp h2).2
    simp at this
    exact this h1
  · intro n
    rw [hnames]
    simp only [List.mem_append, List.mem_filter, decide_eq_true_eq]
    constructor
    · rintro (h | ⟨h, -⟩)
      · exact Or.inl h
      · exact Or.inr h
    · rintro (h | h)
      · exact Or.inl h
      · by_cases hn : n ∈ arguments
        · exact Or.inl hn
        · exact Or.inr ⟨h, hn⟩
  · rw [← hcsc]; rfl
  · rw [← hcsc]
    show mapFind name (csc.identifiers ++ _) = _
    rw [mapFind_append_of_none _ (mapFind_of_not_mem_names hname)]
    simp [mapFind]

/-- Witness for C12: the function `f(a, b) -> a, r` with an empty body at address 7, defined
in a fresh filler: the visit returns false with the one record for `a`, the body's scope holds
`a`, `b` and `r`, and the root scope gets `f` with two parameters and two return variables. -/
theorem parameter_shared_with_return_witness :
    ∃ st' fsc csc',
      visit (Statement.functionDefinition sampleLocation "f" ["a", "b"] ["a", "r"] 7
        sampleLocation []) (freshFiller []) = Result.ok false st' ∧
      st'.m_errors = [declarationError "Variable" "a" sampleLocation] ∧
      st'.heap[1]? = some fsc ∧
      fsc.identifiers = [("a", Identifier.Variable), ("b", Identifier.Variable),
        ("r", Identifier.Variable)] ∧
      st'.heap[0]? = some csc' ∧
      mapFind "f" csc'.identifiers = some (Identifier.Function 2 2) := by
  obtain ⟨st', fsc, csc', h1, h2, -, -, h3, -, -, h4, -, -, h5, -, h6, -⟩ :=
    parameter_shared_with_return (freshFiller []) 0 rootScope sampleLocation "f" ["a", "b"]
      ["a", "r"] "a" 7 sampleLocation rfl rfl (by decide) (by decide) (by decide) (by decide)
      (by decide) (by decide) (by
        intro y h1 h2
        simp at h1 h2
        rcases h1 with rfl | rfl
        · rfl
        · simp at h2)
  exact ⟨st', fsc, csc', h1, h2, h3, h4, h5, h6⟩

/-! ## Tables have one entry per name -/

theorem tablesNodup_of_eq {st st' : State} (hh : st'.heap = st.heap) (h : TablesNodup st) :
    TablesNodup st' := fun r sc hr => h r sc (by rw [← hh]; exact hr)

theorem tablesNodup_set {st : State} {c : ScopeRef} {sc' : Scope} (h : TablesNodup st)
    (hn : sc'.names.Nodup) : TablesNodup (st.setScope c sc') := by
  intro r sc hr
  simp only [State.setScope, List.getElem?_set] at hr
  split at hr
  · split at hr
    · cases hr; exact hn
    · exact absurd hr (by simp)
  · exact h r sc hr

theorem names_add (sc : Scope) (n : String) (i : Identifier) :
    (sc.add n i).names = sc.names ++ [n] := by
  simp [Scope.names, Scope.add]

theorem nodup_add {sc : Scope} {n : String} (i : Identifier) (h : sc.names.Nodup)
    (hn : n ∉ sc.names) : (sc.add n i).names.Nodup := by
  rw [names_add]
  refine List.Nodup.append h (List.nodup_singleton n) ?_
  intro m h1 h2
  rw [List.mem_singleton.mp h2] at h1
  exact hn h1

theorem nodup_addVariables {sc : Scope} (ds : List (String × SourceLocation))
    (h : sc.names.Nodup) : (sc.addVariables (accepted sc.names ds)).names.Nodup := by
  rw [addVariables_names]
  refine List.Nodup.append h (accepted_nodup _ _) ?_
  intro m h1 h2
  exact (mem_accepted.mp h2).1 h1

theorem tablesNodup_afterRegistrations {st : State} {c : ScopeRef} {sc : Scope}
    (ds : List (String × SourceLocation)) (h : TablesNodup st) (hn : sc.names.Nodup) :
    TablesNodup (afterRegistrations st c sc ds) :=
  @tablesNodup_of_eq (st.setScope c (sc.addVariables (accepted sc.names ds))) _ rfl
    (tablesNodup_set h (nodup_addVariables ds hn))

theorem scopeSlot_keepsNodup (k : BlockPtr) (st : State) (h : TablesNodup st) :
    TablesNodup (scopeSlot k st).2 := by
  unfold scopeSlot
  split
  · exact h
  · intro r sc hr
    simp only [List.getElem?_append] at hr
    split at hr
    · exact h r sc hr
    · have : sc = Scope.empty := by
        rcases List.getElem?_eq_some.mp hr with ⟨h1, h2⟩
        simp only [List.length_singleton] at h1
        have h0 : r - st.heap.length = 0 := Nat.lt_one_iff.mp h1
        simp [h0] at h2
        exact h2.symm
      rw [this]
      exact List.nodup_nil

theorem linkScope_keepsNodup {s : ScopeRef} {p : Option ScopeRef} {st st' : State}
    {r : ScopeRef} (h : linkScope s p st = Result.ok r st') (hn : TablesNodup st) :
    TablesNodup st' := by
  unfold linkScope at h
  split at h
  · exact absurd h (by simp)
  · rename_i sc hsc
    have hs : ({ sc with superScope := p } : Scope).names.Nodup := hn s sc hsc
    split at h
    · split at h
      · simp at h; obtain ⟨-, rfl⟩ := h
        exact tablesNodup_set hn (hn s sc hsc)
      · rename_i q
        simp only at h
        split at h
        · exact absurd h (by simp)
        · rename_i qsc hq
          simp at h; obtain ⟨-, rfl⟩ := h
          have e1 : TablesNodup (st.setScope s { sc with superScope := some q }) :=
            tablesNodup_set hn (hn s sc hsc)
          exact @tablesNodup_set (st.setScope s { sc with superScope := some q }) q _ e1
            (e1 q qsc hq)
    · split at h
      · simp at h; obtain ⟨-, rfl⟩ := h
        exact hn
      · exact absurd h (by simp)

theorem createScope_keepsNodup {k : BlockPtr} {p : Option ScopeRef} {st st' : State}
    {r : ScopeRef} (h : createScope k p st = Result.ok r st') (hn : TablesNodup st) :
    TablesNodup st' := by
  unfold createScope at h
  exact linkScope_keepsNodup h (scopeSlot_keepsNodup k st hn)

theorem registerVariable_keepsNodup {n : String} {l : SourceLocation} {r : ScopeRef}
    {st st' : State} {b : Bool} (h : registerVariable n l r st = Result.ok b st') :
    KeepsNodup b st st' := by
  intro hn
  obtain ⟨sc, hsc, ⟨-, -, rfl⟩ | ⟨hfree, -, rfl⟩⟩ := registerVariable_ok_inv h
  · exact tablesNodup_of_eq rfl hn
  · exact tablesNodup_set hn (nodup_add _ (hn r sc hsc) hfree)

theorem visitLabel_keepsNodup {n : String} {l : SourceLocation} {si : List String}
    {st st' : State} {b : Bool} (h : visitLabel l n si st = Result.ok b st') :
    KeepsNodup b st st' := by
  intro hn
  obtain ⟨c, sc, -, hsc, ⟨-, -, rfl⟩ | ⟨hfree, i, ds, rfl⟩⟩ := visitLabel_ok_inv h
  · exact tablesNodup_of_eq rfl hn
  · exact tablesNodup_afterRegistrations ds
      (tablesNodup_set hn (nodup_add i (hn c sc hsc) hfree)) (nodup_add i (hn c sc hsc) hfree)

theorem functionNameStep_keepsNodup (st : State) (c : ScopeRef) (sc : Scope)
    (l : SourceLocation) (n : String) (na nr : Nat) (hsc : st.heap[c]? = some sc)
    (hn : TablesNodup st) : TablesNodup (functionNameStep st c sc l n na nr).2.1 := by
  unfold functionNameStep
  split
  · exact tablesNodup_of_eq rfl hn
  · rename_i hfree
    exact tablesNodup_set hn (nodup_add _ (hn c sc hsc) hfree)

theorem enterFunction_keepsNodup {l : SourceLocation} {n : String} {as rs : List String}
    {a : Nat} {st st4 : State} {b : Bool}
    (h : enterFunction l n as rs a st = Result.ok b st4) : KeepsNodup b st st4 := by
  intro hn
  obtain ⟨c, sc, body, st2, bsc, hc, hsc, hcs, hb, rfl⟩ := enterFunction_ok_inv h
  have g1 := functionNameStep_keepsNodup st c sc l n as.length rs.length hsc hn
  have g2 := createScope_keepsNodup hcs g1
  have hbn : ({ bsc with functionScope := true } : Scope).names.Nodup := g2 body bsc hb
  exact tablesNodup_afterRegistrations _ (tablesNodup_set g2 hbn) hbn

theorem visitBlock_keepsNodup {addr : Nat} {f : State → Result Bool} {st st' : State} {b : Bool}
    (hf : ∀ st1 b1 st1', f st1 = Result.ok b1 st1' → KeepsNodup b1 st1 st1')
    (h : visitBlock addr f st = Result.ok b st') : KeepsNodup b st st' := by
  intro hn
  unfold visitBlock at h
  split at h
  · exact absurd h (by simp)
  · rename_i s st1 h1
    split at h
    · exact absurd h (by simp)
    · rename_i b2 st2 h2
      simp at h; obtain ⟨rfl, rfl⟩ := h
      have g1 := createScope_keepsNodup h1 hn
      have g2 := hf _ _ _ h2 (tablesNodup_of_eq rfl g1)
      exact tablesNodup_of_eq rfl g2

/-- Every returning visit, started with tables free of repeated names, leaves them so. -/
theorem visit_keepsNodup_all :
    (∀ s st b st', visit s st = Result.ok b st' → KeepsNodup b st st') ∧
    (∀ l st b st', visitStatements l st = Result.ok b st' → KeepsNodup b st st') ∧
    (∀ l st b st', visitReversed l st = Result.ok b st' → KeepsNodup b st st') :=
  visit_rel_all KeepsNodup (fun _ h => h) (fun _ _ _ _ _ h1 h2 h => h2 (h1 h))
    (fun _ _ _ _ _ _ h => visitLabel_keepsNodup h)
    (fun _ _ _ _ _ _ _ h => registerVariable_keepsNodup h)
    (fun _ _ _ _ _ _ _ _ h => enterFunction_keepsNodup h)
    (fun _ _ _ _ _ hf h => visitBlock_keepsNodup hf h)

theorem tablesNodup_fresh (errors : ErrorList) : TablesNodup (freshFiller errors) := by
  intro r sc hr
  have h : (freshFiller errors).heap = [rootScope] := rfl
  rw [h] at hr
  cases r with
  | zero => simp at hr; rw [← hr]; decide
  | succ k => simp at hr

theorem tablesNodup_insideBlock (errors : ErrorList) (a : Nat) :
    TablesNodup (insideBlock errors a) := by
  intro r sc hr
  have h : (insideBlock errors a).heap = [rootWithBlock, childOf 0] := rfl
  rw [h] at hr
  match r with
  | 0 => simp at hr; rw [← hr]; decide
  | 1 => simp at hr; rw [← hr]; decide
  | k + 2 => simp at hr

/-- In a table with one entry per name, the entries for a name that is found are that one. -/
theorem filter_of_mapFind {m : List (String × Identifier)} {k : String} {v : Identifier}
    (hnd : (m.map Prod.fst).Nodup) (h : mapFind k m = some v) :
    m.filter (fun e => decide (e.1 = k)) = [(k, v)] := by
  induction m with
  | nil => simp [mapFind] at h
  | cons e rest ih =>
    rw [List.map_cons] at hnd
    obtain ⟨hn, hrest⟩ := List.nodup_cons.mp hnd
    by_cases he : e.1 = k
    · simp only [mapFind, he, if_true, Option.some.injEq] at h
      have hnone : rest.filter (fun e => decide (e.1 = k)) = [] := by
        rw [List.filter_eq_nil_iff]
        intro x hx hxk
        simp only [decide_eq_true_eq] at hxk
        exact hn (by rw [he, ← hxk]; exact List.mem_map_of_mem _ hx)
      have hek : e = (k, v) := by rw [← he, ← h]
      simp [List.filter, he, hnone, hek]
    · simp only [mapFind, he, if_false] at h
      simp [List.filter, he, ih hrest h]

/-! ## Tables are only extended -/

theorem scopeExtends_refl (sc : Scope) : ScopeExtends sc sc := ⟨[], by simp⟩

theorem scopeExtends_trans {sc sc1 sc2 : Scope} (h1 : ScopeExtends sc sc1)
    (h2 : ScopeExtends sc1 sc2) : ScopeExtends sc sc2 := by
  obtain ⟨e1, p1⟩ := h1
  obtain ⟨e2, p2⟩ := h2
  exact ⟨e1 ++ e2, by rw [p2, p1, List.append_assoc]⟩

theorem extends_refl (b : Bool) (st : State) : Extends b st st :=
  fun _ sc h => ⟨sc, h, scopeExtends_refl sc⟩

theorem extends_trans {b : Bool} {st st1 st2 : State} (h1 : Extends b st st1)
    (h2 : Extends b st1 st2) : Extends b st st2 := by
  intro r sc h
  obtain ⟨sc1, a1, g1⟩ := h1 r sc h
  obtain ⟨sc2, a2, g2⟩ := h2 r sc1 a1
  exact ⟨sc2, a2, scopeExtends_trans g1 g2⟩

theorem extends_and {b1 b2 : Bool} {st st1 st2 : State} (h1 : Extends b1 st st1)
    (h2 : Extends b2 st1 st2) : Extends (b1 && b2) st st2 := by
  intro r sc h
  obtain ⟨sc1, a1, g1⟩ := h1 r sc h
  obtain ⟨sc2, a2, g2⟩ := h2 r sc1 a1
  exact ⟨sc2, a2, scopeExtends_trans g1 g2⟩

theorem extends_of_eq (b : Bool) {st st' : State} (hh : st'.heap = st.heap) : Extends b st st' :=
  fun _ sc h => ⟨sc, by rw [hh]; exact h, scopeExtends_refl sc⟩

theorem extends_of_set (b : Bool) {st st' : State} {c : ScopeRef} {sc sc' : Scope}
    (h : st.heap[c]? = some sc) (hh : st'.heap = st.heap.set c sc')
    (hg : ScopeExtends sc sc') : Extends b st st' := by
  have hlt : c < st.heap.length := (List.getElem?_eq_some.mp h).1
  intro r sc0 h0
  by_cases e : c = r
  · subst e
    rw [h] at h0; cases h0
    exact ⟨sc', by rw [hh, List.getElem?_set]; simp [hlt], hg⟩
  · exact ⟨sc0, by rw [hh, List.getElem?_set]; simp [e, h0], scopeExtends_refl sc0⟩

theorem extends_afterRegistrations (b : Bool) {st : State} {c : ScopeRef} {sc0 : Scope}
    (sc : Scope) (ds : List (String × SourceLocation)) (h : st.heap[c]? = some sc0)
    (hg : ScopeExtends sc0 sc) : Extends b st (afterRegistrations st c sc ds) :=
  extends_of_set b h rfl (scopeExtends_trans hg ⟨_, rfl⟩)

theorem extends_setScope_add (b : Bool) {st : State} {c : ScopeRef} {sc : Scope} (n : String)
    (i : Identifier) (h : st.heap[c]? = some sc) : Extends b st (st.setScope c (sc.add n i)) :=
  extends_of_set b h rfl ⟨_, rfl⟩

theorem scopeSlot_extends (b : Bool) (k : BlockPtr) (st : State) :
    Extends b st (scopeSlot k st).2 := by
  unfold scopeSlot
  split
  · exact extends_refl b st
  · intro r sc h
    have hlt : r < st.heap.length := (List.getElem?_eq_some.mp h).1
    exact ⟨sc, by simp [List.getElem?_append_left, hlt, h], scopeExtends_refl sc⟩

theorem linkScope_extends (b : Bool) {s : ScopeRef} {p : Option ScopeRef} {st st' : State}
    {r : ScopeRef} (h : linkScope s p st = Result.ok r st') : Extends b st st' := by
  unfold linkScope at h
  split at h
  · exact absurd h (by simp)
  · rename_i sc hsc
    split at h
    · split at h
      · simp at h; obtain ⟨-, rfl⟩ := h
        exact extends_of_set b hsc rfl ⟨[], by simp⟩
      · rename_i q
        simp only at h
        split at h
        · exact absurd h (by simp)
        · rename_i qsc hq
          simp at h; obtain ⟨-, rfl⟩ := h
          have e1 : Extends b st (st.setScope s { sc with superScope := some q }) :=
            extends_of_set b hsc rfl ⟨[], by simp⟩
          have e2 : Extends b (st.setScope s { sc with superScope := some q })
              ((st.setScope s { sc with superScope := some q }).setScope q
                { qsc with subScopes := qsc.subScopes ++ [s] }) :=
            extends_of_set b hq rfl ⟨[], by simp⟩
          exact extends_trans e1 e2
    · split at h
      · simp at h; obtain ⟨-, rfl⟩ := h
        exact extends_refl b _
      · exact absurd h (by simp)

theorem createScope_extends (b : Bool) {k : BlockPtr} {p : Option ScopeRef} {st st' : State}
    {r : ScopeRef} (h : createScope k p st = Result.ok r st') : Extends b st st' := by
  unfold createScope at h
  exact extends_trans (scopeSlot_extends b k st) (linkScope_extends b h)

theorem registerVariable_extends {n : String} {l : SourceLocation} {r : ScopeRef}
    {st st' : State} {b : Bool} (h : registerVariable n l r st = Result.ok b st') :
    Extends b st st' := by
  obtain ⟨sc, hsc, ⟨-, -, rfl⟩ | ⟨-, -, rfl⟩⟩ := registerVariable_ok_inv h
  · exact extends_of_eq b rfl
  · exact extends_setScope_add b _ _ hsc

theorem visitLabel_extends {n : String} {l : SourceLocation} {si : List String}
    {st st' : State} {b : Bool} (h : visitLabel l n si st = Result.ok b st') :
    Extends b st st' := by
  obtain ⟨c, sc, -, hsc, ⟨-, -, rfl⟩ | ⟨-, i, ds, rfl⟩⟩ := visitLabel_ok_inv h
  · exact extends_of_eq b rfl
  · exact extends_trans (extends_setScope_add b n i hsc)
      (extends_afterRegistrations b (sc.add n i) ds (getElem?_setScope_self _ hsc)
        (scopeExtends_refl _))

theorem functionNameStep_extends (b : Bool) (st : State) (c : ScopeRef) (sc : Scope)
    (l : SourceLocation) (n : String) (na nr : Nat) (hsc : st.heap[c]? = some sc) :
    Extends b st (functionNameStep st c sc l n na nr).2.1 := by
  unfold functionNameStep
  split
  · exact extends_of_eq b rfl
  · exact extends_setScope_add b _ _ hsc

theorem enterFunction_extends {l : SourceLocation} {n : String} {as rs : List String} {a : Nat}
    {st st4 : State} {b : Bool} (h : enterFunction l n as rs a st = Result.ok b st4) :
    Extends b st st4 := by
  obtain ⟨c, sc, body, st2, bsc, hc, hsc, hcs, hb, rfl⟩ := enterFunction_ok_inv h
  have g1 := functionNameStep_extends b st c sc l n as.length rs.length hsc
  have g2 := createScope_extends b hcs
  have g3 : Extends b st2 (st2.setScope body { bsc with functionScope := true }) :=
    extends_of_set b hb rfl ⟨[], by simp⟩
  have g4 := extends_afterRegistrations b { bsc with functionScope := true }
    ((as ++ rs).map (fun x => (x, l))) (getElem?_setScope_self { bsc with functionScope := true } hb)
    (scopeExtends_refl _)
  exact extends_trans g1 (extends_trans g2 (extends_trans g3 g4))

theorem visitBlock_extends {addr : Nat} {f : State → Result Bool} {st st' : State} {b : Bool}
    (hf : ∀ st1 b1 st1', f st1 = Result.ok b1 st1' → Extends b1 st1 st1')
    (h : visitBlock addr f st = Result.ok b st') : Extends b st st' := by
  unfold visitBlock at h
  split at h
  · exact absurd h (by simp)
  · rename_i s st1 h1
    split at h
    · exact absurd h (by simp)
    · rename_i b2 st2 h2
      simp at h; obtain ⟨rfl, rfl⟩ := h
      have g1 := createScope_extends b2 h1
      have g2 := hf _ _ _ h2
      have g12 : Extends b2 st1 st2 := extends_trans (extends_of_eq b2 rfl) g2
      exact extends_trans g1 (extends_trans g12 (extends_of_eq b2 rfl))

/-- Every returning visit keeps the scope objects in place and only adds entries at the end of
their tables: an entry, once made, stays what it is. -/
theorem visit_extends_all :
    (∀ s st b st', visit s st = Result.ok b st' → Extends b st st') ∧
    (∀ l st b st', visitStatements l st = Result.ok b st' → Extends b st st') ∧
    (∀ l st b st', visitReversed l st = Result.ok b st' → Extends b st st') :=
  visit_rel_all Extends (fun st => extends_refl true st)
    (fun _ _ _ _ _ h1 h2 => extends_and h1 h2)
    (fun _ _ _ _ _ _ h => visitLabel_extends h) (fun _ _ _ _ _ _ _ h => registerVariable_extends h)
    (fun _ _ _ _ _ _ _ _ h => enterFunction_extends h)
    (fun _ _ _ _ _ hf h => visitBlock_extends hf h)

/-- An entry found in a table is still found, unchanged, after the table was extended. -/
theorem mapFind_of_scopeExtends {sc sc' : Scope} {n : String} {i : Identifier}
    (h : ScopeExtends sc sc') (hn : mapFind n sc.identifiers = some i) :
    mapFind n sc'.identifiers = some i := by
  obtain ⟨ext, e⟩ := h
  rw [e, mapFind_append, hn]

/-! ## Two function definitions with the same name -/

theorem visitStatements_append (l1 l2 : List Statement) :
    ∀ st, visitStatements (l1 ++ l2) st =
      match visitStatements l1 st with
      | Result.fatal e st1 => Result.fatal e st1
      | Result.ok b1 st1 =>
        match visitStatements l2 st1 with
        | Result.fatal e st2 => Result.fatal e st2
        | Result.ok b2 st2 => Result.ok (b1 && b2) st2 := by
  induction l1 with
  | nil =>
    intro st
    rw [List.nil_append]
    simp only [visitStatements]
    cases visitStatements l2 st <;> simp
  | cons s rest ih =>
    intro st
    rw [List.cons_append]
    simp only [visitStatements]
    cases visit s st with
    | fatal e st1 => rfl
    | ok b st1 =>
      simp only [ih st1]
      cases visitStatements rest st1 with
      | fatal e st2 => rfl
      | ok bs st2 =>
        simp only
        cases visitStatements l2 st2 with
        | fatal e st3 => rfl
        | ok b2 st3 => simp [Bool.and_assoc]

theorem blocksOfStatements_cons (s : Statement) (rest : List Statement) :
    blocksOfStatements (s :: rest) = blocksOf s ++ blocksOfStatements rest := by
  simp only [blocksOfStatements]

theorem blocksOfStatements_append (l1 l2 : List Statement) :
    blocksOfStatements (l1 ++ l2) = blocksOfStatements l1 ++ blocksOfStatements l2 := by
  induction l1 with
  | nil => rfl
  | cons s rest ih =>
    rw [List.cons_append]
    simp only [blocksOfStatements, ih, List.append_assoc]

/-- The state reached by a returning visit of a function definition whose name is taken in the
current scope: the flag is false and the first new record is the one for the function name. -/
theorem functionDefinition_name_taken {st st' : State} {c : ScopeRef} {csc : Scope}
    {l : SourceLocation} {name : String} {as rs : List String} {a : Nat} {bl : SourceLocation}
    {body : List Statement} {b : Bool} (hc : st.m_currentScope = some c)
    (hsc : st.heap[c]? = some csc) (hk : mapFind (some a) st.m_scopes = none)
    (hn : name ∈ csc.names)
    (hv : visit (Statement.functionDefinition l name as rs a bl body) st = Result.ok b st') :
    b = false ∧ ∃ more, st'.m_errors = st.m_errors ++ declarationError "Function" name l :: more := by
  obtain ⟨fsc, b1, st1, b2, st2, -, -, -, -, he, -, hb, rfl, rfl, -⟩ :=
    functionDefinition_visit_facts st st' c csc l name as rs a bl body b hc hsc hk hv
  have he' := enterFunction_new l name as rs a hc hsc hk
  have hstep : functionNameStep st c csc l name as.length rs.length =
      (false, st.pushError (declarationError "Function" name l), csc) := by
    simp [functionNameStep, hn]
  rw [hstep, he] at he'
  simp only [Result.ok.injEq, Bool.false_and] at he'
  obtain ⟨rfl, rfl⟩ := he'
  have hca : (st.pushError (declarationError "Function" name l)).heap[c]? = some csc := hsc
  have hka : mapFind (some a) (st.pushError (declarationError "Function" name l)).m_scopes =
      none := hk
  obtain ⟨-, g2, -⟩ := afterEnterFunction_outer a ((as ++ rs).map (fun n => (n, l))) hca hka
  obtain ⟨new, e, -⟩ := visitStatements_errRel hb
  refine ⟨rfl, (rejected [] ((as ++ rs).map (fun n => (n, l)))).map
    (fun d => declarationError "Variable" d.1 d.2) ++ new, ?_⟩
  show st2.m_errors = _
  rw [e]
  show (afterEnterFunction _ c csc a _).m_errors ++ new = _
  rw [g2]
  simp [State.pushError]

/-- The state reached by a returning visit of a function definition whose name is free in the
current scope `c`: the table of `c` has the function's entry. -/
theorem functionDefinition_name_fresh {st st' : State} {c : ScopeRef} {csc : Scope}
    {l : SourceLocation} {name : String} {as rs : List String} {a : Nat} {bl : SourceLocation}
    {body : List Statement} {b : Bool} (hc : st.m_currentScope = some c)
    (hsc : st.heap[c]? = some csc) (hk : mapFind (some a) st.m_scopes = none)
    (hn : name ∉ csc.names)
    (hv : visit (Statement.functionDefinition l name as rs a bl body) st = Result.ok b st') :
    ∃ csc', st'.heap[c]? = some csc' ∧
      mapFind name csc'.identifiers = some (Identifier.Function as.length rs.length) := by
  obtain ⟨fsc, b1, st1, b2, st2, -, -, -, -, he, -, hb, rfl, rfl, -⟩ :=
    functionDefinition_visit_facts st st' c csc l name as rs a bl body b hc hsc hk hv
  have he' := enterFunction_new l name as rs a hc hsc hk
  have hstep : functionNameStep st c csc l name as.length rs.length =
      (true, st.setScope c (csc.add name (Identifier.Function as.length rs.length)),
        csc.add name (Identifier.Function as.length rs.length)) := by
    simp [functionNameStep, hn]
  rw [hstep, he] at he'
  simp only [Result.ok.injEq] at he'
  obtain ⟨-, rfl⟩ := he'
  have hca : (st.setScope c (csc.add name (Identifier.Function as.length rs.length))).heap[c]? =
      some (csc.add name (Identifier.Function as.length rs.length)) :=
    getElem?_setScope_self _ hsc
  have hka : mapFind (some a)
      (st.setScope c (csc.add name (Identifier.Function as.length rs.length))).m_scopes =
      none := hk
  obtain ⟨g1, -, -⟩ := afterEnterFunction_outer a ((as ++ rs).map (fun n => (n, l))) hca hka
  have hfind : mapFind name (csc.add name (Identifier.Function as.length rs.length)).identifiers =
      some (Identifier.Function as.length rs.length) := by
    show mapFind name (csc.identifiers ++ _) = _
    rw [mapFind_append_of_none _ (mapFind_of_not_mem_names hn)]
    simp [mapFind]
  obtain ⟨csc', h1, h2⟩ := visit_extends_all.2.1 _ _ _ _ hb c _ g1
  exact ⟨csc', h1, mapFind_of_scopeExtends h2 hfind⟩

/-- Counterexample for C13 as stated: the block `{ let f := 1  function f() {}  function f(a) {} }`
(block at address 1, bodies at 2 and 3) contains two function definitions with the same name,
but after the visit from a fresh filler the scope of the block (object 1) has `f` as a
variable and no function entry at all: both definitions were refused. -/
theorem function_name_taken_by_variable :
    visit (Statement.block 1 sampleLocation
      [Statement.variableDeclaration sampleLocation "f" (Statement.literal sampleLocation true "1"),
       Statement.functionDefinition sampleLocation "f" [] [] 2 sampleLocation [],
       Statement.functionDefinition sampleLocation "f" ["a"] [] 3 sampleLocation []])
      (freshFiller []) =
    Result.ok false
      { heap := [rootWithBlock,
          { identifiers := [("f", Identifier.Variable)], superScope := some 0,
            subScopes := [2, 3], functionScope := false },
          { identifiers := [], superScope := some 1, subScopes := [], functionScope := true },
          { identifiers := [("a", Identifier.Variable)], superScope := some 1, subScopes := [],
            functionScope := true }],
        m_scopes := [(none, some 0), (some 1, some 1), (some 2, some 2), (some 3, some 3)],
        m_errors := [declarationError "Function" "f" sampleLocation,
          declarationError "Function" "f" sampleLocation],
        m_currentScope := some 0 } := by
  decide

/-- C13 (as amended): a block at address `a` whose statements are `pre`, a definition of the
function `name`, `mid`, a second definition of `name`, `post`; all blocks with pairwise
different addresses; `name` not in the table of the block's scope when the first definition is
reached.  Visited from a fresh filler, the block's visit returns false; the visit of the second
definition returns false and the records it appends start with "Function name ... already
taken in this scope." at its location, which is in the final sink; the scope of the block
(object 1) has for `name` the function entry with the first definition's numbers of parameters
and return variables, and no other entry for `name`; the body of the second definition has a
scope of its own, with the function-scope flag and the block's scope as super scope, whose
table holds the second definition's parameters, return variables and the names declared by its
body's statements. -/
theorem second_definition_is_duplicate (errors : ErrorList) (a : Nat) (location : SourceLocation)
    (pre mid post : List Statement) (name : String)
    (l1 : SourceLocation) (as1 rs1 : List String) (a1 : Nat) (bl1 : SourceLocation)
    (body1 : List Statement)
    (l2 : SourceLocation) (as2 rs2 : List String) (a2 : Nat) (bl2 : SourceLocation)
    (body2 : List Statement)
    (hnd : (blocksOf (Statement.block a location
      ((pre ++ Statement.functionDefinition l1 name as1 rs1 a1 bl1 body1 :: mid) ++
        Statement.functionDefinition l2 name as2 rs2 a2 bl2 body2 :: post))).Nodup)
    (hfree : name ∉ tableNames (visitStatements pre (insideBlock errors a)).state 1) :
    ∃ st' bA stA stB more bsc r2 fsc2,
      visit (Statement.block a location
        ((pre ++ Statement.functionDefinition l1 name as1 rs1 a1 bl1 body1 :: mid) ++
          Statement.functionDefinition l2 name as2 rs2 a2 bl2 body2 :: post))
        (freshFiller errors) = Result.ok false st' ∧
      visitStatements (pre ++ Statement.functionDefinition l1 name as1 rs1 a1 bl1 body1 :: mid)
        (insideBlock errors a) = Result.ok bA stA ∧
      visit (Statement.functionDefinition l2 name as2 rs2 a2 bl2 body2) stA =
        Result.ok false stB ∧
      stB.m_errors = stA.m_errors ++ declarationError "Function" name l2 :: more ∧
      declarationError "Function" name l2 ∈ st'.m_errors ∧
      ScopeOf st' a 1 ∧ st'.heap[1]? = some bsc ∧
      mapFind name bsc.identifiers = some (Identifier.Function as1.length rs1.length) ∧
      bsc.identifiers.filter (fun e => decide (e.1 = name)) =
        [(name, Identifier.Function as1.length rs1.length)] ∧
      ScopeOf st' a2 r2 ∧ r2 ≠ 1 ∧ st'.heap[r2]? = some fsc2 ∧
      fsc2.functionScope = true ∧ fsc2.superScope = some 1 ∧
      (∀ n ∈ as2 ++ rs2, n ∈ fsc2.names) ∧
      (∀ s ∈ body2, ∀ d, declarationOf s = some d → d.name ∈ fsc2.names) := by
  generalize hfd1 : Statement.functionDefinition l1 name as1 rs1 a1 bl1 body1 = fd1 at hnd ⊢
  generalize hfd2 : Statement.functionDefinition l2 name as2 rs2 a2 bl2 body2 = fd2 at hnd ⊢
  have hb1 : blocksOf fd1 = a1 :: blocksOfStatements body1 := by rw [← hfd1]; simp [blocksOf]
  have hb2 : blocksOf fd2 = a2 :: blocksOfStatements body2 := by rw [← hfd2]; simp [blocksOf]
  have hnd' : (a :: (blocksOfStatements pre ++ (blocksOf fd1 ++ (blocksOfStatements mid ++
      (blocksOf fd2 ++ blocksOfStatements post))))).Nodup := by
    have e : blocksOf (Statement.block a location ((pre ++ fd1 :: mid) ++ fd2 :: post)) =
        a :: (blocksOfStatements pre ++ (blocksOf fd1 ++ (blocksOfStatements mid ++
          (blocksOf fd2 ++ blocksOfStatements post)))) := by
      show a :: blocksOfStatements ((pre ++ fd1 :: mid) ++ fd2 :: post) = _
      rw [blocksOfStatements_append, blocksOfStatements_append, blocksOfStatements_cons,
        blocksOfStatements_cons, List.append_assoc, List.append_assoc]
    rw [e] at hnd
    exact hnd
  obtain ⟨hna, hndl⟩ := List.nodup_cons.mp hnd'
  -- the state in which the statements are visited
  have hready : Ready (insideBlock errors a) 1 (blocksOfStatements pre ++ (blocksOf fd1 ++
      (blocksOfStatements mid ++ (blocksOf fd2 ++ blocksOfStatements post)))) := by
    refine ⟨rfl, ⟨childOf 0, rfl⟩, ?_, hndl⟩
    intro x hx
    have hxa : ¬ a = x := fun e => hna (e ▸ hx)
    simp [insideBlock, mapFind, hxa]
  -- the statements before the first definition
  obtain ⟨b1, S1, hv1, hc1, hp1⟩ := visitStatements_post pre (fun s _ => visit_post s) none
    (insideBlock errors a) 1 (ready_left hready)
  have hr1 := ready_step hready hc1 hp1
  have hcur1 : S1.m_currentScope = some 1 := hr1.1
  obtain ⟨sc1, hsc1⟩ := hr1.2.1
  have hfree1 : name ∉ sc1.names := by
    rw [hv1] at hfree
    simp only [Result.state, tableNames, hsc1] at hfree
    exact hfree
  -- the first definition
  obtain ⟨bf1, S2, hv2, hc2, hp2⟩ := visit_post fd1 none S1 1 (ready_left hr1)
  have hr2 := ready_step hr1 hc2 hp2
  have hk1 : mapFind (some a1) S1.m_scopes = none :=
    hr1.2.2.1 a1 (List.mem_append_left _ (by rw [hb1]; exact List.mem_cons_self _ _))
  obtain ⟨sc2, hsc2, hf2⟩ : ∃ sc2, S2.heap[1]? = some sc2 ∧
      mapFind name sc2.identifiers = some (Identifier.Function as1.length rs1.length) := by
    rw [← hfd1] at hv2
    exact functionDefinition_name_fresh hcur1 hsc1 hk1 hfree1 hv2
  -- the statements between the two definitions
  obtain ⟨b3, S3, hv3, hc3, hp3⟩ := visitStatements_post mid (fun s _ => visit_post s) none
    S2 1 (ready_left hr2)
  have hr3 := ready_step hr2 hc3 hp3
  have hcur3 : S3.m_currentScope = some 1 := hr3.1
  obtain ⟨sc3, hsc3, hx3⟩ := visit_extends_all.2.1 _ _ _ _ hv3 1 sc2 hsc2
  have hf3 := mapFind_of_scopeExtends hx3 hf2
  have hn3 : name ∈ sc3.names := by
    have h : mapFind name sc3.identifiers ≠ none := by rw [hf3]; simp
    rw [Ne, mapFind_eq_none_iff, not_not] at h
    exact h
  -- the second definition
  obtain ⟨bf2, S4, hv4, hc4, hp4⟩ := visit_post fd2 none S3 1 (ready_left hr3)
  have hr4 := ready_step hr3 hc4 hp4
  have hk2 : mapFind (some a2) S3.m_scopes = none :=
    hr3.2.2.1 a2 (List.mem_append_left _ (by rw [hb2]; exact List.mem_cons_self _ _))
  have hv4' := hv4
  rw [← hfd2] at hv4
  obtain ⟨rfl, more, herr4⟩ := functionDefinition_name_taken hcur3 hsc3 hk2 hn3 hv4
  obtain ⟨fsc, -, -, -, -, hs4, hF4, hsup4, hflag4, -, -, -, -, -, hpar4, hdecl4, -⟩ :=
    functionDefinition_visit_facts S3 S4 1 sc3 l2 name as2 rs2 a2 bl2 body2 false hcur3 hsc3
      hk2 hv4
  obtain ⟨sc4, hsc4, hx4⟩ := visit_extends_all.1 _ _ _ _ hv4 1 sc3 hsc3
  have hf4 := mapFind_of_scopeExtends hx4 hf3
  have hne : S3.heap.length ≠ 1 := Nat.ne_of_gt (List.getElem?_eq_some.mp hsc3).1
  -- the statements after the second definition
  have hr4' : Ready S4 1 (blocksOfStatements post ++ []) := by
    rw [List.append_nil]; exact hr4
  obtain ⟨b5, S5, hv5, hc5, hp5⟩ := visitStatements_post post (fun s _ => visit_post s) none
    S4 1 (ready_left hr4')
  obtain ⟨sc5, hsc5, hx5⟩ := visit_extends_all.2.1 _ _ _ _ hv5 1 sc4 hsc4
  have hf5 := mapFind_of_scopeExtends hx5 hf4
  obtain ⟨-, g5⟩ := visit_step_all.2.1 _ _ _ _ hv5
  obtain ⟨fsc5, hF5, sg5⟩ := g5.2 S3.heap.length fsc hF4
  obtain ⟨new5, herr5, -⟩ := visitStatements_errRel hv5
  -- the whole run
  have hvA : visitStatements (pre ++ fd1 :: mid) (insideBlock errors a) =
      Result.ok (b1 && (bf1 && b3)) S3 := by
    rw [visitStatements_append, hv1]
    simp only [visitStatements, hv2, hv3]
  have hvB : visitStatements (fd2 :: post) S3 = Result.ok false S5 := by
    simp only [visitStatements, hv4', hv5, Bool.false_and]
  have hvAll : visitStatements ((pre ++ fd1 :: mid) ++ fd2 :: post) (insideBlock errors a) =
      Result.ok false S5 := by
    rw [visitStatements_append, hvA]
    simp only [hvB, Bool.and_false]
  obtain ⟨-, gAll⟩ := visit_step_all.2.1 _ _ _ _ hvAll
  have hsa : ScopeOf S5 a 1 := by
    apply gAll.1
    simp [insideBlock, mapFind]
  have hkeys : sc5.names.Nodup :=
    visit_keepsNodup_all.2.1 _ _ _ _ hvAll (tablesNodup_insideBlock errors a) 1 sc5 hsc5
  refine ⟨{ S5 with m_currentScope := some 0 }, b1 && (bf1 && b3), S3, S4, more, sc5,
    S3.heap.length, fsc5, ?_, hvA, hv4', herr4, ?_, hsa, hsc5, hf5, filter_of_mapFind hkeys hf5,
    g5.1 _ _ hs4, hne, hF5,
    sg5.2.2 hflag4, sg5.2.1 1 hsup4, fun n hn => sg5.1 n (hpar4 n hn),
    fun s hs d hd => sg5.1 _ (hdecl4 s hs d hd)⟩
  · rw [visit_block_fresh, hvAll]
  · show declarationError "Function" name l2 ∈ S5.m_errors
    rw [herr5, herr4]
    simp

/-- Witness for C13: the block `{ let y := 1  function f(a) -> r {}  m:  function f(p) { let z := 2 } }`
at address 1, bodies at 2 and 3, in a fresh filler: the visit returns false, the second
definition (at the location 5..9) is reported, `f` stays the function with one parameter and
one return variable, and the scope of the second body holds `p` and `z`. -/
theorem second_definition_is_duplicate_witness :
    ∃ st' bsc r2 fsc2,
      visit (Statement.block 1 sampleLocation
        (([Statement.variableDeclaration sampleLocation "y"
            (Statement.literal sampleLocation true "1")] ++
          Statement.functionDefinition sampleLocation "f" ["a"] ["r"] 2 sampleLocation [] ::
            [Statement.label sampleLocation "m" []]) ++
          Statement.functionDefinition { start := 5, stop := 9, sourceName := "" } "f" ["p"] [] 3
            sampleLocation
            [Statement.variableDeclaration sampleLocation "z"
              (Statement.literal sampleLocation true "2")] :: []))
        (freshFiller []) = Result.ok false st' ∧
      declarationError "Function" "f" { start := 5, stop := 9, sourceName := "" } ∈ st'.m_errors ∧
      st'.heap[1]? = some bsc ∧ mapFind "f" bsc.identifiers = some (Identifier.Function 1 1) ∧
      bsc.identifiers.filter (fun e => decide (e.1 = "f")) = [("f", Identifier.Function 1 1)] ∧
      ScopeOf st' 3 r2 ∧ st'.heap[r2]? = some fsc2 ∧ fsc2.functionScope = true ∧
      fsc2.superScope = some 1 ∧ "p" ∈ fsc2.names ∧ "z" ∈ fsc2.names := by
  obtain ⟨st', -, -, -, -, bsc, r2, fsc2, h1, -, -, -, h2, -, h3, h4, hone, h5, -, h6, h7, h8, h9,
    h10⟩ :=
    second_definition_is_duplicate [] 1 sampleLocation
      [Statement.variableDeclaration sampleLocation "y" (Statement.literal sampleLocation true "1")]
      [Statement.label sampleLocation "m" []] [] "f"
      sampleLocation ["a"] ["r"] 2 sampleLocation []
      { start := 5, stop := 9, sourceName := "" } ["p"] [] 3 sampleLocation
      [Statement.variableDeclaration sampleLocation "z" (Statement.literal sampleLocation true "2")]
      (by decide) (by decide)
  exact ⟨st', bsc, r2, fsc2, h1, h2, h3, h4, hone, h5, h6, h7, h8, h9 "p" (by decide),
    h10 _ (List.mem_cons_self _ _) _ rfl⟩

end AsmScopeFiller
